import Mathlib

/-!
Verification of the CoDiPack chunk-tape core (`src/include/tapes/chunkTape.hpp`
and `src/include/tapes/chunkIndexReuse.hpp`) against its specification.

Modelling conventions:
* `Real` is modelled as `ℚ` (exact arithmetic; the spec states adjoint
  correctness up to floating-point rounding, so the embedding works in the
  exact field).  `isfinite` from `math.h` is an oracle parameter of the
  configuration, since every `ℚ` is finite but `double` is not.
* `IndexType` is modelled as `ℕ`.
* The ChunkVector layer (`chunkVector.hpp`, `chunk.hpp`) is not part of
  `src/`; it is modelled from the spec (§3, §4.1) with a single current
  chunk of unbounded capacity: `reserveItems` always succeeds, no chunk is
  ever sealed, and a position is `(chunkIdx = 0, intraChunkIdx, innerPos)`.
  Consequently the descending chunk loops of `evaluateStmt`/`evaluateData`
  are vacuous and only their remainder calls are embedded.
* The adjoint vector is modelled as a total function `ℕ → ℚ` together with
  its size field.
-/

namespace codi

structure Config where
  optTapeActivity : Bool
  optIgnoreInvalidJacobies : Bool
  optJacobiIsZero : Bool
  optZeroAdjoint : Bool
  isfinite : ℚ → Bool

/-- Modelled from the spec: the `ENABLE_CHECK(option, condition)` macro of
`config.h` guards a block by `condition` only when the compile-time `option`
is enabled; with the option disabled the block always runs. -/
def enableCheck (opt cond : Bool) : Bool := !opt || cond

/-- Modelled from the spec (§3): `StatementInt` is `u8`, so the cast
`(StatementInt)activeVariables` in `store` truncates modulo 256. -/
def statementIntCast (n : ℕ) : ℕ := n % 256

/-- Position of the jacobi-data chunk vector: `(chunkIdx, intraChunkIdx,
innerPos)` where the inner position is the `ExpressionCounter` count for the
linear tape and the (integer) `EmptyChunkVector` position for the reuse
tape. -/
structure DataPosition where
  chunk : ℕ
  data : ℕ
  inner : ℕ
deriving DecidableEq, Repr

/-- Position of the statement chunk vector. -/
structure StmtPosition where
  chunk : ℕ
  data : ℕ
  inner : DataPosition
deriving DecidableEq, Repr

/-- Position of the external-function chunk vector; this is the tape's
top-level `Position`. -/
structure ExtPosition where
  chunk : ℕ
  data : ℕ
  inner : StmtPosition
deriving DecidableEq, Repr

/-- The default-constructed `Position()` (all components zero). -/
def DataPosition.zero : DataPosition := ⟨0, 0, 0⟩

/-- The default-constructed statement position. -/
def StmtPosition.zero : StmtPosition := ⟨0, 0, DataPosition.zero⟩

/-- The default-constructed tape position, used by `reset()` and
`evaluate()`. -/
def ExtPosition.zero : ExtPosition := ⟨0, 0, StmtPosition.zero⟩

/-- One entry of the jacobi data log: a `(jacobian, rhsIndex)` pair as
pushed by `data.setDataAndMove(std::make_tuple(jacobi, index))`. -/
abbrev JEntry := ℚ × ℕ

/-- Embedding of `pushJacobi(gradient, jacobi, value, index)` (the general
variant), identical in `chunkTape.hpp` (lines 369-379) and
`chunkIndexReuse.hpp` (lines 366-377), acting on the jacobi data log: the
entry is appended only if the index is nonzero and it passes the
`OptIgnoreInvalidJacobies` and `OptJacobiIsZero` filters. -/
def pushJacobiData (cfg : Config) (jacobi : ℚ) (index : ℕ) (log : List JEntry) :
    List JEntry :=
  if index ≠ 0 then
    if enableCheck cfg.optIgnoreInvalidJacobies (cfg.isfinite jacobi) then
      if enableCheck cfg.optJacobiIsZero (decide (jacobi ≠ 0)) then
        log ++ [(jacobi, index)]
      else log
    else log
  else log

/-- Embedding of the unary `pushJacobi(gradient, value, index)` variant
(`chunkTape.hpp` lines 353-359, `chunkIndexReuse.hpp` lines 347-354): pushes
`{1.0, index}` whenever the index is nonzero, with no further checks. -/
def pushJacobiUnit (index : ℕ) (log : List JEntry) : List JEntry :=
  if index ≠ 0 then log ++ [(1, index)] else log

/-- Whether the general `pushJacobi` keeps an entry; used to describe the
data pushed by a whole `calcGradient` run. -/
def jacobiKeep (cfg : Config) (e : JEntry) : Bool :=
  if e.2 ≠ 0 then
    if enableCheck cfg.optIgnoreInvalidJacobies (cfg.isfinite e.1) then
      enableCheck cfg.optJacobiIsZero (decide (e.1 ≠ 0))
    else false
  else false

/-- Pushing a whole sequence of raw jacobi entries through the general
`pushJacobi`, in order; this is what a `calcGradient` run does to the data
log. -/
def pushJacobiAll (cfg : Config) (log : List JEntry) (raw : List JEntry) :
    List JEntry :=
  raw.foldl (fun l e => pushJacobiData cfg e.1 e.2 l) log

/-- Expression templates on the right-hand side of an assignment.  The
expression layer is an external collaborator of the tapes (spec §1, §6); the
tapes only consume `getValue`, `calcGradient` and `maxActiveVariables`. -/
inductive Expr where
  | const : ℚ → Expr
  | var : ℕ → Expr
  | add : Expr → Expr → Expr
  | mul : Expr → Expr → Expr
deriving DecidableEq, Repr

/-- Modelled from the spec: `Rhs::getValue()`, the primal evaluation of an
expression over the current program-variable values. -/
def evalExpr (vals : ℕ → ℚ) : Expr → ℚ
  | .const c => c
  | .var v => vals v
  | .add a b => evalExpr vals a + evalExpr vals b
  | .mul a b => evalExpr vals a * evalExpr vals b

/-- Modelled from the spec: `Rhs::calcGradient` "recursively invokes
`Tape.pushJacobi` once per active leaf" (spec §6), carrying the accumulated
partial derivative of the expression with respect to that leaf occurrence as
the jacobian.  This lists the `(jacobian, rhsIndex)` arguments of those
`pushJacobi` calls, in left-to-right order, for initial multiplier `m`. -/
def calcGradientEntries (vals : ℕ → ℚ) (idx : ℕ → ℕ) : Expr → ℚ → List JEntry
  | .const _, _ => []
  | .var v, m => [(m, idx v)]
  | .add a b, m =>
      calcGradientEntries vals idx a m ++ calcGradientEntries vals idx b m
  | .mul a b, m =>
      calcGradientEntries vals idx a (m * evalExpr vals b) ++
        calcGradientEntries vals idx b (m * evalExpr vals a)

/-- The symbolic (forward, dual-number) derivative of an expression: `dual v`
is `∂(vals v)/∂x` for the chosen input `x`, and the result is `∂e/∂x`. -/
def derivExpr (vals dual : ℕ → ℚ) : Expr → ℚ
  | .const _ => 0
  | .var v => dual v
  | .add a b => derivExpr vals dual a + derivExpr vals dual b
  | .mul a b =>
      derivExpr vals dual a * evalExpr vals b +
        evalExpr vals a * derivExpr vals dual b

/-- The program-variable environment seen by the tape facade: each program
variable carries a primal value and its gradient data (the `IndexType`
index), as in `ActiveReal`. -/
structure Mach where
  vals : ℕ → ℚ
  idxs : ℕ → ℕ

/-- Modelled from the spec (§3): the reuse index policy of
`indexHandler.hpp` (not part of `src/`): a maximum issued index plus a LIFO
free list. -/
structure IndexHandler where
  maxIssued : ℕ
  freeList : List ℕ
deriving Repr

/-- Modelled from the spec (§3): `checkIndex(i)`: if `i == 0`, assigns from
`freeList.pop()` or `++maxIssued`; otherwise the index is kept.  Returns the
new handler state and the (possibly re-assigned) index. -/
def IndexHandler.checkIndex (h : IndexHandler) (i : ℕ) : IndexHandler × ℕ :=
  if i = 0 then
    match h.freeList with
    | [] => ({ h with maxIssued := h.maxIssued + 1 }, h.maxIssued + 1)
    | f :: rest => ({ h with freeList := rest }, f)
  else (h, i)

/-- Modelled from the spec (§3): `freeIndex(i)`: if `i != 0`, pushes `i` to
the free list and sets `i := 0`.  Returns the new handler state and the new
index value. -/
def IndexHandler.freeIndex (h : IndexHandler) (i : ℕ) : IndexHandler × ℕ :=
  if i ≠ 0 then ({ h with freeList := i :: h.freeList }, 0) else (h, i)

/-- The linear-index tape (`ChunkTape` of `chunkTape.hpp`).  Chunk columns
are modelled as lists in push order: `data` zips the jacobi and index
columns of the `Chunk2`, `stmts` holds the `argCount` column, and
`extFuncs` pairs an opaque external-function identifier with the stored
statement-log boundary. -/
structure ChunkTape where
  expressionCount : ℕ
  data : List JEntry
  stmts : List ℕ
  extFuncs : List (ℕ × StmtPosition)
  adjoints : ℕ → ℚ
  adjointsSize : ℕ
  active : Bool

/-- The reuse-index tape (`ChunkIndexReuseTape` of `chunkIndexReuse.hpp`).
Its statement chunk is a `Chunk2<StatementInt, IndexType>`, modelled as a
list of `(argCount, lhsIndex)` pairs. -/
structure ChunkIndexReuseTape where
  data : List JEntry
  stmts : List (ℕ × ℕ)
  extFuncs : List (ℕ × StmtPosition)
  adjoints : ℕ → ℚ
  adjointsSize : ℕ
  active : Bool
  indexHandler : IndexHandler

/-- Ascending zero-fill loop `for(i = s; i < s + n; ++i) adjoints[i] = 0.0`,
shared by `resizeAdjoints`, `clearAdjoints` and `reset` of both tapes. -/
def zeroRange (adj : ℕ → ℚ) (s n : ℕ) : ℕ → ℚ :=
  (List.range' s n).foldl (fun a i => Function.update a i 0) adj

namespace ChunkTape

/-- `getPosition()` of the linear tape: the nested position of the
external-function vector (single-chunk model, so all chunk indices are 0 and
the innermost position is the expression counter). -/
def getPosition (t : ChunkTape) : ExtPosition :=
  ⟨0, t.extFuncs.length, ⟨0, t.stmts.length, ⟨0, t.data.length, t.expressionCount⟩⟩⟩

/-- `getPosition()` of the statement chunk vector, as captured by
`pushExternalFunctionHandle`. -/
def getStmtPosition (t : ChunkTape) : StmtPosition :=
  ⟨0, t.stmts.length, ⟨0, t.data.length, t.expressionCount⟩⟩

/-- `resizeAdjoints(size)`: reallocates the adjoint vector and
zero-initializes the tail `[oldSize, size)`. -/
def resizeAdjoints (t : ChunkTape) (size : ℕ) : ChunkTape :=
  { t with adjointsSize := size,
           adjoints := zeroRange t.adjoints t.adjointsSize (size - t.adjointsSize) }

/-- `gradient(index)`: grows the adjoint vector on demand, then returns a
reference; modelled as the write `gradient(index) = g`.  The `assert(0 !=
index)` contract is a precondition (spec §7), not modelled as a branch. -/
def gradientWrite (t : ChunkTape) (index : ℕ) (g : ℚ) : ChunkTape :=
  let t1 := if t.adjointsSize ≤ index then t.resizeAdjoints (index + 1) else t
  { t1 with adjoints := Function.update t1.adjoints index g }

/-- `setGradient(index, gradient)`: writes through `gradient(index)` unless
the index is the inactive sentinel 0. -/
def setGradient (t : ChunkTape) (index : ℕ) (g : ℚ) : ChunkTape :=
  if index ≠ 0 then t.gradientWrite index g else t

/-- `getGradient(index)`: reads the adjoint, returning `Real()` (= 0) when
the index is outside the allocated adjoint vector. -/
def getGradient (t : ChunkTape) (index : ℕ) : ℚ :=
  if t.adjointsSize ≤ index then 0 else t.adjoints index

/-- `clearAdjoints()`: zeroes indices `0 .. expressionCount.count`
inclusive. -/
def clearAdjoints (t : ChunkTape) : ChunkTape :=
  { t with adjoints := zeroRange t.adjoints 0 (t.expressionCount + 1) }

/-- `clearAdjoints(start, end)` (`chunkTape.hpp` lines 473-477): zeroes
adjoint indices `start.inner.inner.inner .. end.inner.inner.inner`
inclusive, by an ascending loop. -/
def clearAdjointsBetween (t : ChunkTape) (start endp : ExtPosition) : ChunkTape :=
  let s := start.inner.inner.inner
  let e := endp.inner.inner.inner
  { t with adjoints := zeroRange t.adjoints s (e + 1 - s) }

/-- The general-expression `store(lhsValue, lhsIndex, rhs)` overload of the
linear tape (`chunkTape.hpp` lines 278-303), recording the assignment
`v := rhs` of the program.  `reserveItems` always succeeds in the
single-chunk model and is elided.  The jacobi pushes of `rhs.calcGradient`
are replayed through `pushJacobiAll`; `activeVariables` is the growth of the
data-chunk position. -/
def store (cfg : Config) (t : ChunkTape) (m : Mach) (v : ℕ) (rhs : Expr) :
    ChunkTape × Mach :=
  let value := evalExpr m.vals rhs
  if enableCheck cfg.optTapeActivity t.active then
    let newData := pushJacobiAll cfg t.data (calcGradientEntries m.vals m.idxs rhs 1)
    let activeVariables := newData.length - t.data.length
    if activeVariables = 0 then
      ({ t with data := newData },
       { vals := Function.update m.vals v value,
         idxs := Function.update m.idxs v 0 })
    else
      ({ t with data := newData,
                stmts := t.stmts ++ [statementIntCast activeVariables],
                expressionCount := t.expressionCount + 1 },
       { vals := Function.update m.vals v value,
         idxs := Function.update m.idxs v (t.expressionCount + 1) })
  else
    (t, { m with vals := Function.update m.vals v value })

/-- The copy `store` overload of the linear tape (`chunkTape.hpp` lines
317-325): when active, the lhs takes the rhs index; nothing is recorded.
When passive, the commented-out `lhsIndex = 0` means the lhs index is left
unchanged. -/
def storeCopy (cfg : Config) (t : ChunkTape) (m : Mach) (v w : ℕ) :
    ChunkTape × Mach :=
  if enableCheck cfg.optTapeActivity t.active then
    (t, { vals := Function.update m.vals v (m.vals w),
          idxs := Function.update m.idxs v (m.idxs w) })
  else
    (t, { m with vals := Function.update m.vals v (m.vals w) })

/-- The passive-value `store` overload of the linear tape (`chunkTape.hpp`
lines 339-344): when active, the lhs index is set to 0; when passive it is
left unchanged. -/
def storePassive (cfg : Config) (t : ChunkTape) (m : Mach) (v : ℕ) (c : ℚ) :
    ChunkTape × Mach :=
  if enableCheck cfg.optTapeActivity t.active then
    (t, { vals := Function.update m.vals v c,
          idxs := Function.update m.idxs v 0 })
  else
    (t, { m with vals := Function.update m.vals v c })

/-- `registerInput(value)` of the linear tape (`chunkTape.hpp` lines
728-733): pushes a zero-argument statement and assigns the incremented
expression counter as the input's index. -/
def registerInput (t : ChunkTape) (m : Mach) (v : ℕ) : ChunkTape × Mach :=
  ({ t with stmts := t.stmts ++ [0], expressionCount := t.expressionCount + 1 },
   { m with idxs := Function.update m.idxs v (t.expressionCount + 1) })

/-- `pushExternalFunctionHandle(function)` (`chunkTape.hpp` lines 713-716):
appends the function together with the current statement-log position as its
boundary. -/
def pushExternalFunctionHandle (t : ChunkTape) (fn : ℕ) : ChunkTape :=
  { t with extFuncs := t.extFuncs ++ [(fn, t.getStmtPosition)] }

end ChunkTape

namespace ChunkIndexReuseTape

/-- `getPosition()` of the reuse tape; the innermost (terminator) position
of the `EmptyChunkVector` is modelled as the integer 0. -/
def getPosition (t : ChunkIndexReuseTape) : ExtPosition :=
  ⟨0, t.extFuncs.length, ⟨0, t.stmts.length, ⟨0, t.data.length, 0⟩⟩⟩

/-- `getPosition()` of the statement chunk vector of the reuse tape. -/
def getStmtPosition (t : ChunkIndexReuseTape) : StmtPosition :=
  ⟨0, t.stmts.length, ⟨0, t.data.length, 0⟩⟩

/-- `resizeAdjoints(size)` of the reuse tape. -/
def resizeAdjoints (t : ChunkIndexReuseTape) (size : ℕ) : ChunkIndexReuseTape :=
  { t with adjointsSize := size,
           adjoints := zeroRange t.adjoints t.adjointsSize (size - t.adjointsSize) }

/-- `gradient(index)` of the reuse tape, modelled as a write (see the linear
variant). -/
def gradientWrite (t : ChunkIndexReuseTape) (index : ℕ) (g : ℚ) :
    ChunkIndexReuseTape :=
  let t1 := if t.adjointsSize ≤ index then t.resizeAdjoints (index + 1) else t
  { t1 with adjoints := Function.update t1.adjoints index g }

/-- `setGradient(index, gradient)` of the reuse tape (`chunkIndexReuse.hpp`
lines 409-413). -/
def setGradient (t : ChunkIndexReuseTape) (index : ℕ) (g : ℚ) :
    ChunkIndexReuseTape :=
  if index ≠ 0 then t.gradientWrite index g else t

/-- `getGradient(index)` of the reuse tape. -/
def getGradient (t : ChunkIndexReuseTape) (index : ℕ) : ℚ :=
  if t.adjointsSize ≤ index then 0 else t.adjoints index

/-- `clearAdjoints()` of the reuse tape: zeroes
`0 .. getMaximumGlobalIndex()` inclusive. -/
def clearAdjoints (t : ChunkIndexReuseTape) : ChunkIndexReuseTape :=
  { t with adjoints := zeroRange t.adjoints 0 (t.indexHandler.maxIssued + 1) }

/-- `clearAdjoints(start, end)` of the reuse tape (`chunkIndexReuse.hpp`
lines 471-475), identical loop to the linear variant. -/
def clearAdjointsBetween (t : ChunkIndexReuseTape) (start endp : ExtPosition) :
    ChunkIndexReuseTape :=
  let s := start.inner.inner.inner
  let e := endp.inner.inner.inner
  { t with adjoints := zeroRange t.adjoints s (e + 1 - s) }

/-- The general-expression `store` overload of the reuse tape
(`chunkIndexReuse.hpp` lines 265-289): with no active variables on the rhs
the lhs index is freed; otherwise `checkIndex` (re-)assigns the lhs index
and the statement `(activeVariables, lhsIndex)` is pushed. -/
def store (cfg : Config) (t : ChunkIndexReuseTape) (m : Mach) (v : ℕ)
    (rhs : Expr) : ChunkIndexReuseTape × Mach :=
  let value := evalExpr m.vals rhs
  if enableCheck cfg.optTapeActivity t.active then
    let newData := pushJacobiAll cfg t.data (calcGradientEntries m.vals m.idxs rhs 1)
    let activeVariables := newData.length - t.data.length
    if activeVariables = 0 then
      let fr := t.indexHandler.freeIndex (m.idxs v)
      ({ t with data := newData, indexHandler := fr.1 },
       { vals := Function.update m.vals v value,
         idxs := Function.update m.idxs v fr.2 })
    else
      let ck := t.indexHandler.checkIndex (m.idxs v)
      ({ t with data := newData, indexHandler := ck.1,
                stmts := t.stmts ++ [(statementIntCast activeVariables, ck.2)] },
       { vals := Function.update m.vals v value,
         idxs := Function.update m.idxs v ck.2 })
  else
    let fr := t.indexHandler.freeIndex (m.idxs v)
    ({ t with indexHandler := fr.1 },
     { vals := Function.update m.vals v value,
       idxs := Function.update m.idxs v fr.2 })

/-- The copy `store` overload of the reuse tape (`chunkIndexReuse.hpp` lines
303-319): an active copy from an active rhs records a single `{1.0, r}`
jacobi and a `{1, lhsIndex}` statement; otherwise the lhs index is freed. -/
def storeCopy (cfg : Config) (t : ChunkIndexReuseTape) (m : Mach) (v w : ℕ) :
    ChunkIndexReuseTape × Mach :=
  if enableCheck cfg.optTapeActivity t.active then
    if m.idxs w ≠ 0 then
      let ck := t.indexHandler.checkIndex (m.idxs v)
      ({ t with indexHandler := ck.1,
                data := t.data ++ [(1, m.idxs w)],
                stmts := t.stmts ++ [(1, ck.2)] },
       { vals := Function.update m.vals v (m.vals w),
         idxs := Function.update m.idxs v ck.2 })
    else
      let fr := t.indexHandler.freeIndex (m.idxs v)
      ({ t with indexHandler := fr.1 },
       { vals := Function.update m.vals v (m.vals w),
         idxs := Function.update m.idxs v fr.2 })
  else
    let fr := t.indexHandler.freeIndex (m.idxs v)
    ({ t with indexHandler := fr.1 },
     { vals := Function.update m.vals v (m.vals w),
       idxs := Function.update m.idxs v fr.2 })

/-- The passive-value `store` overload of the reuse tape
(`chunkIndexReuse.hpp` lines 333-336): frees the lhs index unconditionally
(no activity check). -/
def storePassive (t : ChunkIndexReuseTape) (m : Mach) (v : ℕ) (c : ℚ) :
    ChunkIndexReuseTape × Mach :=
  let fr := t.indexHandler.freeIndex (m.idxs v)
  ({ t with indexHandler := fr.1 },
   { vals := Function.update m.vals v c,
     idxs := Function.update m.idxs v fr.2 })

/-- `registerInput(value)` of the reuse tape (`chunkIndexReuse.hpp` lines
729-731): merely runs `checkIndex` on the value's gradient data; no
statement is pushed. -/
def registerInput (t : ChunkIndexReuseTape) (m : Mach) (v : ℕ) :
    ChunkIndexReuseTape × Mach :=
  let ck := t.indexHandler.checkIndex (m.idxs v)
  ({ t with indexHandler := ck.1 },
   { m with idxs := Function.update m.idxs v ck.2 })

/-- `pushExternalFunctionHandle(function)` of the reuse tape
(`chunkIndexReuse.hpp` lines 708-711). -/
def pushExternalFunctionHandle (t : ChunkIndexReuseTape) (fn : ℕ) :
    ChunkIndexReuseTape :=
  { t with extFuncs := t.extFuncs ++ [(fn, t.getStmtPosition)] }

end ChunkIndexReuseTape

/-- The filtered jacobi entries that a `store` of `rhs` records on the data
log: the `calcGradient` pushes that survive `pushJacobi`. -/
def storedEntries (cfg : Config) (m : Mach) (rhs : Expr) : List JEntry :=
  (calcGradientEntries m.vals m.idxs rhs 1).filter (jacobiKeep cfg)

/-- Sample configuration for concrete witnesses: activity checks compiled
in, jacobi filters off, `OptZeroAdjoint` on, every value finite. -/
def cfgW : Config := ⟨true, false, false, true, fun _ => true⟩

/-- Sample machine: every program variable has value 3 and index 1. -/
def machW : Mach := ⟨fun _ => 3, fun _ => 1⟩

/-- Sample active linear tape. -/
def tapeW : ChunkTape := ⟨0, [], [], [], fun _ => 0, 0, true⟩

/-- Sample active reuse tape with one issued index. -/
def rtapeW : ChunkIndexReuseTape := ⟨[], [], [], fun _ => 0, 0, true, ⟨1, []⟩⟩

/-- Sample passive linear tape. -/
def tapeWP : ChunkTape := ⟨0, [], [], [], fun _ => 0, 0, false⟩

/-- Sample passive reuse tape. -/
def rtapeWP : ChunkIndexReuseTape := ⟨[], [], [], fun _ => 0, 0, false, ⟨1, []⟩⟩

/-- Sample rhs expression `x * x`. -/
def exprW : Expr := Expr.mul (Expr.var 0) (Expr.var 0)

/-- The inner accumulation loop of the linear tape's `evaluateExpressions`
(`chunkTape.hpp` lines 526-530): `k` times, decrement `dataPos` and perform
`adjoints[indices[dataPos]] += adj * jacobies[dataPos]`.  `adj` is a
reference to `adjoints[adjPos]`, so it is re-read at every iteration.  Out
of range accesses default to 0.  The last component is the trace of
`(index, written value)` adjoint writes. -/
def accumLin (jacs : List ℚ) (idxs : List ℕ) (adjPos : ℕ) :
    ℕ → (ℕ → ℚ) → ℕ → List (ℕ × ℚ) → ((ℕ → ℚ) × ℕ × List (ℕ × ℚ))
  | 0, adj, dataPos, tr => (adj, dataPos, tr)
  | k + 1, adj, dataPos, tr =>
      accumLin jacs idxs adjPos k
        (Function.update adj (idxs.getD (dataPos - 1) 0)
          (adj (idxs.getD (dataPos - 1) 0) + adj adjPos * jacs.getD (dataPos - 1) 0))
        (dataPos - 1)
        (tr ++ [(idxs.getD (dataPos - 1) 0,
          adj (idxs.getD (dataPos - 1) 0) + adj adjPos * jacs.getD (dataPos - 1) 0)])

/-- `evaluateExpressions` of the linear tape (`chunkTape.hpp` lines
517-535): while `adjPos > endAdjPos`, read the lhs adjoint at `adjPos`,
decrement the positions, and either run the accumulation loop or (when
`OptZeroAdjoint` is on and the adjoint is zero) skip the statement's
`argCount` data entries.  Returns `(adjoints, stmtPos, dataPos, trace)`. -/
def evalExprsLin (cfg : Config) (stmts : List ℕ) (jacs : List ℚ)
    (idxs : List ℕ) (endAdjPos : ℕ) :
    ℕ → (ℕ → ℚ) → ℕ → ℕ → List (ℕ × ℚ) → ((ℕ → ℚ) × ℕ × ℕ × List (ℕ × ℚ))
  | 0, adj, stmtPos, dataPos, tr => (adj, stmtPos, dataPos, tr)
  | adjPos + 1, adj, stmtPos, dataPos, tr =>
      if adjPos + 1 ≤ endAdjPos then (adj, stmtPos, dataPos, tr)
      else
        if enableCheck cfg.optZeroAdjoint (decide (adj (adjPos + 1) ≠ 0)) then
          let r := accumLin jacs idxs (adjPos + 1) (stmts.getD (stmtPos - 1) 0)
            adj dataPos tr
          evalExprsLin cfg stmts jacs idxs endAdjPos adjPos r.1 (stmtPos - 1)
            r.2.1 r.2.2
        else
          evalExprsLin cfg stmts jacs idxs endAdjPos adjPos adj (stmtPos - 1)
            (dataPos - stmts.getD (stmtPos - 1) 0) tr

/-- The inner accumulation loop of the reuse tape's `evaluateExpressions`
(`chunkIndexReuse.hpp` lines 524-528); here the multiplier `a` is the lhs
adjoint read by value before the loop. -/
def accumReuse (jacs : List ℚ) (idxs : List ℕ) (a : ℚ) :
    ℕ → (ℕ → ℚ) → ℕ → List (ℕ × ℚ) → ((ℕ → ℚ) × ℕ × List (ℕ × ℚ))
  | 0, adj, dataPos, tr => (adj, dataPos, tr)
  | k + 1, adj, dataPos, tr =>
      accumReuse jacs idxs a k
        (Function.update adj (idxs.getD (dataPos - 1) 0)
          (adj (idxs.getD (dataPos - 1) 0) + a * jacs.getD (dataPos - 1) 0))
        (dataPos - 1)
        (tr ++ [(idxs.getD (dataPos - 1) 0,
          adj (idxs.getD (dataPos - 1) 0) + a * jacs.getD (dataPos - 1) 0)])

/-- `evaluateExpressions` of the reuse tape (`chunkIndexReuse.hpp` lines
515-533): while `stmtPos > endStmtPos`, decrement `stmtPos`, read the lhs
index and its adjoint (by value), write 0 to that adjoint slot, and run the
accumulation loop or skip `argCount` data entries under `OptZeroAdjoint`.
Returns `(adjoints, dataPos, trace)`. -/
def evalExprsReuse (cfg : Config) (argCounts lhsIdxs : List ℕ) (jacs : List ℚ)
    (idxs : List ℕ) (endStmtPos : ℕ) :
    ℕ → (ℕ → ℚ) → ℕ → List (ℕ × ℚ) → ((ℕ → ℚ) × ℕ × List (ℕ × ℚ))
  | 0, adj, dataPos, tr => (adj, dataPos, tr)
  | stmtPos + 1, adj, dataPos, tr =>
      if stmtPos + 1 ≤ endStmtPos then (adj, dataPos, tr)
      else
        if enableCheck cfg.optZeroAdjoint
            (decide (adj (lhsIdxs.getD stmtPos 0) ≠ 0)) then
          let r := accumReuse jacs idxs (adj (lhsIdxs.getD stmtPos 0))
            (argCounts.getD stmtPos 0)
            (Function.update adj (lhsIdxs.getD stmtPos 0) 0) dataPos
            (tr ++ [(lhsIdxs.getD stmtPos 0, 0)])
          evalExprsReuse cfg argCounts lhsIdxs jacs idxs endStmtPos stmtPos
            r.1 r.2.1 r.2.2
        else
          evalExprsReuse cfg argCounts lhsIdxs jacs idxs endStmtPos stmtPos
            (Function.update adj (lhsIdxs.getD stmtPos 0) 0)
            (dataPos - argCounts.getD stmtPos 0)
            (tr ++ [(lhsIdxs.getD stmtPos 0, 0)])

/-- The adjoint slots written by an accumulation loop that consumes `k`
entries downward from `dataPos`. -/
def consumedTargets (idxs : List ℕ) (dataPos k : ℕ) : List ℕ :=
  (List.range k).map (fun i => idxs.getD (dataPos - 1 - i) 0)

/-- Modelled from the spec (§4.1): `forEach(start, end, visitor)` of the
external-function chunk vector visits the records between the two positions
in descending order.  In the single-chunk model these are the records at
offsets `end.data .. start.data - 1`, visited downward. -/
def extForEachSlice (recs : List (ℕ × StmtPosition)) (startData endData : ℕ) :
    List (ℕ × StmtPosition) :=
  ((recs.take startData).drop endData).reverse

/-- Modelled from the spec (§3, §4.5): `IndexHandler::reset()` of
`indexHandler.hpp` (not under `src/`) reinitializes the reuse index policy
state on a full rewind. -/
def IndexHandler.reset : IndexHandler := ⟨0, []⟩

/-- `reset(pos)` of the linear tape (`chunkTape.hpp` lines 484-493): zeroes
adjoints from `pos.inner.inner.inner` through the expression counter, runs
`popExternalFunction` (which calls the record's delete function) on every
external-function record between the current head and `pos` in descending
order, and rewinds the nested vectors to `pos`.  The second component is the
list of external-function identifiers whose delete function was invoked, in
invocation order. -/
def ChunkTape.reset (t : ChunkTape) (pos : ExtPosition) : ChunkTape × List ℕ :=
  let s := pos.inner.inner.inner
  ({ expressionCount := pos.inner.inner.inner,
     data := t.data.take pos.inner.inner.data,
     stmts := t.stmts.take pos.inner.data,
     extFuncs := t.extFuncs.take pos.data,
     adjoints := zeroRange t.adjoints s (t.expressionCount + 1 - s),
     adjointsSize := t.adjointsSize,
     active := t.active },
   (extForEachSlice t.extFuncs t.extFuncs.length pos.data).map Prod.fst)

/-- `reset(pos)` of the reuse tape (`chunkIndexReuse.hpp` lines 482-491):
clears all adjoints, runs `popExternalFunction` on every record above `pos`
in descending order, rewinds the vectors and resets the index handler. -/
def ChunkIndexReuseTape.reset (t : ChunkIndexReuseTape) (pos : ExtPosition) :
    ChunkIndexReuseTape × List ℕ :=
  ({ data := t.data.take pos.inner.inner.data,
     stmts := t.stmts.take pos.inner.data,
     extFuncs := t.extFuncs.take pos.data,
     adjoints := zeroRange t.adjoints 0 (t.indexHandler.maxIssued + 1),
     adjointsSize := t.adjointsSize,
     active := t.active,
     indexHandler := IndexHandler.reset },
   (extForEachSlice t.extFuncs t.extFuncs.length pos.data).map Prod.fst)

/-- Events observable during a reverse pass: evaluation of a statement-log
segment, and invocation of an external function. -/
inductive EvalEvent where
  | seg (startPos endPos : StmtPosition)
  | call (fn : ℕ)
deriving DecidableEq, Repr

/-- The external-function identifiers invoked in a reverse-pass trace, in
order. -/
def callsOf (evs : List EvalEvent) : List ℕ :=
  evs.filterMap (fun ev => match ev with
    | .call f => some f
    | _ => none)

/-- `evaluateStmt(start, end)` of the linear tape (`chunkTape.hpp` lines
547-565) in the single-chunk model: the descending chunk loop is vacuous and
the remainder call runs `evaluateExpressions` over the whole flat columns.
Returns the new adjoint vector and the adjoint write trace. -/
def ChunkTape.evaluateStmt (cfg : Config) (t : ChunkTape)
    (start endp : StmtPosition) (adj : ℕ → ℚ) : (ℕ → ℚ) × List (ℕ × ℚ) :=
  let r := evalExprsLin cfg t.stmts (t.data.map Prod.fst) (t.data.map Prod.snd)
    endp.inner.inner start.inner.inner adj start.data start.inner.data []
  (r.1, r.2.2.2)

/-- The `ExtFuncEvaluator` loop of the linear tape (`chunkTape.hpp` lines
608-631) driven by `forEach`: for each record, evaluate the statement log
from the current frontier down to the record's stored boundary, invoke the
external function, and move the frontier to that boundary. -/
def ChunkTape.extFuncLoop (cfg : Config) (t : ChunkTape) :
    List (ℕ × StmtPosition) → StmtPosition → (ℕ → ℚ) → List EvalEvent →
      (StmtPosition × (ℕ → ℚ) × List EvalEvent)
  | [], cur, adj, evs => (cur, adj, evs)
  | (fn, b) :: rest, cur, adj, evs =>
      ChunkTape.extFuncLoop cfg t rest b (t.evaluateStmt cfg cur b adj).1
        (evs ++ [EvalEvent.seg cur b, EvalEvent.call fn])

/-- `evaluateExtFunc(start, end)` of the linear tape (`chunkTape.hpp` lines
643-650): run the evaluator over the external-function records between the
positions in descending order, then evaluate the remaining statement
segment down to `end.inner`. -/
def ChunkTape.evaluateExtFunc (cfg : Config) (t : ChunkTape)
    (start endp : ExtPosition) (adj : ℕ → ℚ) : (ℕ → ℚ) × List EvalEvent :=
  let l := ChunkTape.extFuncLoop cfg t
    (extForEachSlice t.extFuncs start.data endp.data) start.inner adj []
  ((t.evaluateStmt cfg l.1 endp.inner l.2.1).1,
   l.2.2 ++ [EvalEvent.seg l.1 endp.inner])

/-- `evaluate(start, end)` of the linear tape (`chunkTape.hpp` lines
661-667): grow the adjoint vector to fit the expression counter, then run
the external-function evaluation. -/
def ChunkTape.evaluateBetween (cfg : Config) (t : ChunkTape)
    (start endp : ExtPosition) : ChunkTape × List EvalEvent :=
  let t1 := if t.adjointsSize ≤ t.expressionCount
    then t.resizeAdjoints (t.expressionCount + 1) else t
  let r := ChunkTape.evaluateExtFunc cfg t1 start endp t1.adjoints
  ({ t1 with adjoints := r.1 }, r.2)

/-- `evaluate()` of the linear tape: from the current position to the
default-constructed position. -/
def ChunkTape.evaluate (cfg : Config) (t : ChunkTape) :
    ChunkTape × List EvalEvent :=
  t.evaluateBetween cfg t.getPosition ExtPosition.zero

/-- `evaluateStmt(start, end)` of the reuse tape (`chunkIndexReuse.hpp`
lines 545-564) in the single-chunk model. -/
def ChunkIndexReuseTape.evaluateStmt (cfg : Config) (t : ChunkIndexReuseTape)
    (start endp : StmtPosition) (adj : ℕ → ℚ) : (ℕ → ℚ) × List (ℕ × ℚ) :=
  let r := evalExprsReuse cfg (t.stmts.map Prod.fst) (t.stmts.map Prod.snd)
    (t.data.map Prod.fst) (t.data.map Prod.snd) endp.data start.data adj
    start.inner.data []
  (r.1, r.2.2)

/-- The `ExtFuncEvaluator` loop of the reuse tape (`chunkIndexReuse.hpp`
lines 603-626). -/
def ChunkIndexReuseTape.extFuncLoop (cfg : Config) (t : ChunkIndexReuseTape) :
    List (ℕ × StmtPosition) → StmtPosition → (ℕ → ℚ) → List EvalEvent →
      (StmtPosition × (ℕ → ℚ) × List EvalEvent)
  | [], cur, adj, evs => (cur, adj, evs)
  | (fn, b) :: rest, cur, adj, evs =>
      ChunkIndexReuseTape.extFuncLoop cfg t rest b
        (t.evaluateStmt cfg cur b adj).1
        (evs ++ [EvalEvent.seg cur b, EvalEvent.call fn])

/-- `evaluateExtFunc(start, end)` of the reuse tape (`chunkIndexReuse.hpp`
lines 638-645). -/
def ChunkIndexReuseTape.evaluateExtFunc (cfg : Config)
    (t : ChunkIndexReuseTape) (start endp : ExtPosition) (adj : ℕ → ℚ) :
    (ℕ → ℚ) × List EvalEvent :=
  let l := ChunkIndexReuseTape.extFuncLoop cfg t
    (extForEachSlice t.extFuncs start.data endp.data) start.inner adj []
  ((t.evaluateStmt cfg l.1 endp.inner l.2.1).1,
   l.2.2 ++ [EvalEvent.seg l.1 endp.inner])

/-- `evaluate(start, end)` of the reuse tape (`chunkIndexReuse.hpp` lines
656-662): grow the adjoint vector to fit the maximum issued index, then run
the external-function evaluation. -/
def ChunkIndexReuseTape.evaluateBetween (cfg : Config)
    (t : ChunkIndexReuseTape) (start endp : ExtPosition) :
    ChunkIndexReuseTape × List EvalEvent :=
  let t1 := if t.adjointsSize ≤ t.indexHandler.maxIssued
    then t.resizeAdjoints (t.indexHandler.maxIssued + 1) else t
  let r := ChunkIndexReuseTape.evaluateExtFunc cfg t1 start endp t1.adjoints
  ({ t1 with adjoints := r.1 }, r.2)

/-- `evaluate()` of the reuse tape. -/
def ChunkIndexReuseTape.evaluate (cfg : Config) (t : ChunkIndexReuseTape) :
    ChunkIndexReuseTape × List EvalEvent :=
  t.evaluateBetween cfg t.getPosition ExtPosition.zero

/-- The event sequence the spec prescribes for a reverse pass over a
descending list of external-function records: a statement segment from the
previous frontier down to each record's boundary, the callback, and a final
segment down to the overall end position. -/
def canonicalTrace : List (ℕ × StmtPosition) → StmtPosition → StmtPosition →
    List EvalEvent
  | [], cur, endPos => [EvalEvent.seg cur endPos]
  | (fn, b) :: rest, cur, endPos =>
      EvalEvent.seg cur b :: EvalEvent.call fn :: canonicalTrace rest b endPos

/-- Recorded instructions of a program run against the tape facade:
`registerInput`, a general-expression assignment, and
`pushExternalFunctionHandle`. -/
inductive Instr where
  | reg (v : ℕ)
  | assign (v : ℕ) (rhs : Expr)
  | extPush (fn : ℕ)
deriving DecidableEq, Repr

/-- One recording step on the linear tape. -/
def stepLin (cfg : Config) : ChunkTape × Mach → Instr → ChunkTape × Mach
  | (t, m), .reg v => t.registerInput m v
  | (t, m), .assign v rhs => t.store cfg m v rhs
  | (t, m), .extPush fn => (t.pushExternalFunctionHandle fn, m)

/-- Recording a whole program on the linear tape. -/
def runRecordLin (cfg : Config) (p : List Instr) (s : ChunkTape × Mach) :
    ChunkTape × Mach :=
  p.foldl (stepLin cfg) s

/-- The freshly constructed linear tape (`ChunkTape::ChunkTape()`): empty
logs, empty adjoint vector, passive. -/
def ChunkTape.initial : ChunkTape := ⟨0, [], [], [], fun _ => 0, 0, false⟩

/-- The freshly constructed reuse tape. -/
def ChunkIndexReuseTape.initial : ChunkIndexReuseTape :=
  ⟨[], [], [], fun _ => 0, 0, false, ⟨0, []⟩⟩

/-- The public operations of the tape facade, used to state state-machine
invariants over arbitrary usage. -/
inductive TapeOp where
  | reg (v : ℕ)
  | assign (v : ℕ) (rhs : Expr)
  | copy (v w : ℕ)
  | passiveAssign (v : ℕ) (c : ℚ)
  | extPush (fn : ℕ)
  | setGrad (i : ℕ) (g : ℚ)
  | clearAll
  | clearBetween (p q : ExtPosition)
  | resizeAdj (n : ℕ)
  | evalAll
  | rewind (pos : ExtPosition)
  | activate
  | deactivate
deriving DecidableEq, Repr

/-- One public operation applied to the linear tape. -/
def stepTapeLin (cfg : Config) : ChunkTape × Mach → TapeOp → ChunkTape × Mach
  | (t, m), .reg v => t.registerInput m v
  | (t, m), .assign v rhs => t.store cfg m v rhs
  | (t, m), .copy v w => t.storeCopy cfg m v w
  | (t, m), .passiveAssign v c => t.storePassive cfg m v c
  | (t, m), .extPush fn => (t.pushExternalFunctionHandle fn, m)
  | (t, m), .setGrad i g => (t.setGradient i g, m)
  | (t, m), .clearAll => (t.clearAdjoints, m)
  | (t, m), .clearBetween p q => (t.clearAdjointsBetween p q, m)
  | (t, m), .resizeAdj n => (t.resizeAdjoints n, m)
  | (t, m), .evalAll => ((t.evaluate cfg).1, m)
  | (t, m), .rewind pos => ((t.reset pos).1, m)
  | (t, m), .activate => ({ t with active := true }, m)
  | (t, m), .deactivate => ({ t with active := false }, m)

/-- One public operation applied to the reuse tape. -/
def stepTapeReuse (cfg : Config) :
    ChunkIndexReuseTape × Mach → TapeOp → ChunkIndexReuseTape × Mach
  | (t, m), .reg v => t.registerInput m v
  | (t, m), .assign v rhs => t.store cfg m v rhs
  | (t, m), .copy v w => t.storeCopy cfg m v w
  | (t, m), .passiveAssign v c => t.storePassive m v c
  | (t, m), .extPush fn => (t.pushExternalFunctionHandle fn, m)
  | (t, m), .setGrad i g => (t.setGradient i g, m)
  | (t, m), .clearAll => (t.clearAdjoints, m)
  | (t, m), .clearBetween p q => (t.clearAdjointsBetween p q, m)
  | (t, m), .resizeAdj n => (t.resizeAdjoints n, m)
  | (t, m), .evalAll => ((t.evaluate cfg).1, m)
  | (t, m), .rewind pos => ((t.reset pos).1, m)
  | (t, m), .activate => ({ t with active := true }, m)
  | (t, m), .deactivate => ({ t with active := false }, m)

/-- A whole usage history on the linear tape. -/
def runTapeLin (cfg : Config) (ops : List TapeOp) (s : ChunkTape × Mach) :
    ChunkTape × Mach :=
  ops.foldl (stepTapeLin cfg) s

/-- A whole usage history on the reuse tape. -/
def runTapeReuse (cfg : Config) (ops : List TapeOp)
    (s : ChunkIndexReuseTape × Mach) : ChunkIndexReuseTape × Mach :=
  ops.foldl (stepTapeReuse cfg) s

/-- The tape invariant behind the index-0 sentinel on the linear tape:
every recorded jacobi entry names a nonzero rhs index, and the adjoint at
the sentinel slot 0 is zero. -/
def InvLin (t : ChunkTape) : Prop :=
  (∀ e ∈ t.data, e.2 ≠ 0) ∧ t.adjoints 0 = 0

/-- The corresponding invariant on the reuse tape. -/
def InvReuse (t : ChunkIndexReuseTape) : Prop :=
  (∀ e ∈ t.data, e.2 ≠ 0) ∧ t.adjoints 0 = 0

/-- One reverse-pass statement step in structured form: read the lhs
adjoint, optionally (reuse tape) zero the lhs slot, then apply the chain
rule `adj[rhs] += a * jacobian` over the statement's entries in reverse
push order. -/
def stepStmtRev (zero : Bool) (lhs : ℕ) (es : List JEntry) (adj : ℕ → ℚ) :
    ℕ → ℚ :=
  es.reverse.foldl (fun f e => Function.update f e.2 (f e.2 + adj lhs * e.1))
    (if zero then Function.update adj lhs 0 else adj)

/-- Ghost data for one recorded statement, used to state the reverse-sweep
correctness invariant: its lhs slot, its jacobi entries, the occurrence
identifier of the value it wrote, and the ghost live map (physical slot →
occurrence) just before it was recorded. -/
structure GStmt where
  lhs : ℕ
  entries : List JEntry
  occ : ℕ
  gB : ℕ → ℕ

/-- The structured reverse sweep over a descending (last-recorded-first)
statement list. -/
def sweepG (zero : Bool) : List GStmt → (ℕ → ℚ) → (ℕ → ℚ)
  | [], adj => adj
  | s :: rest, adj => sweepG zero rest (stepStmtRev zero s.lhs s.entries adj)

/-- The live map at the bottom of a descending sweep (the stage-0 map). -/
def gBotD (gT : ℕ → ℕ) : List GStmt → (ℕ → ℕ)
  | [] => gT
  | s :: rest => gBotD s.gB rest

/-- Coherence of the ghost data along a descending statement list, with
`gT` the live map at the top (after the whole list): slots are below `M`,
the top map sends each statement's lhs to its occurrence and otherwise
differs from the pre-map only by frees, the forward dual value `W` of each
occurrence satisfies the chain rule over the pre-map, the no-zeroing
(linear) sweep additionally has no frees and no self-references, and
entries reference live slots. -/
def SweepOkD (zero : Bool) (M : ℕ) (W : ℕ → ℚ) : (ℕ → ℕ) → List GStmt → Prop
  | _, [] => True
  | gT, s :: rest =>
      s.lhs < M ∧ (∀ e ∈ s.entries, e.2 < M) ∧ gT s.lhs = s.occ ∧
      (∀ i, i < M → gT i = 0 ∨ gT i = Function.update s.gB s.lhs s.occ i) ∧
      W s.occ = (s.entries.map (fun e => e.1 * W (s.gB e.2))).sum +
        (if zero then 0 else W (s.gB s.lhs)) ∧
      (zero = false → ∀ i, i < M → i ≠ s.lhs → gT i = s.gB i) ∧
      (∀ e ∈ s.entries, s.gB e.2 ≠ 0) ∧
      SweepOkD zero M W s.gB rest

/-- The total jacobian weight a statement's entries put on slot `i`. -/
def entrySumAt (es : List JEntry) (i : ℕ) : ℚ :=
  ((es.filter (fun e => e.2 = i)).map Prod.fst).sum

/-- The structured reverse sweep over descending `(lhsIndex, entries)`
pairs; `sweepG` forgets the ghost fields onto this. -/
def sweepP (zero : Bool) : List (ℕ × List JEntry) → (ℕ → ℚ) → (ℕ → ℚ)
  | [], adj => adj
  | s :: rest, adj => sweepP zero rest (stepStmtRev zero s.1 s.2 adj)

/-- Ascending `(lhs position, entries)` pairs of the statements recorded
after position `R` (the linear tape's implicit lhs indices). -/
def posPairs (R : ℕ) : List (List JEntry) → List (ℕ × List JEntry)
  | [] => []
  | es :: rest => (R + 1, es) :: posPairs (R + 1) rest

/-- The number of variable leaves of an expression; each one triggers at
most one `pushJacobi` during `calcGradient`. -/
def leafCount : Expr → ℕ
  | .const _ => 0
  | .var _ => 1
  | .add a b => leafCount a + leafCount b
  | .mul a b => leafCount a + leafCount b

/-- One assignment of the symbolic (dual-number) reference semantics: the
primal value is updated with `getValue` and the dual with the symbolic
derivative of the right-hand side. -/
def symStep (s : (ℕ → ℚ) × (ℕ → ℚ)) (a : ℕ × Expr) : (ℕ → ℚ) × (ℕ → ℚ) :=
  (Function.update s.1 a.1 (evalExpr s.1 a.2),
   Function.update s.2 a.1 (derivExpr s.1 s.2 a.2))

/-- The symbolic forward run of a straight-line program: fold `symStep` over
the assignments. -/
def runSym (p : List (ℕ × Expr)) (s : (ℕ → ℚ) × (ℕ → ℚ)) :
    (ℕ → ℚ) × (ℕ → ℚ) :=
  p.foldl symStep s

/-- Recording a straight-line assignment program on the linear tape. -/
def runStoreLin (cfg : Config) (p : List (ℕ × Expr)) (s : ChunkTape × Mach) :
    ChunkTape × Mach :=
  p.foldl (fun s a => s.1.store cfg s.2 a.1 a.2) s

/-- Recording a straight-line assignment program on the reuse tape. -/
def runStoreReuse (cfg : Config) (p : List (ℕ × Expr))
    (s : ChunkIndexReuseTape × Mach) : ChunkIndexReuseTape × Mach :=
  p.foldl (fun s a => s.1.store cfg s.2 a.1 a.2) s

/-- Dual values indexed by occurrence identifiers: occurrence `0` is the
passive sentinel with dual `0`, occurrence `j+1` holds `ws[j]`. -/
def WofList (ws : List ℚ) (j : ℕ) : ℚ :=
  if j = 0 then 0 else ws.getD (j - 1) 0

/-- The live map right after the input has been registered: physical slot 1
holds occurrence 1, every other slot is unwritten. -/
def inpMap (i : ℕ) : ℕ := if i = 1 then 1 else 0

/-- The live map of the linear tape after `n` occurrences: slots `1..n`
hold their own index as occurrence, all other slots are unwritten. -/
def gmap (n i : ℕ) : ℕ := if i ≤ n then i else 0

/-- Coherence of a list of ghost statements as a chain of live-map updates
from `G0` to `Gf`: each statement records the live map before it, and
installs its occurrence at its lhs slot. -/
def ChainOk : (ℕ → ℕ) → List GStmt → (ℕ → ℕ) → Prop
  | G, [], Gf => Gf = G
  | G, s :: rest, Gf =>
      s.gB = G ∧ ChainOk (Function.update G s.lhs s.occ) rest Gf

/-- The ghost-statement list of the linear tape: the statement recorded at
slot `base+1+k` has occurrence `base+1+k` and pre-map `gmap (base+k)`. -/
def glistLin (base : ℕ) : List (List JEntry) → List GStmt
  | [] => []
  | es :: rest => ⟨base + 1, es, base + 1, gmap base⟩ :: glistLin (base + 1) rest

/-- The coupling invariant of the linear tape along a recording run that
registered one input `x` (slot 1) and then stored the assignments whose
surviving jacobi entries are listed in `ss` (slot `2+k` for the `k`-th):
tape columns mirror `ss`, the slot duals `ws` satisfy the per-statement
chain rule, and every program variable's dual `δ` is the dual of the slot
its gradient data points to. -/
def LinInvC1 (x : ℕ) (t : ChunkTape) (m : Mach) (ss : List (List JEntry))
    (ws : List ℚ) (δ : ℕ → ℚ) : Prop :=
  t.data = ss.flatten ∧
  t.stmts = List.replicate 1 0 ++ ss.map List.length ∧
  t.expressionCount = 1 + ss.length ∧
  t.extFuncs = [] ∧
  t.active = true ∧
  t.adjoints = (fun _ => 0) ∧
  t.adjointsSize = 0 ∧
  ws.length = 1 + ss.length ∧
  ws.getD 0 0 = 1 ∧
  m.idxs x = 1 ∧
  (∀ v, m.idxs v ≤ ws.length) ∧
  (∀ v, δ v = WofList ws (m.idxs v)) ∧
  (∀ k, ∀ e ∈ ss.getD k [], e.2 ≠ 0 ∧ e.2 ≤ 1 + k) ∧
  (∀ k, k < ss.length →
    WofList ws (k + 2) =
      ((ss.getD k []).map (fun e => e.1 * WofList ws e.2)).sum)

/-- The coupling invariant of the reuse tape along a recording run that
registered one input `x` (physical slot 1, occurrence 1) and then stored
the assignments recorded in `ls` as `(lhsIndex, entries)` pairs: tape
columns mirror `ls`, `ws` lists the dual value of each occurrence in
recording order, `gs` is the ghost-statement chain from the post-register
live map to the current live map `G`, the index handler owns its slots
consistently (bounded, injective on the live variables, free list disjoint
from them), and every program variable's dual `δ` is the dual of the
occurrence its slot currently holds. -/
def ReuseInvC1 (x : ℕ) (r : ChunkIndexReuseTape) (m : Mach)
    (ls : List (ℕ × List JEntry)) (ws : List ℚ) (gs : List GStmt)
    (G : ℕ → ℕ) (δ : ℕ → ℚ) : Prop :=
  r.data = (ls.map Prod.snd).flatten ∧
  r.stmts = ls.map (fun s => (s.2.length, s.1)) ∧
  r.extFuncs = [] ∧
  r.active = true ∧
  r.adjoints = (fun _ => 0) ∧
  r.adjointsSize = 0 ∧
  ws.getD 0 0 = 1 ∧
  1 ≤ ws.length ∧
  m.idxs x = 1 ∧
  G 0 = 0 ∧
  (∀ i, G i ≤ ws.length) ∧
  (∀ v, m.idxs v ≤ r.indexHandler.maxIssued) ∧
  1 ≤ r.indexHandler.maxIssued ∧
  (∀ u w, m.idxs u ≠ 0 → m.idxs u = m.idxs w → u = w) ∧
  r.indexHandler.freeList.Nodup ∧
  (∀ f ∈ r.indexHandler.freeList,
    f ≠ 0 ∧ f ≤ r.indexHandler.maxIssued ∧ ∀ v, m.idxs v ≠ f) ∧
  (∀ v, m.idxs v ≠ 0 → G (m.idxs v) ≠ 0) ∧
  (∀ v, δ v = WofList ws (G (m.idxs v))) ∧
  gs.map (fun s => (s.lhs, s.entries)) = ls ∧
  ChainOk inpMap gs G ∧
  (∀ s ∈ gs, s.lhs ≠ 0 ∧ s.lhs ≤ r.indexHandler.maxIssued ∧
    s.occ ≤ ws.length ∧
    (∀ e ∈ s.entries, e.2 ≠ 0 ∧ e.2 ≤ r.indexHandler.maxIssued ∧
      s.gB e.2 ≠ 0 ∧ s.gB e.2 ≤ ws.length) ∧
    WofList ws s.occ =
      (s.entries.map (fun e => e.1 * WofList ws (s.gB e.2))).sum)

/-- Sample machine for the end-to-end witness: every program variable has
value 3 and passive gradient data. -/
def machW0 : Mach := ⟨fun _ => 3, fun _ => 0⟩

/-- Sample one-assignment program for the end-to-end witness:
variable 1 := (variable 0) * (variable 0). -/
def progW : List (ℕ × Expr) := [(1, exprW)]

theorem pushJacobiData_eq_filter (cfg : Config) (j : ℚ) (i : ℕ)
    (log : List JEntry) :
    pushJacobiData cfg j i log =
      log ++ (if jacobiKeep cfg (j, i) then [(j, i)] else []) := by
  unfold pushJacobiData jacobiKeep
  split_ifs <;> simp_all

theorem pushJacobiAll_eq_filter (cfg : Config) (log raw : List JEntry) :
    pushJacobiAll cfg log raw = log ++ raw.filter (jacobiKeep cfg) := by
  induction raw generalizing log with
  | nil => simp [pushJacobiAll]
  | cons e rest ih =>
      rw [pushJacobiAll, List.foldl_cons, ← pushJacobiAll, ih,
        pushJacobiData_eq_filter]
      cases h : jacobiKeep cfg e <;> simp [List.filter_cons, h, Prod.mk.eta]

theorem zeroRange_apply (adj : ℕ → ℚ) (s n i : ℕ) :
    zeroRange adj s n i = if s ≤ i ∧ i < s + n then 0 else adj i := by
  induction n generalizing s adj with
  | zero =>
      have h : ¬(s ≤ i ∧ i < s) := by omega
      simp [zeroRange, h]
  | succ n ih =>
      rw [zeroRange, List.range'_succ, List.foldl_cons, ← zeroRange, ih]
      by_cases h : s + 1 ≤ i ∧ i < s + 1 + n
      · rw [if_pos h, if_pos (by omega : s ≤ i ∧ i < s + (n + 1))]
      · rw [if_neg h]
        rcases eq_or_ne i s with rfl | hne
        · rw [Function.update_same, if_pos (by omega)]
        · rw [Function.update_noteq hne, if_neg (by omega)]

theorem zeroRange_closed (adj : ℕ → ℚ) (s e : ℕ) :
    zeroRange adj s (e + 1 - s) = fun i => if s ≤ i ∧ i ≤ e then 0 else adj i := by
  funext i
  rw [zeroRange_apply]
  by_cases h : s ≤ i ∧ i ≤ e
  · rw [if_pos (by omega), if_pos h]
  · rw [if_neg (by omega), if_neg h]

theorem IndexHandler.freeIndex_snd (h : IndexHandler) (i : ℕ) :
    (h.freeIndex i).2 = 0 := by
  unfold IndexHandler.freeIndex
  by_cases hi : i ≠ 0
  · rw [if_pos hi]
  · rw [if_neg hi]; omega

theorem IndexHandler.checkIndex_snd_ne_zero (h : IndexHandler) (i : ℕ)
    (h0 : 0 ∉ h.freeList) : (h.checkIndex i).2 ≠ 0 := by
  unfold IndexHandler.checkIndex
  by_cases hi : i = 0
  · rw [if_pos hi]
    cases hf : h.freeList with
    | nil => simp
    | cons f rest =>
        simp only
        intro hc
        exact h0 (by rw [hf, ← hc]; exact List.mem_cons_self f rest)
  · rw [if_neg hi]; exact hi

theorem filter_eq_storedEntries (cfg : Config) (m : Mach) (rhs : Expr) :
    List.filter (jacobiKeep cfg) (calcGradientEntries m.vals m.idxs rhs 1) =
      storedEntries cfg m rhs := rfl

theorem store_data_eq (cfg : Config) (t : ChunkTape) (m : Mach) (v : ℕ)
    (rhs : Expr) (h : enableCheck cfg.optTapeActivity t.active = true) :
    (t.store cfg m v rhs).1.data = t.data ++ storedEntries cfg m rhs := by
  unfold ChunkTape.store
  rw [if_pos h, pushJacobiAll_eq_filter]
  dsimp only
  split <;> simp [storedEntries]

/-- C5: on an active tape, a general-expression `store` that records zero
jacobi entries pushes no statement and leaves the lhs passive (linear: index
0; reuse: index freed to 0); otherwise it pushes exactly one statement
carrying the active-variable count and the lhs receives a valid nonzero
index (linear: the incremented expression counter; reuse: via `checkIndex`,
recorded in the statement). -/
theorem store_statement_decision (cfg : Config) (t : ChunkTape)
    (r : ChunkIndexReuseTape) (m mr : Mach) (v : ℕ) (rhs : Expr)
    (ht : enableCheck cfg.optTapeActivity t.active = true)
    (hr : enableCheck cfg.optTapeActivity r.active = true)
    (h0 : 0 ∉ r.indexHandler.freeList)
    (hcapL : (storedEntries cfg m rhs).length < 256)
    (hcapR : (storedEntries cfg mr rhs).length < 256) :
    (storedEntries cfg m rhs = [] →
       (t.store cfg m v rhs).1.stmts = t.stmts ∧
       (t.store cfg m v rhs).1.expressionCount = t.expressionCount ∧
       (t.store cfg m v rhs).2.idxs v = 0) ∧
    (storedEntries cfg m rhs ≠ [] →
       (t.store cfg m v rhs).1.stmts =
         t.stmts ++ [(storedEntries cfg m rhs).length] ∧
       (t.store cfg m v rhs).2.idxs v = t.expressionCount + 1 ∧
       (t.store cfg m v rhs).2.idxs v ≠ 0) ∧
    (storedEntries cfg mr rhs = [] →
       (r.store cfg mr v rhs).1.stmts = r.stmts ∧
       (r.store cfg mr v rhs).2.idxs v = 0) ∧
    (storedEntries cfg mr rhs ≠ [] →
       (r.store cfg mr v rhs).1.stmts =
         r.stmts ++ [((storedEntries cfg mr rhs).length,
           (r.indexHandler.checkIndex (mr.idxs v)).2)] ∧
       (r.store cfg mr v rhs).2.idxs v =
         (r.indexHandler.checkIndex (mr.idxs v)).2 ∧
       (r.store cfg mr v rhs).2.idxs v ≠ 0) := by
  unfold ChunkTape.store ChunkIndexReuseTape.store
  rw [if_pos ht, if_pos hr, pushJacobiAll_eq_filter, pushJacobiAll_eq_filter]
  dsimp only
  simp only [filter_eq_storedEntries, List.length_append,
    Nat.add_sub_cancel_left]
  refine ⟨fun hE => ?_, fun hE => ?_, fun hE => ?_, fun hE => ?_⟩
  · rw [if_pos (by simp [hE])]
    simp
  · rw [if_neg (fun hc => hE (List.length_eq_zero.mp hc))]
    refine ⟨?_, by simp, by simp⟩
    simp only [statementIntCast, Nat.mod_eq_of_lt hcapL]
  · rw [if_pos (by simp [hE])]
    simp [IndexHandler.freeIndex_snd]
  · rw [if_neg (fun hc => hE (List.length_eq_zero.mp hc))]
    refine ⟨?_, by simp, ?_⟩
    · simp only [statementIntCast, Nat.mod_eq_of_lt hcapR]
    · simp only [Function.update_same]
      exact IndexHandler.checkIndex_snd_ne_zero r.indexHandler (mr.idxs v) h0

theorem store_statement_decision_witness :
    enableCheck cfgW.optTapeActivity tapeW.active = true ∧
    enableCheck cfgW.optTapeActivity rtapeW.active = true ∧
    0 ∉ rtapeW.indexHandler.freeList ∧
    (storedEntries cfgW machW exprW).length < 256 ∧
    storedEntries cfgW machW exprW ≠ [] ∧
    (tapeW.store cfgW machW 0 exprW).2.idxs 0 = 1 ∧
    (rtapeW.store cfgW machW 0 exprW).2.idxs 0 = 1 := by
  refine ⟨rfl, rfl, by simp [rtapeW], by decide, by decide, ?_, ?_⟩
  · exact ((store_statement_decision cfgW tapeW rtapeW machW machW 0 exprW
      rfl rfl (by simp [rtapeW]) (by decide) (by decide)).2.1 (by decide)).2.1
  · exact ((store_statement_decision cfgW tapeW rtapeW machW machW 0 exprW
      rfl rfl (by simp [rtapeW]) (by decide) (by decide)).2.2.2 (by decide)).2.1

/-- C6: `pushJacobi(jacobian, rhsIndex)` appends nothing when the index is
0, skips non-finite jacobians when `OptIgnoreInvalidJacobies` is enabled,
skips exact zeros when `OptJacobiIsZero` is enabled, and otherwise appends
`{jacobian, rhsIndex}`; the unary variant appends `{1.0, rhsIndex}` with
only the index check. -/
theorem pushJacobi_filter_semantics (cfg : Config) (j : ℚ) (i : ℕ)
    (log : List JEntry) :
    pushJacobiData cfg j i log =
      (if i ≠ 0 ∧ (cfg.optIgnoreInvalidJacobies = true → cfg.isfinite j = true) ∧
          (cfg.optJacobiIsZero = true → j ≠ 0)
        then log ++ [(j, i)] else log) ∧
    pushJacobiUnit i log = (if i ≠ 0 then log ++ [(1, i)] else log) := by
  refine ⟨?_, rfl⟩
  unfold pushJacobiData enableCheck
  by_cases h1 : i ≠ 0
  · rw [if_pos h1]
    cases hign : cfg.optIgnoreInvalidJacobies <;>
      cases hz : cfg.optJacobiIsZero <;>
        cases hfin : cfg.isfinite j <;>
          by_cases hj : j = 0 <;> simp_all
  · rw [if_neg h1, if_neg (by simp [h1])]

/-- C8: `clearAdjoints(start, end)` zeroes exactly the adjoint entries whose
index lies in the closed interval given by the innermost (data-level)
sub-positions `start.inner.inner.inner .. end.inner.inner.inner`, and
modifies no other tape state; this holds on both tapes. -/
theorem clearAdjointsBetween_range (t : ChunkTape) (r : ChunkIndexReuseTape)
    (p q : ExtPosition) :
    t.clearAdjointsBetween p q =
      { t with adjoints := fun i =>
          if p.inner.inner.inner ≤ i ∧ i ≤ q.inner.inner.inner then 0
          else t.adjoints i } ∧
    r.clearAdjointsBetween p q =
      { r with adjoints := fun i =>
          if p.inner.inner.inner ≤ i ∧ i ≤ q.inner.inner.inner then 0
          else r.adjoints i } := by
  constructor
  · unfold ChunkTape.clearAdjointsBetween
    dsimp only
    rw [zeroRange_closed]
  · unfold ChunkIndexReuseTape.clearAdjointsBetween
    dsimp only
    rw [zeroRange_closed]

/-- C9: with the tape passive, every `store` overload performs only the
primal assignment and records nothing; the linear tape leaves the lhs index
unchanged, while the reuse tape frees the lhs index (setting it to 0). -/
theorem passive_store_primal_only (cfg : Config) (t : ChunkTape)
    (r : ChunkIndexReuseTape) (m : Mach) (v w : ℕ) (rhs : Expr) (c : ℚ)
    (hA : cfg.optTapeActivity = true)
    (ht : t.active = false) (hrc : r.active = false) :
    t.store cfg m v rhs =
      (t, { m with vals := Function.update m.vals v (evalExpr m.vals rhs) }) ∧
    t.storeCopy cfg m v w =
      (t, { m with vals := Function.update m.vals v (m.vals w) }) ∧
    t.storePassive cfg m v c =
      (t, { m with vals := Function.update m.vals v c }) ∧
    r.store cfg m v rhs =
      ({ r with indexHandler := (r.indexHandler.freeIndex (m.idxs v)).1 },
       ⟨Function.update m.vals v (evalExpr m.vals rhs),
        Function.update m.idxs v 0⟩) ∧
    r.storeCopy cfg m v w =
      ({ r with indexHandler := (r.indexHandler.freeIndex (m.idxs v)).1 },
       ⟨Function.update m.vals v (m.vals w), Function.update m.idxs v 0⟩) ∧
    r.storePassive m v c =
      ({ r with indexHandler := (r.indexHandler.freeIndex (m.idxs v)).1 },
       ⟨Function.update m.vals v c, Function.update m.idxs v 0⟩) := by
  have hec : enableCheck cfg.optTapeActivity t.active = false := by
    rw [hA, ht]; rfl
  have herc : enableCheck cfg.optTapeActivity r.active = false := by
    rw [hA, hrc]; rfl
  refine ⟨?_, ?_, ?_, ?_, ?_, ?_⟩
  · unfold ChunkTape.store
    rw [if_neg (by rw [hec]; exact Bool.false_ne_true)]
  · unfold ChunkTape.storeCopy
    rw [if_neg (by rw [hec]; exact Bool.false_ne_true)]
  · unfold ChunkTape.storePassive
    rw [if_neg (by rw [hec]; exact Bool.false_ne_true)]
  · unfold ChunkIndexReuseTape.store
    rw [if_neg (by rw [herc]; exact Bool.false_ne_true)]
    dsimp only
    rw [IndexHandler.freeIndex_snd]
  · unfold ChunkIndexReuseTape.storeCopy
    rw [if_neg (by rw [herc]; exact Bool.false_ne_true)]
    dsimp only
    rw [IndexHandler.freeIndex_snd]
  · unfold ChunkIndexReuseTape.storePassive
    dsimp only
    rw [IndexHandler.freeIndex_snd]

theorem passive_store_primal_only_witness :
    cfgW.optTapeActivity = true ∧ tapeWP.active = false ∧
    rtapeWP.active = false ∧
    tapeWP.store cfgW machW 0 exprW =
      (tapeWP, { machW with
        vals := Function.update machW.vals 0 (evalExpr machW.vals exprW) }) ∧
    rtapeWP.store cfgW machW 0 exprW =
      ({ rtapeWP with
         indexHandler := (rtapeWP.indexHandler.freeIndex (machW.idxs 0)).1 },
       ⟨Function.update machW.vals 0 (evalExpr machW.vals exprW),
        Function.update machW.idxs 0 0⟩) := by
  refine ⟨rfl, rfl, rfl, ?_, ?_⟩
  · exact (passive_store_primal_only cfgW tapeWP rtapeWP machW 0 1 exprW 5
      rfl rfl rfl).1
  · exact (passive_store_primal_only cfgW tapeWP rtapeWP machW 0 1 exprW 5
      rfl rfl rfl).2.2.2.1

theorem mem_consumedTargets (idxs : List ℕ) (dp k i : ℕ) (hi : i < k) :
    idxs.getD (dp - 1 - i) 0 ∈ consumedTargets idxs dp k :=
  List.mem_map.mpr ⟨i, List.mem_range.mpr hi, rfl⟩

theorem consumedTargets_tail (idxs : List ℕ) (dp k : ℕ) (q : ℕ)
    (h : ∀ x ∈ consumedTargets idxs dp (k + 1), x ≠ q) :
    ∀ x ∈ consumedTargets idxs (dp - 1) k, x ≠ q := by
  intro x hx
  rcases List.mem_map.mp hx with ⟨i, hi, rfl⟩
  refine h _ (List.mem_map.mpr ⟨i + 1, ?_, ?_⟩)
  · simp only [List.mem_range] at hi ⊢; omega
  · have : dp - 1 - 1 - i = dp - 1 - (i + 1) := by omega
    rw [this]

theorem accumLin_preserve (jacs : List ℚ) (idxs : List ℕ) (p k : ℕ)
    (adj : ℕ → ℚ) (dp : ℕ) (tr : List (ℕ × ℚ)) (q : ℕ)
    (h : ∀ x ∈ consumedTargets idxs dp k, x ≠ q) :
    (accumLin jacs idxs p k adj dp tr).1 q = adj q := by
  induction k generalizing adj dp tr with
  | zero => rfl
  | succ k ih =>
      rw [accumLin, ih _ _ _ (consumedTargets_tail idxs dp k q h)]
      exact Function.update_noteq
        (Ne.symm (h (idxs.getD (dp - 1) 0)
          (mem_consumedTargets idxs dp (k + 1) 0 (by omega)))) _ _

theorem accumReuse_preserve (jacs : List ℚ) (idxs : List ℕ) (a : ℚ) (k : ℕ)
    (adj : ℕ → ℚ) (dp : ℕ) (tr : List (ℕ × ℚ)) (q : ℕ)
    (h : ∀ x ∈ consumedTargets idxs dp k, x ≠ q) :
    (accumReuse jacs idxs a k adj dp tr).1 q = adj q := by
  induction k generalizing adj dp tr with
  | zero => rfl
  | succ k ih =>
      rw [accumReuse, ih _ _ _ (consumedTargets_tail idxs dp k q h)]
      exact Function.update_noteq
        (Ne.symm (h (idxs.getD (dp - 1) 0)
          (mem_consumedTargets idxs dp (k + 1) 0 (by omega)))) _ _

theorem accumReuse_trace (jacs : List ℚ) (idxs : List ℕ) (a : ℚ) (k : ℕ)
    (adj : ℕ → ℚ) (dp : ℕ) (tr : List (ℕ × ℚ)) :
    ∃ rest, (accumReuse jacs idxs a k adj dp tr).2.2 = tr ++ rest := by
  induction k generalizing adj dp tr with
  | zero => exact ⟨[], by simp [accumReuse]⟩
  | succ k ih =>
      rw [accumReuse]
      rcases ih (Function.update adj (idxs.getD (dp - 1) 0)
          (adj (idxs.getD (dp - 1) 0) + a * jacs.getD (dp - 1) 0)) (dp - 1)
          (tr ++ [(idxs.getD (dp - 1) 0,
            adj (idxs.getD (dp - 1) 0) + a * jacs.getD (dp - 1) 0)]) with ⟨r, hr⟩
      exact ⟨[(idxs.getD (dp - 1) 0,
        adj (idxs.getD (dp - 1) 0) + a * jacs.getD (dp - 1) 0)] ++ r,
        by rw [hr, List.append_assoc]⟩

theorem evalExprsLin_stop (cfg : Config) (S : List ℕ) (J : List ℚ)
    (I : List ℕ) (e adjPos : ℕ) (adj : ℕ → ℚ) (sp dp : ℕ)
    (tr : List (ℕ × ℚ)) (h : adjPos ≤ e) :
    evalExprsLin cfg S J I e adjPos adj sp dp tr = (adj, sp, dp, tr) := by
  cases adjPos with
  | zero => rfl
  | succ q => simp only [evalExprsLin]; rw [if_pos h]

theorem evalExprsReuse_stop (cfg : Config) (A L : List ℕ) (J : List ℚ)
    (I : List ℕ) (e stmtPos : ℕ) (adj : ℕ → ℚ) (dp : ℕ)
    (tr : List (ℕ × ℚ)) (h : stmtPos ≤ e) :
    evalExprsReuse cfg A L J I e stmtPos adj dp tr = (adj, dp, tr) := by
  cases stmtPos with
  | zero => rfl
  | succ q => simp only [evalExprsReuse]; rw [if_pos h]

/-- C3 counterexample: on the reuse tape with `OptZeroAdjoint` enabled, a
statement whose lhs adjoint is exactly zero still touches the adjoint
vector: evaluating one 0-argument statement with lhs index 1 over the
all-zero adjoint vector emits the unconditional zeroing write `(1, 0)`
instead of the empty write trace the claim demands. -/
theorem zero_adjoint_reuse_write_counterexample :
    cfgW.optZeroAdjoint = true ∧
    (fun _ : ℕ => (0 : ℚ)) (([1] : List ℕ).getD 0 0) = 0 ∧
    (evalExprsReuse cfgW [0] [1] [] [] 0 1 (fun _ => 0) 0 []).2.2 = [(1, 0)] ∧
    (evalExprsReuse cfgW [0] [1] [] [] 0 1 (fun _ => 0) 0 []).2.2 ≠ [] := by
  refine ⟨rfl, rfl, ?_, ?_⟩ <;>
    simp [evalExprsReuse, enableCheck, cfgW, evalExprsReuse_stop]

/-- C3 (amended): with `OptZeroAdjoint` enabled, a statement whose lhs
adjoint is exactly zero performs no chain-rule accumulation and only
advances the data cursor past its `argCount` jacobian entries.  On the
linear tape the adjoint vector and the write trace are untouched; on the
reuse tape the only write is the unconditional zeroing of the lhs slot,
which leaves the adjoint values unchanged because that slot already holds
zero. -/
theorem zero_adjoint_skip (cfg : Config) (S A L : List ℕ) (J : List ℚ)
    (I : List ℕ) (adj radj : ℕ → ℚ) (e p eR s sp dp dpR : ℕ)
    (tr trR : List (ℕ × ℚ)) (hopt : cfg.optZeroAdjoint = true)
    (hp : e < p + 1) (hs : eR < s + 1)
    (hz : adj (p + 1) = 0) (hzR : radj (L.getD s 0) = 0) :
    evalExprsLin cfg S J I e (p + 1) adj sp dp tr =
      evalExprsLin cfg S J I e p adj (sp - 1) (dp - S.getD (sp - 1) 0) tr ∧
    evalExprsReuse cfg A L J I eR (s + 1) radj dpR trR =
      evalExprsReuse cfg A L J I eR s (Function.update radj (L.getD s 0) 0)
        (dpR - A.getD s 0) (trR ++ [(L.getD s 0, 0)]) ∧
    Function.update radj (L.getD s 0) 0 = radj := by
  refine ⟨?_, ?_, ?_⟩
  · conv =>
      lhs
      rw [evalExprsLin]
    rw [if_neg (by omega), if_neg (by rw [hz]; simp [enableCheck, hopt])]
  · conv =>
      lhs
      rw [evalExprsReuse]
    rw [if_neg (by omega), if_neg (by rw [hzR]; simp [enableCheck, hopt])]
  · rw [← hzR]
    exact Function.update_eq_self _ _

theorem zero_adjoint_skip_witness :
    cfgW.optZeroAdjoint = true ∧ 0 < 1 ∧
    ((fun _ : ℕ => (0 : ℚ)) 1 = 0) ∧
    evalExprsLin cfgW [2] [] [] 0 1 (fun _ => 0) 1 2 [] =
      evalExprsLin cfgW [2] [] [] 0 0 (fun _ => 0) 0 0 [] := by
  refine ⟨rfl, Nat.zero_lt_one, rfl, ?_⟩
  exact (zero_adjoint_skip cfgW [2] [2] [1] [] [] (fun _ => 0) (fun _ => 0)
    0 0 0 0 1 2 0 [] [] rfl Nat.zero_lt_one Nat.zero_lt_one rfl rfl).1

/-- C4: when the reverse evaluator processes a statement, the reuse tape
zeroes `adj[lhsIndex]` immediately after reading its value and applies the
chain rule with the value read before the zeroing, whereas the linear tape
only advances its implicit statement cursor and leaves the adjoint it read
unchanged. -/
theorem reverse_step_lhs_policy (cfg : Config) (S A L : List ℕ) (J : List ℚ)
    (I : List ℕ) (adj radj : ℕ → ℚ) (p s sp dp dpR : ℕ)
    (tr trR : List (ℕ × ℚ))
    (hLin : ∀ q ∈ consumedTargets I dp (S.getD (sp - 1) 0), q ≠ p + 1)
    (hReu : ∀ q ∈ consumedTargets I dpR (A.getD s 0), q ≠ L.getD s 0) :
    (evalExprsLin cfg S J I p (p + 1) adj sp dp tr).2.1 = sp - 1 ∧
    (evalExprsLin cfg S J I p (p + 1) adj sp dp tr).1 (p + 1) = adj (p + 1) ∧
    (evalExprsReuse cfg A L J I s (s + 1) radj dpR trR).1 (L.getD s 0) = 0 ∧
    (∃ rest, (evalExprsReuse cfg A L J I s (s + 1) radj dpR trR).2.2 =
      trR ++ (L.getD s 0, 0) :: rest) ∧
    (enableCheck cfg.optZeroAdjoint (decide (radj (L.getD s 0) ≠ 0)) = true →
      (evalExprsReuse cfg A L J I s (s + 1) radj dpR trR).1 =
        (accumReuse J I (radj (L.getD s 0)) (A.getD s 0)
          (Function.update radj (L.getD s 0) 0) dpR
          (trR ++ [(L.getD s 0, 0)])).1) := by
  have hL : evalExprsLin cfg S J I p (p + 1) adj sp dp tr =
      if enableCheck cfg.optZeroAdjoint (decide (adj (p + 1) ≠ 0)) then
        (let r := accumLin J I (p + 1) (S.getD (sp - 1) 0) adj dp tr
         ((r.1, sp - 1, r.2.1, r.2.2) : (ℕ → ℚ) × ℕ × ℕ × List (ℕ × ℚ)))
      else (adj, sp - 1, dp - S.getD (sp - 1) 0, tr) := by
    conv =>
      lhs
      rw [evalExprsLin]
    rw [if_neg (by omega)]
    split
    · rw [evalExprsLin_stop _ _ _ _ _ _ _ _ _ _ (le_refl p)]
    · rw [evalExprsLin_stop _ _ _ _ _ _ _ _ _ _ (le_refl p)]
  have hR : evalExprsReuse cfg A L J I s (s + 1) radj dpR trR =
      if enableCheck cfg.optZeroAdjoint (decide (radj (L.getD s 0) ≠ 0)) then
        (let r := accumReuse J I (radj (L.getD s 0)) (A.getD s 0)
          (Function.update radj (L.getD s 0) 0) dpR (trR ++ [(L.getD s 0, 0)])
         ((r.1, r.2.1, r.2.2) : (ℕ → ℚ) × ℕ × List (ℕ × ℚ)))
      else (Function.update radj (L.getD s 0) 0, dpR - A.getD s 0,
        trR ++ [(L.getD s 0, 0)]) := by
    conv =>
      lhs
      rw [evalExprsReuse]
    rw [if_neg (by omega)]
    split
    · rw [evalExprsReuse_stop _ _ _ _ _ _ _ _ _ _ (le_refl s)]
    · rw [evalExprsReuse_stop _ _ _ _ _ _ _ _ _ _ (le_refl s)]
  rw [hL, hR]
  refine ⟨?_, ?_, ?_, ?_, ?_⟩
  · split <;> rfl
  · split
    · exact accumLin_preserve J I (p + 1) _ adj dp tr (p + 1) hLin
    · rfl
  · split
    · dsimp only
      rw [accumReuse_preserve _ _ _ _ _ _ _ _ hReu, Function.update_same]
    · dsimp only
      rw [Function.update_same]
  · split
    · dsimp only
      rcases accumReuse_trace J I (radj (L.getD s 0)) (A.getD s 0)
        (Function.update radj (L.getD s 0) 0) dpR
        (trR ++ [(L.getD s 0, 0)]) with ⟨rest, hrest⟩
      exact ⟨rest, by rw [hrest, List.append_assoc]; rfl⟩
    · dsimp only
      exact ⟨[], by simp⟩
  · intro hc
    rw [if_pos hc]

theorem reverse_step_lhs_policy_witness :
    (∀ q ∈ consumedTargets ([] : List ℕ) 0 (([0] : List ℕ).getD 0 0),
      q ≠ 0 + 1) ∧
    (∀ q ∈ consumedTargets ([] : List ℕ) 0 (([0] : List ℕ).getD 0 0),
      q ≠ ([1] : List ℕ).getD 0 0) ∧
    (evalExprsLin cfgW [0] [] [] 0 1 (fun _ => 5) 1 0 []).2.1 = 0 ∧
    (evalExprsReuse cfgW [0] [1] [] [] 0 1 (fun _ => 5) 0 []).1 1 = 0 := by
  have h1 : ∀ q ∈ consumedTargets ([] : List ℕ) 0 (([0] : List ℕ).getD 0 0),
      q ≠ 0 + 1 := by simp [consumedTargets]
  have h2 : ∀ q ∈ consumedTargets ([] : List ℕ) 0 (([0] : List ℕ).getD 0 0),
      q ≠ ([1] : List ℕ).getD 0 0 := by simp [consumedTargets]
  refine ⟨h1, h2, ?_, ?_⟩
  · exact (reverse_step_lhs_policy cfgW [0] [0] [1] [] [] (fun _ => 5)
      (fun _ => 5) 0 0 1 0 0 [] [] h1 h2).1
  · exact (reverse_step_lhs_policy cfgW [0] [0] [1] [] [] (fun _ => 5)
      (fun _ => 5) 0 0 1 0 0 [] [] h1 h2).2.2.1

/-- C7: for both tapes, `reset(pos)` invokes the delete function of exactly
the external-function records strictly above `pos`, each exactly once, in
descending order, and discards them; records at or below `pos` are retained
and their delete function is not invoked. -/
theorem reset_deletes_strictly_above (t : ChunkTape) (r : ChunkIndexReuseTape)
    (pos posR : ExtPosition) :
    (t.reset pos).2 = ((t.extFuncs.drop pos.data).map Prod.fst).reverse ∧
    (t.reset pos).1.extFuncs = t.extFuncs.take pos.data ∧
    (r.reset posR).2 = ((r.extFuncs.drop posR.data).map Prod.fst).reverse ∧
    (r.reset posR).1.extFuncs = r.extFuncs.take posR.data := by
  refine ⟨?_, rfl, ?_, rfl⟩ <;>
    simp [ChunkTape.reset, ChunkIndexReuseTape.reset, extForEachSlice,
      List.take_length, List.map_reverse]

theorem extFuncLoop_trace (cfg : Config) (t : ChunkTape)
    (recs : List (ℕ × StmtPosition)) (endInner : StmtPosition) :
    ∀ (cur : StmtPosition) (adj : ℕ → ℚ) (evs : List EvalEvent),
    (ChunkTape.extFuncLoop cfg t recs cur adj evs).2.2 ++
        [EvalEvent.seg (ChunkTape.extFuncLoop cfg t recs cur adj evs).1
          endInner] =
      evs ++ canonicalTrace recs cur endInner := by
  induction recs with
  | nil => intro cur adj evs; simp [ChunkTape.extFuncLoop, canonicalTrace]
  | cons rec rest ih =>
      intro cur adj evs
      rcases rec with ⟨fn, b⟩
      rw [ChunkTape.extFuncLoop, ih, canonicalTrace]
      simp

theorem evaluateExtFunc_trace (cfg : Config) (t : ChunkTape)
    (start endp : ExtPosition) (adj : ℕ → ℚ) :
    (ChunkTape.evaluateExtFunc cfg t start endp adj).2 =
      canonicalTrace (extForEachSlice t.extFuncs start.data endp.data)
        start.inner endp.inner := by
  unfold ChunkTape.evaluateExtFunc
  dsimp only
  rw [extFuncLoop_trace cfg t _ endp.inner start.inner adj []]
  rfl

theorem callsOf_canonicalTrace (recs : List (ℕ × StmtPosition))
    (cur endPos : StmtPosition) :
    callsOf (canonicalTrace recs cur endPos) = recs.map Prod.fst := by
  induction recs generalizing cur with
  | nil => simp [canonicalTrace, callsOf]
  | cons rec rest ih =>
      rcases rec with ⟨fn, b⟩
      simp [canonicalTrace, callsOf] at ih ⊢
      exact ih b

theorem stepLin_extFuncs_append (cfg : Config) (s : ChunkTape × Mach)
    (i : Instr) :
    ∃ l, (stepLin cfg s i).1.extFuncs = s.1.extFuncs ++ l := by
  rcases s with ⟨t, m⟩
  cases i with
  | reg v => exact ⟨[], by simp [stepLin, ChunkTape.registerInput]⟩
  | assign v rhs =>
      refine ⟨[], ?_⟩
      rw [List.append_nil]
      show (t.store cfg m v rhs).1.extFuncs = t.extFuncs
      unfold ChunkTape.store
      dsimp only
      split
      · split <;> rfl
      · rfl
  | extPush fn =>
      exact ⟨[(fn, t.getStmtPosition)], rfl⟩

theorem getD_append_length {α : Type} (l : List α) (a : α) (d : α) :
    (l ++ [a]).getD l.length d = a := by
  induction l with
  | nil => rfl
  | cons x xs ih => simpa using ih

theorem runRecordLin_extFuncs_getD (cfg : Config) (p : List Instr)
    (s : ChunkTape × Mach) (j : ℕ) (d : ℕ × StmtPosition)
    (hj : j < s.1.extFuncs.length) :
    (runRecordLin cfg p s).1.extFuncs.getD j d = s.1.extFuncs.getD j d := by
  induction p generalizing s with
  | nil => rfl
  | cons i rest ih =>
      rcases stepLin_extFuncs_append cfg s i with ⟨l, hl⟩
      rw [runRecordLin, List.foldl_cons, ← runRecordLin,
        ih (stepLin cfg s i) (by rw [hl]; simp; omega), hl,
        List.getD_append _ _ _ _ hj]

/-- C2: during `evaluate(start, end)` each external-function record between
the positions is invoked exactly once, in descending order, each invocation
immediately preceded by evaluation of the statement log from the previous
frontier down to that record's stored boundary; and the boundary stored by
`pushExternalFunctionHandle` is the statement-log position captured at the
instant of the push (it survives all later recording unchanged). -/
theorem external_function_ordering (cfg : Config) (t : ChunkTape)
    (start endp : ExtPosition) (s0 : ChunkTape × Mach) (p1 p2 : List Instr)
    (fn : ℕ) :
    (t.evaluateBetween cfg start endp).2 =
      canonicalTrace (extForEachSlice t.extFuncs start.data endp.data)
        start.inner endp.inner ∧
    callsOf (t.evaluateBetween cfg start endp).2 =
      (extForEachSlice t.extFuncs start.data endp.data).map Prod.fst ∧
    (runRecordLin cfg (p1 ++ Instr.extPush fn :: p2) s0).1.extFuncs.getD
        (runRecordLin cfg p1 s0).1.extFuncs.length (0, StmtPosition.zero) =
      (fn, (runRecordLin cfg p1 s0).1.getStmtPosition) := by
  have h1 : (t.evaluateBetween cfg start endp).2 =
      canonicalTrace (extForEachSlice t.extFuncs start.data endp.data)
        start.inner endp.inner := by
    unfold ChunkTape.evaluateBetween
    dsimp only
    split <;> rw [evaluateExtFunc_trace] <;> rfl
  refine ⟨h1, by rw [h1, callsOf_canonicalTrace], ?_⟩
  rw [runRecordLin, List.foldl_append, List.foldl_cons, ← runRecordLin,
    ← runRecordLin]
  rw [runRecordLin_extFuncs_getD]
  · exact getD_append_length _ _ _
  · show ((runRecordLin cfg p1 s0).1.pushExternalFunctionHandle fn).extFuncs.length >
      (runRecordLin cfg p1 s0).1.extFuncs.length
    simp [ChunkTape.pushExternalFunctionHandle]

theorem zeroRange_zero_at (adj : ℕ → ℚ) (s n q : ℕ) (h : adj q = 0) :
    zeroRange adj s n q = 0 := by
  rw [zeroRange_apply]
  split
  · rfl
  · exact h

theorem jacobiKeep_ne_zero (cfg : Config) (e : JEntry)
    (h : jacobiKeep cfg e = true) : e.2 ≠ 0 := by
  unfold jacobiKeep at h
  by_cases h2 : e.2 ≠ 0
  · exact h2
  · rw [if_neg h2] at h
    exact absurd h (by simp)

theorem accumLin_adj0 (J : List ℚ) (I : List ℕ) (p k : ℕ) (adj : ℕ → ℚ)
    (dp : ℕ) (tr : List (ℕ × ℚ)) (hI : ∀ x ∈ I, x ≠ 0)
    (hlen : J.length = I.length) (h0 : adj 0 = 0) :
    (accumLin J I p k adj dp tr).1 0 = 0 := by
  induction k generalizing adj dp tr with
  | zero => exact h0
  | succ k ih =>
      rw [accumLin]
      apply ih
      by_cases ht : I.getD (dp - 1) 0 = 0
      · have hdp : I.length ≤ dp - 1 := by
          by_contra hlt
          push_neg at hlt
          exact hI _ (by rw [List.getD_eq_getElem I 0 hlt] at ht ⊢
                         exact ht ▸ List.getElem_mem hlt) ht
        rw [ht, List.getD_eq_default _ _ (by omega), h0]
        rw [Function.update_same]
        ring
      · rw [Function.update_noteq (Ne.symm ht)]
        exact h0

theorem accumReuse_adj0 (J : List ℚ) (I : List ℕ) (a : ℚ) (k : ℕ)
    (adj : ℕ → ℚ) (dp : ℕ) (tr : List (ℕ × ℚ)) (hI : ∀ x ∈ I, x ≠ 0)
    (hlen : J.length = I.length) (h0 : adj 0 = 0) :
    (accumReuse J I a k adj dp tr).1 0 = 0 := by
  induction k generalizing adj dp tr with
  | zero => exact h0
  | succ k ih =>
      rw [accumReuse]
      apply ih
      by_cases ht : I.getD (dp - 1) 0 = 0
      · have hdp : I.length ≤ dp - 1 := by
          by_contra hlt
          push_neg at hlt
          exact hI _ (by rw [List.getD_eq_getElem I 0 hlt] at ht ⊢
                         exact ht ▸ List.getElem_mem hlt) ht
        rw [ht, List.getD_eq_default _ _ (by omega), h0]
        rw [Function.update_same]
        ring
      · rw [Function.update_noteq (Ne.symm ht)]
        exact h0

theorem evalExprsLin_adj0 (cfg : Config) (S : List ℕ) (J : List ℚ)
    (I : List ℕ) (e : ℕ) (hI : ∀ x ∈ I, x ≠ 0) (hlen : J.length = I.length) :
    ∀ (adjPos : ℕ) (adj : ℕ → ℚ) (sp dp : ℕ) (tr : List (ℕ × ℚ)),
      adj 0 = 0 → (evalExprsLin cfg S J I e adjPos adj sp dp tr).1 0 = 0 := by
  intro adjPos
  induction adjPos with
  | zero => intro adj sp dp tr h0; exact h0
  | succ q ih =>
      intro adj sp dp tr h0
      rw [evalExprsLin]
      split
      · exact h0
      · split
        · exact ih _ _ _ _ (accumLin_adj0 J I _ _ adj dp tr hI hlen h0)
        · exact ih _ _ _ _ h0

theorem evalExprsReuse_adj0 (cfg : Config) (A L : List ℕ) (J : List ℚ)
    (I : List ℕ) (e : ℕ) (hI : ∀ x ∈ I, x ≠ 0) (hlen : J.length = I.length) :
    ∀ (sPos : ℕ) (adj : ℕ → ℚ) (dp : ℕ) (tr : List (ℕ × ℚ)),
      adj 0 = 0 → (evalExprsReuse cfg A L J I e sPos adj dp tr).1 0 = 0 := by
  intro sPos
  induction sPos with
  | zero => intro adj dp tr h0; exact h0
  | succ q ih =>
      intro adj dp tr h0
      have hupd : Function.update adj (L.getD q 0) 0 0 = 0 := by
        rcases eq_or_ne (L.getD q 0) 0 with hq | hq
        · rw [hq, Function.update_same]
        · rw [Function.update_noteq (Ne.symm hq)]; exact h0
      rw [evalExprsReuse]
      split
      · exact h0
      · split
        · exact ih _ _ _ (accumReuse_adj0 J I _ _ _ dp _ hI hlen hupd)
        · exact ih _ _ _ hupd

theorem evaluateStmt_adj0 (cfg : Config) (t : ChunkTape)
    (start endp : StmtPosition) (adj : ℕ → ℚ)
    (hI : ∀ e ∈ t.data, e.2 ≠ 0) (h0 : adj 0 = 0) :
    (t.evaluateStmt cfg start endp adj).1 0 = 0 := by
  refine evalExprsLin_adj0 cfg t.stmts _ _ _ ?_ (by simp) _ adj _ _ _ h0
  intro x hx
  rcases List.mem_map.mp hx with ⟨e, he, rfl⟩
  exact hI e he

theorem extFuncLoop_adj0 (cfg : Config) (t : ChunkTape)
    (hI : ∀ e ∈ t.data, e.2 ≠ 0) :
    ∀ (recs : List (ℕ × StmtPosition)) (cur : StmtPosition) (adj : ℕ → ℚ)
      (evs : List EvalEvent), adj 0 = 0 →
      (ChunkTape.extFuncLoop cfg t recs cur adj evs).2.1 0 = 0 := by
  intro recs
  induction recs with
  | nil => intro cur adj evs h0; exact h0
  | cons rec rest ih =>
      intro cur adj evs h0
      rcases rec with ⟨fn, b⟩
      rw [ChunkTape.extFuncLoop]
      exact ih _ _ _ (evaluateStmt_adj0 cfg t cur b adj hI h0)

theorem evaluateBetween_adj0 (cfg : Config) (t : ChunkTape)
    (start endp : ExtPosition) (h : InvLin t) :
    (t.evaluateBetween cfg start endp).1.adjoints 0 = 0 := by
  rcases h with ⟨hI, h0⟩
  unfold ChunkTape.evaluateBetween
  dsimp only
  split
  · have h1 : (t.resizeAdjoints (t.expressionCount + 1)).adjoints 0 = 0 :=
      zeroRange_zero_at _ _ _ _ h0
    have h2 : ∀ e ∈ (t.resizeAdjoints (t.expressionCount + 1)).data,
        e.2 ≠ 0 := hI
    exact evaluateStmt_adj0 cfg _ _ _ _ h2
      (extFuncLoop_adj0 cfg _ h2 _ _ _ _ h1)
  · exact evaluateStmt_adj0 cfg _ _ _ _ hI
      (extFuncLoop_adj0 cfg _ hI _ _ _ _ h0)

theorem rEvaluateStmt_adj0 (cfg : Config) (t : ChunkIndexReuseTape)
    (start endp : StmtPosition) (adj : ℕ → ℚ)
    (hI : ∀ e ∈ t.data, e.2 ≠ 0) (h0 : adj 0 = 0) :
    (t.evaluateStmt cfg start endp adj).1 0 = 0 := by
  refine evalExprsReuse_adj0 cfg _ _ _ _ _ ?_ (by simp) _ adj _ _ h0
  intro x hx
  rcases List.mem_map.mp hx with ⟨e, he, rfl⟩
  exact hI e he

theorem rExtFuncLoop_adj0 (cfg : Config) (t : ChunkIndexReuseTape)
    (hI : ∀ e ∈ t.data, e.2 ≠ 0) :
    ∀ (recs : List (ℕ × StmtPosition)) (cur : StmtPosition) (adj : ℕ → ℚ)
      (evs : List EvalEvent), adj 0 = 0 →
      (ChunkIndexReuseTape.extFuncLoop cfg t recs cur adj evs).2.1 0 = 0 := by
  intro recs
  induction recs with
  | nil => intro cur adj evs h0; exact h0
  | cons rec rest ih =>
      intro cur adj evs h0
      rcases rec with ⟨fn, b⟩
      rw [ChunkIndexReuseTape.extFuncLoop]
      exact ih _ _ _ (rEvaluateStmt_adj0 cfg t cur b adj hI h0)

theorem rEvaluateBetween_adj0 (cfg : Config) (t : ChunkIndexReuseTape)
    (start endp : ExtPosition) (h : InvReuse t) :
    (t.evaluateBetween cfg start endp).1.adjoints 0 = 0 := by
  rcases h with ⟨hI, h0⟩
  unfold ChunkIndexReuseTape.evaluateBetween
  dsimp only
  split
  · have h1 : (t.resizeAdjoints (t.indexHandler.maxIssued + 1)).adjoints 0 =
        0 := zeroRange_zero_at _ _ _ _ h0
    have h2 : ∀ e ∈ (t.resizeAdjoints (t.indexHandler.maxIssued + 1)).data,
        e.2 ≠ 0 := hI
    exact rEvaluateStmt_adj0 cfg _ _ _ _ h2
      (rExtFuncLoop_adj0 cfg _ h2 _ _ _ _ h1)
  · exact rEvaluateStmt_adj0 cfg _ _ _ _ hI
      (rExtFuncLoop_adj0 cfg _ hI _ _ _ _ h0)

theorem stepTapeLin_inv (cfg : Config) (s : ChunkTape × Mach) (i : TapeOp)
    (h : InvLin s.1) : InvLin (stepTapeLin cfg s i).1 := by
  rcases s with ⟨t, m⟩
  rcases h with ⟨hI, h0⟩
  cases i with
  | reg v => exact ⟨hI, h0⟩
  | assign v rhs =>
      constructor
      · intro e he
        unfold stepTapeLin ChunkTape.store at he
        dsimp only at he
        split at he
        · rw [pushJacobiAll_eq_filter] at he
          split at he <;>
          · dsimp only at he
            rcases List.mem_append.mp he with h1 | h1
            · exact hI e h1
            · exact jacobiKeep_ne_zero cfg e (List.mem_filter.mp h1).2
        · exact hI e he
      · show (t.store cfg m v rhs).1.adjoints 0 = 0
        unfold ChunkTape.store
        dsimp only
        split
        · split <;> exact h0
        · exact h0
  | copy v w =>
      constructor
      · intro e he
        unfold stepTapeLin ChunkTape.storeCopy at he
        dsimp only at he
        split at he <;> exact hI e he
      · show (t.storeCopy cfg m v w).1.adjoints 0 = 0
        unfold ChunkTape.storeCopy
        split <;> exact h0
  | passiveAssign v c =>
      constructor
      · intro e he
        unfold stepTapeLin ChunkTape.storePassive at he
        dsimp only at he
        split at he <;> exact hI e he
      · show (t.storePassive cfg m v c).1.adjoints 0 = 0
        unfold ChunkTape.storePassive
        split <;> exact h0
  | extPush fn => exact ⟨hI, h0⟩
  | setGrad i g =>
      have hdata : (t.setGradient i g).data = t.data := by
        unfold ChunkTape.setGradient ChunkTape.gradientWrite
        split
        · dsimp only
          split <;> rfl
        · rfl
      constructor
      · show ∀ e ∈ (t.setGradient i g).data, e.2 ≠ 0
        rw [hdata]
        exact hI
      · show (t.setGradient i g).adjoints 0 = 0
        unfold ChunkTape.setGradient ChunkTape.gradientWrite
        split
        · rename_i hne
          dsimp only
          rw [Function.update_noteq (Ne.symm hne)]
          split
          · exact zeroRange_zero_at _ _ _ _ h0
          · exact h0
        · exact h0
  | clearAll => exact ⟨hI, zeroRange_zero_at _ _ _ _ h0⟩
  | clearBetween p q => exact ⟨hI, zeroRange_zero_at _ _ _ _ h0⟩
  | resizeAdj n => exact ⟨hI, zeroRange_zero_at _ _ _ _ h0⟩
  | evalAll =>
      constructor
      · intro e he
        unfold stepTapeLin ChunkTape.evaluate ChunkTape.evaluateBetween at he
        dsimp only at he
        split at he <;> exact hI e he
      · exact evaluateBetween_adj0 cfg t _ _ ⟨hI, h0⟩
  | rewind pos =>
      exact ⟨fun e he => hI e (List.mem_of_mem_take he),
        zeroRange_zero_at _ _ _ _ h0⟩
  | activate => exact ⟨hI, h0⟩
  | deactivate => exact ⟨hI, h0⟩

theorem stepTapeReuse_inv (cfg : Config) (s : ChunkIndexReuseTape × Mach)
    (i : TapeOp) (h : InvReuse s.1) : InvReuse (stepTapeReuse cfg s i).1 := by
  rcases s with ⟨t, m⟩
  rcases h with ⟨hI, h0⟩
  cases i with
  | reg v => exact ⟨hI, h0⟩
  | assign v rhs =>
      constructor
      · intro e he
        unfold stepTapeReuse ChunkIndexReuseTape.store at he
        dsimp only at he
        split at he
        · rw [pushJacobiAll_eq_filter] at he
          split at he <;>
          · dsimp only at he
            rcases List.mem_append.mp he with h1 | h1
            · exact hI e h1
            · exact jacobiKeep_ne_zero cfg e (List.mem_filter.mp h1).2
        · exact hI e he
      · show (t.store cfg m v rhs).1.adjoints 0 = 0
        unfold ChunkIndexReuseTape.store
        dsimp only
        split
        · split <;> exact h0
        · exact h0
  | copy v w =>
      constructor
      · intro e he
        unfold stepTapeReuse ChunkIndexReuseTape.storeCopy at he
        dsimp only at he
        split at he
        · split at he
          · rename_i hw
            dsimp only at he
            rcases List.mem_append.mp he with h1 | h1
            · exact hI e h1
            · have : e = ((1 : ℚ), m.idxs w) := by simpa using h1
              rw [this]
              exact hw
          · exact hI e he
        · exact hI e he
      · show (t.storeCopy cfg m v w).1.adjoints 0 = 0
        unfold ChunkIndexReuseTape.storeCopy
        split
        · split <;> exact h0
        · exact h0
  | passiveAssign v c => exact ⟨hI, h0⟩
  | extPush fn => exact ⟨hI, h0⟩
  | setGrad i g =>
      have hdata : (t.setGradient i g).data = t.data := by
        unfold ChunkIndexReuseTape.setGradient ChunkIndexReuseTape.gradientWrite
        split
        · dsimp only
          split <;> rfl
        · rfl
      constructor
      · show ∀ e ∈ (t.setGradient i g).data, e.2 ≠ 0
        rw [hdata]
        exact hI
      · show (t.setGradient i g).adjoints 0 = 0
        unfold ChunkIndexReuseTape.setGradient ChunkIndexReuseTape.gradientWrite
        split
        · rename_i hne
          dsimp only
          rw [Function.update_noteq (Ne.symm hne)]
          split
          · exact zeroRange_zero_at _ _ _ _ h0
          · exact h0
        · exact h0
  | clearAll => exact ⟨hI, zeroRange_zero_at _ _ _ _ h0⟩
  | clearBetween p q => exact ⟨hI, zeroRange_zero_at _ _ _ _ h0⟩
  | resizeAdj n => exact ⟨hI, zeroRange_zero_at _ _ _ _ h0⟩
  | evalAll =>
      constructor
      · intro e he
        unfold stepTapeReuse ChunkIndexReuseTape.evaluate
          ChunkIndexReuseTape.evaluateBetween at he
        dsimp only at he
        split at he <;> exact hI e he
      · exact rEvaluateBetween_adj0 cfg t _ _ ⟨hI, h0⟩
  | rewind pos =>
      exact ⟨fun e he => hI e (List.mem_of_mem_take he),
        zeroRange_zero_at _ _ _ _ h0⟩
  | activate => exact ⟨hI, h0⟩
  | deactivate => exact ⟨hI, h0⟩

theorem runTapeLin_inv (cfg : Config) (ops : List TapeOp)
    (s : ChunkTape × Mach) (h : InvLin s.1) :
    InvLin (runTapeLin cfg ops s).1 := by
  induction ops generalizing s with
  | nil => exact h
  | cons i rest ih =>
      exact ih (stepTapeLin cfg s i) (stepTapeLin_inv cfg s i h)

theorem runTapeReuse_inv (cfg : Config) (ops : List TapeOp)
    (s : ChunkIndexReuseTape × Mach) (h : InvReuse s.1) :
    InvReuse (runTapeReuse cfg ops s).1 := by
  induction ops generalizing s with
  | nil => exact h
  | cons i rest ih =>
      exact ih (stepTapeReuse cfg s i) (stepTapeReuse_inv cfg s i h)

/-- C10: starting from a freshly constructed tape, after any sequence of
public operations (register, the three store overloads, external-function
push, `setGradient`, clearing, resizing, full `evaluate`, `reset`,
activity toggles) the adjoint entry at the reserved sentinel index 0 is
still zero, on both tapes: `setGradient` with index 0 is a no-op, recorded
jacobi entries never name index 0, so reverse accumulation never targets
slot 0, and resizing and clearing only write zeros. -/
theorem adjoint_zero_sentinel (cfg : Config) (ops : List TapeOp)
    (m0 mr0 : Mach) :
    (runTapeLin cfg ops (ChunkTape.initial, m0)).1.adjoints 0 = 0 ∧
    (runTapeReuse cfg ops (ChunkIndexReuseTape.initial, mr0)).1.adjoints 0 =
      0 := by
  constructor
  · exact (runTapeLin_inv cfg ops (ChunkTape.initial, m0)
      ⟨fun e he => absurd he (List.not_mem_nil e), rfl⟩).2
  · exact (runTapeReuse_inv cfg ops (ChunkIndexReuseTape.initial, mr0)
      ⟨fun e he => absurd he (List.not_mem_nil e), rfl⟩).2

theorem entrySumAt_nil (i : ℕ) : entrySumAt [] i = 0 := rfl

theorem entrySumAt_cons (e : JEntry) (es : List JEntry) (i : ℕ) :
    entrySumAt (e :: es) i =
      (if e.2 = i then e.1 else 0) + entrySumAt es i := by
  unfold entrySumAt
  rw [List.filter_cons]
  split <;> simp_all

theorem entrySumAt_reverse (es : List JEntry) (i : ℕ) :
    entrySumAt es.reverse i = entrySumAt es i := by
  unfold entrySumAt
  rw [List.filter_reverse, List.map_reverse, List.sum_reverse]

theorem entrySumAt_eq_zero (es : List JEntry) (i : ℕ)
    (h : ∀ e ∈ es, e.2 ≠ i) : entrySumAt es i = 0 := by
  induction es with
  | nil => rfl
  | cons e rest ih =>
      rw [entrySumAt_cons, if_neg (h e (List.mem_cons_self e rest)),
        ih (fun x hx => h x (List.mem_cons_of_mem e hx)), zero_add]

theorem foldAcc_apply (a : ℚ) (es : List JEntry) (f : ℕ → ℚ) (i : ℕ) :
    es.foldl (fun f e => Function.update f e.2 (f e.2 + a * e.1)) f i =
      f i + a * entrySumAt es i := by
  induction es generalizing f with
  | nil => rw [List.foldl_nil, entrySumAt_nil, mul_zero, add_zero]
  | cons e rest ih =>
      rw [List.foldl_cons, ih, entrySumAt_cons]
      rcases eq_or_ne e.2 i with he | he
      · rw [he, Function.update_same, if_pos rfl]
        ring
      · rw [Function.update_noteq (Ne.symm he), if_neg he]
        ring

theorem stepStmtRev_apply (zero : Bool) (lhs : ℕ) (es : List JEntry)
    (adj : ℕ → ℚ) (i : ℕ) :
    stepStmtRev zero lhs es adj i =
      (if zero then Function.update adj lhs 0 else adj) i +
        adj lhs * entrySumAt es i := by
  unfold stepStmtRev
  rw [foldAcc_apply, entrySumAt_reverse]

theorem sum_entrySumAt_mul (M : ℕ) (es : List JEntry) (φ : ℕ → ℚ)
    (hesM : ∀ e ∈ es, e.2 < M) :
    ∑ i ∈ Finset.range M, entrySumAt es i * φ i =
      (es.map (fun e => e.1 * φ e.2)).sum := by
  induction es with
  | nil => simp [entrySumAt_nil]
  | cons e rest ih =>
      have hsum : ∀ i ∈ Finset.range M, entrySumAt (e :: rest) i * φ i =
          (if e.2 = i then e.1 else 0) * φ i + entrySumAt rest i * φ i := by
        intro i _
        rw [entrySumAt_cons]
        ring
      rw [Finset.sum_congr rfl hsum, Finset.sum_add_distrib,
        ih (fun x hx => hesM x (List.mem_cons_of_mem e hx))]
      have he2 : e.2 ∈ Finset.range M :=
        Finset.mem_range.mpr (hesM e (List.mem_cons_self e rest))
      have : ∑ i ∈ Finset.range M, (if e.2 = i then e.1 else 0) * φ i =
          e.1 * φ e.2 := by
        rw [Finset.sum_congr rfl
          (fun i _ => by rw [ite_mul, zero_mul])]
        rw [Finset.sum_ite_eq (Finset.range M) e.2 (fun i => e.1 * φ i),
          if_pos he2]
      rw [this, List.map_cons, List.sum_cons]

theorem stepPhi (zero : Bool) (M : ℕ) (W : ℕ → ℚ) (lhs occ : ℕ)
    (es : List JEntry) (gB gT : ℕ → ℕ) (adj : ℕ → ℚ)
    (hlhsM : lhs < M)
    (hesM : ∀ e ∈ es, e.2 < M)
    (ha : gT lhs = occ)
    (hb : ∀ i, i < M → gT i = 0 ∨ gT i = Function.update gB lhs occ i)
    (hd : W occ = (es.map (fun e => e.1 * W (gB e.2))).sum +
      (if zero then 0 else W (gB lhs)))
    (hf : zero = false → ∀ i, i < M → i ≠ lhs → gT i = gB i)
    (hzinv : zero = true → ∀ i, i < M → gT i = 0 → adj i = 0) :
    ∑ i ∈ Finset.range M, stepStmtRev zero lhs es adj i * W (gB i) =
      ∑ i ∈ Finset.range M, adj i * W (gT i) := by
  have hsplit : ∀ i ∈ Finset.range M,
      stepStmtRev zero lhs es adj i * W (gB i) =
        (if zero then Function.update adj lhs 0 else adj) i * W (gB i) +
          adj lhs * (entrySumAt es i * W (gB i)) := by
    intro i _
    rw [stepStmtRev_apply]
    ring
  rw [Finset.sum_congr rfl hsplit, Finset.sum_add_distrib, ← Finset.mul_sum,
    sum_entrySumAt_mul M es (fun i => W (gB i)) hesM]
  have hlhsr : lhs ∈ Finset.range M := Finset.mem_range.mpr hlhsM
  rw [← Finset.add_sum_erase _ _ hlhsr,
    ← Finset.add_sum_erase _ (fun i => adj i * W (gT i)) hlhsr]
  have herase : ∀ i ∈ (Finset.range M).erase lhs,
      (if zero then Function.update adj lhs 0 else adj) i * W (gB i) =
        adj i * W (gT i) := by
    intro i hi
    rcases Finset.mem_erase.mp hi with ⟨hne, hiM⟩
    have hadj : (if zero then Function.update adj lhs 0 else adj) i = adj i := by
      cases zero with
      | false => rfl
      | true => exact Function.update_noteq hne _ _
    rw [hadj]
    cases hz : zero with
    | false => rw [hf hz i (Finset.mem_range.mp hiM) hne]
    | true =>
        rcases hb i (Finset.mem_range.mp hiM) with h0 | hup
        · rw [h0, hzinv hz i (Finset.mem_range.mp hiM) h0, zero_mul, zero_mul]
        · rw [hup, Function.update_noteq hne]
  rw [Finset.sum_congr rfl herase]
  have hlhsval : (if zero then Function.update adj lhs 0 else adj) lhs *
      W (gB lhs) + adj lhs * ((es.map (fun e => e.1 * W (gB e.2))).sum) =
      adj lhs * W (gT lhs) := by
    rw [ha, hd]
    cases zero with
    | false =>
        rw [if_neg (Bool.false_ne_true), if_neg (Bool.false_ne_true)]
        ring
    | true =>
        rw [if_pos rfl, if_pos rfl, Function.update_same]
        ring
  calc (if zero then Function.update adj lhs 0 else adj) lhs * W (gB lhs) +
        ∑ i ∈ (Finset.range M).erase lhs, adj i * W (gT i) +
        adj lhs * (es.map (fun e => e.1 * W (gB e.2))).sum
      = ((if zero then Function.update adj lhs 0 else adj) lhs * W (gB lhs) +
          adj lhs * (es.map (fun e => e.1 * W (gB e.2))).sum) +
        ∑ i ∈ (Finset.range M).erase lhs, adj i * W (gT i) := by ring
    _ = adj lhs * W (gT lhs) +
        ∑ i ∈ (Finset.range M).erase lhs, adj i * W (gT i) := by
          rw [hlhsval]

theorem sweepPhi (zero : Bool) (M : ℕ) (W : ℕ → ℚ) :
    ∀ (ds : List GStmt) (gT : ℕ → ℕ) (adj : ℕ → ℚ),
    SweepOkD zero M W gT ds →
    (zero = true → ∀ i, i < M → gT i = 0 → adj i = 0) →
    ∑ i ∈ Finset.range M, sweepG zero ds adj i * W (gBotD gT ds i) =
      ∑ i ∈ Finset.range M, adj i * W (gT i) := by
  intro ds
  induction ds with
  | nil => intro gT adj _ _; rfl
  | cons s rest ih =>
      intro gT adj hok hz
      rcases hok with ⟨hlhsM, hesM, ha, hb, hd, hf, hlive, hrest⟩
      have hznext : zero = true → ∀ i, i < M → s.gB i = 0 →
          stepStmtRev zero s.lhs s.entries adj i = 0 := by
        intro hzt i hiM hgB
        rw [stepStmtRev_apply, hzt]
        have hnt : ∀ e ∈ s.entries, e.2 ≠ i := by
          intro e he hc
          exact hlive e he (hc ▸ hgB)
        rw [entrySumAt_eq_zero _ _ hnt, mul_zero, add_zero]
        rcases eq_or_ne i s.lhs with rfl | hne
        · rw [if_pos rfl, Function.update_same]
        · rw [if_pos rfl, Function.update_noteq hne]
          rcases hb i hiM with h0 | hup
          · exact hz hzt i hiM h0
          · rw [Function.update_noteq hne] at hup
            exact hz hzt i hiM (hup.trans hgB)
      rw [sweepG, gBotD, ih s.gB _ hrest hznext,
        stepPhi zero M W s.lhs s.occ s.entries s.gB gT adj hlhsM hesM ha hb
          hd hf hz]

theorem sweepG_eq_sweepP (zero : Bool) (ds : List GStmt) (adj : ℕ → ℚ) :
    sweepG zero ds adj =
      sweepP zero (ds.map (fun s => (s.lhs, s.entries))) adj := by
  induction ds generalizing adj with
  | nil => rfl
  | cons s rest ih => rw [sweepG, List.map_cons, sweepP, ih]

theorem getD_append_cons {α : Type} (l1 : List α) (y : α) (l2 : List α)
    (d : α) : (l1 ++ y :: l2).getD l1.length d = y := by
  induction l1 with
  | nil => rfl
  | cons x xs ih => simpa using ih

theorem stepStmtRev_zero_mult (zero : Bool) (lhs : ℕ) (es : List JEntry)
    (adj : ℕ → ℚ) (hz : adj lhs = 0) :
    stepStmtRev zero lhs es adj =
      (if zero then Function.update adj lhs 0 else adj) := by
  funext i
  rw [stepStmtRev_apply, hz, zero_mul, add_zero]

theorem getD_map_append_cons {α β : Type} (f : α → β) (l1 : List α) (y : α)
    (l2 : List α) (d : β) :
    ((l1 ++ y :: l2).map f).getD l1.length d = f y := by
  rw [List.map_append, List.map_cons,
    show l1.length = (l1.map f).length by simp]
  exact getD_append_cons (l1.map f) (f y) (l2.map f) d

theorem consumedTargets_flat (pre es post : List JEntry) :
    ∀ x ∈ consumedTargets ((pre ++ es ++ post).map Prod.snd)
      (pre ++ es).length es.length, x ∈ es.map Prod.snd := by
  intro x hx
  rcases List.mem_map.mp hx with ⟨i, hi, rfl⟩
  rw [List.mem_range] at hi
  have harr : (pre ++ es ++ post).map Prod.snd =
      pre.map Prod.snd ++ es.map Prod.snd ++ post.map Prod.snd := by
    simp
  have hlen : (pre ++ es).length - 1 - i =
      pre.length + (es.length - 1 - i) := by
    simp only [List.length_append]; omega
  rw [harr, hlen]
  rw [List.getD_append _ _ _ _ (by simp; omega)]
  rw [List.getD_append_right _ _ _ _ (by simp)]
  have hx1 : pre.length + (es.length - 1 - i) - (pre.map Prod.snd).length =
      es.length - 1 - i := by simp
  rw [hx1, List.getD_eq_getElem _ _ (by simp; omega)]
  exact List.getElem_mem _

theorem accumReuse_flat (a : ℚ) :
    ∀ (es pre post : List JEntry) (adj : ℕ → ℚ) (tr : List (ℕ × ℚ)),
    (accumReuse ((pre ++ es ++ post).map Prod.fst)
        ((pre ++ es ++ post).map Prod.snd) a es.length adj
        (pre ++ es).length tr).1 =
      es.reverse.foldl (fun f e => Function.update f e.2 (f e.2 + a * e.1))
        adj ∧
    (accumReuse ((pre ++ es ++ post).map Prod.fst)
        ((pre ++ es ++ post).map Prod.snd) a es.length adj
        (pre ++ es).length tr).2.1 = pre.length := by
  intro es
  induction es using List.reverseRecOn with
  | nil => intro pre post adj tr; exact ⟨rfl, by simp [accumReuse]⟩
  | append_singleton es' e ih =>
      intro pre post adj tr
      have harr : pre ++ (es' ++ [e]) ++ post = pre ++ es' ++ (e :: post) := by
        simp
      have hlen : (pre ++ (es' ++ [e])).length = (pre ++ es').length + 1 := by
        simp; omega
      have hk : (es' ++ [e]).length = es'.length + 1 := by simp
      rw [harr, hlen, hk]
      simp only [accumReuse]
      have hd1 : (pre ++ es').length + 1 - 1 = (pre ++ es').length := by omega
      rw [hd1, getD_map_append_cons Prod.fst (pre ++ es') e post 0,
        getD_map_append_cons Prod.snd (pre ++ es') e post 0]
      have hrev : (es' ++ [e]).reverse = e :: es'.reverse := by simp
      constructor
      · rw [(ih pre (e :: post) _ _).1, hrev, List.foldl_cons]
      · exact (ih pre (e :: post) _ _).2

theorem accumLin_eq_accumReuse (J : List ℚ) (I : List ℕ) (p : ℕ) :
    ∀ (k : ℕ) (adj : ℕ → ℚ) (dp : ℕ) (tr : List (ℕ × ℚ)),
    (∀ x ∈ consumedTargets I dp k, x ≠ p) →
    accumLin J I p k adj dp tr = accumReuse J I (adj p) k adj dp tr := by
  intro k
  induction k with
  | zero => intro adj dp tr _; rfl
  | succ k ih =>
      intro adj dp tr h
      rw [accumLin, accumReuse]
      have hne : I.getD (dp - 1) 0 ≠ p :=
        h _ (mem_consumedTargets I dp (k + 1) 0 (by omega))
      have hadj : Function.update adj (I.getD (dp - 1) 0)
          (adj (I.getD (dp - 1) 0) + adj p * J.getD (dp - 1) 0) p = adj p :=
        Function.update_noteq (Ne.symm hne) _ _
      rw [ih _ _ _ (consumedTargets_tail I dp k p h), hadj]

/-- Splitting a linear reverse run at an intermediate adjoint position. -/
theorem evalExprsLin_split (cfg : Config) (S : List ℕ) (J : List ℚ)
    (I : List ℕ) (e mid : ℕ) (he : e ≤ mid) :
    ∀ (adjPos : ℕ) (adj : ℕ → ℚ) (sp dp : ℕ) (tr : List (ℕ × ℚ)),
    mid ≤ adjPos →
    evalExprsLin cfg S J I e adjPos adj sp dp tr =
      evalExprsLin cfg S J I e mid
        (evalExprsLin cfg S J I mid adjPos adj sp dp tr).1
        (evalExprsLin cfg S J I mid adjPos adj sp dp tr).2.1
        (evalExprsLin cfg S J I mid adjPos adj sp dp tr).2.2.1
        (evalExprsLin cfg S J I mid adjPos adj sp dp tr).2.2.2 := by
  intro adjPos
  induction adjPos with
  | zero =>
      intro adj sp dp tr hmid
      have : mid = 0 := by omega
      subst this
      rfl
  | succ q ih =>
      intro adj sp dp tr hmid
      rcases Nat.lt_or_ge mid (q + 1) with hlt | hge
      · have hL : evalExprsLin cfg S J I e (q + 1) adj sp dp tr =
            if enableCheck cfg.optZeroAdjoint (decide (adj (q + 1) ≠ 0)) then
              evalExprsLin cfg S J I e q
                (accumLin J I (q + 1) (S.getD (sp - 1) 0) adj dp tr).1
                (sp - 1)
                (accumLin J I (q + 1) (S.getD (sp - 1) 0) adj dp tr).2.1
                (accumLin J I (q + 1) (S.getD (sp - 1) 0) adj dp tr).2.2
            else evalExprsLin cfg S J I e q adj (sp - 1)
              (dp - S.getD (sp - 1) 0) tr := by
          rw [evalExprsLin]
          rw [if_neg (by omega)]
        have hM : evalExprsLin cfg S J I mid (q + 1) adj sp dp tr =
            if enableCheck cfg.optZeroAdjoint (decide (adj (q + 1) ≠ 0)) then
              evalExprsLin cfg S J I mid q
                (accumLin J I (q + 1) (S.getD (sp - 1) 0) adj dp tr).1
                (sp - 1)
                (accumLin J I (q + 1) (S.getD (sp - 1) 0) adj dp tr).2.1
                (accumLin J I (q + 1) (S.getD (sp - 1) 0) adj dp tr).2.2
            else evalExprsLin cfg S J I mid q adj (sp - 1)
              (dp - S.getD (sp - 1) 0) tr := by
          rw [evalExprsLin]
          rw [if_neg (by omega)]
        rw [hL, hM]
        split
        · exact ih _ _ _ _ (by omega)
        · exact ih _ _ _ _ (by omega)
      · have : mid = q + 1 := by omega
        subst this
        rw [evalExprsLin_stop cfg S J I _ (q + 1) adj sp dp tr (le_refl _)]

/-- Over the leading zero-argument (input) statements, a linear reverse run
leaves the adjoint vector unchanged. -/
theorem evalLin_zeros (cfg : Config) (S : List ℕ) (J : List ℚ) (I : List ℕ)
    (R : ℕ) (hS : ∀ j, j < R → S.getD j 0 = 0) :
    ∀ (adjPos : ℕ), adjPos ≤ R →
    ∀ (adj : ℕ → ℚ) (dp : ℕ) (tr : List (ℕ × ℚ)),
    (evalExprsLin cfg S J I 0 adjPos adj adjPos dp tr).1 = adj := by
  intro adjPos
  induction adjPos with
  | zero => intro _ adj dp tr; rfl
  | succ q ih =>
      intro hq adj dp tr
      rw [evalExprsLin, if_neg (by omega)]
      have hz : S.getD (q + 1 - 1) 0 = 0 := hS q (by omega)
      split
      · have hzq : q + 1 - 1 = q := by omega
        rw [hzq] at hz ⊢
        rw [hz]
        exact ih (by omega) _ _ _
      · have hzq : q + 1 - 1 = q := by omega
        rw [hzq] at hz ⊢
        rw [hz]
        exact ih (by omega) _ _ _

theorem posPairs_snoc : ∀ (l : List (List JEntry)) (R : ℕ) (es : List JEntry),
    posPairs R (l ++ [es]) = posPairs R l ++ [(R + l.length + 1, es)] := by
  intro l
  induction l with
  | nil => intro R es; simp [posPairs]
  | cons e rest ih =>
      intro R es
      rw [List.cons_append, posPairs, ih, posPairs]
      have : R + 1 + rest.length + 1 = R + (e :: rest).length + 1 := by
        simp; omega
      rw [this]
      rfl

theorem enableCheck_false_cond (a b : Bool) (h : enableCheck a b = false) :
    b = false := by
  cases a <;> cases b <;> simp [enableCheck] at h ⊢

theorem evalLin_flatten (cfg : Config) (R : ℕ) :
    ∀ (ss : List (List JEntry)) (Spost : List ℕ) (Dpost : List JEntry)
      (adj : ℕ → ℚ) (tr : List (ℕ × ℚ)),
    (∀ k, ∀ e ∈ ss.getD k [], e.2 < R + k + 1) →
    (evalExprsLin cfg (List.replicate R 0 ++ ss.map List.length ++ Spost)
        ((ss.flatten ++ Dpost).map Prod.fst)
        ((ss.flatten ++ Dpost).map Prod.snd)
        R (R + ss.length) adj (R + ss.length) ss.flatten.length tr).1 =
      sweepP false (posPairs R ss).reverse adj ∧
    (evalExprsLin cfg (List.replicate R 0 ++ ss.map List.length ++ Spost)
        ((ss.flatten ++ Dpost).map Prod.fst)
        ((ss.flatten ++ Dpost).map Prod.snd)
        R (R + ss.length) adj (R + ss.length) ss.flatten.length tr).2.1 = R ∧
    (evalExprsLin cfg (List.replicate R 0 ++ ss.map List.length ++ Spost)
        ((ss.flatten ++ Dpost).map Prod.fst)
        ((ss.flatten ++ Dpost).map Prod.snd)
        R (R + ss.length) adj (R + ss.length) ss.flatten.length tr).2.2.1 =
      0 := by
  intro ss
  induction ss using List.reverseRecOn with
  | nil =>
      intro Spost Dpost adj tr _
      rw [show R + ([] : List (List JEntry)).length = R by simp]
      rw [evalExprsLin_stop cfg _ _ _ R R adj R _ tr (le_refl R)]
      exact ⟨rfl, rfl, by simp⟩
  | append_singleton ss' es ih =>
      intro Spost Dpost adj tr hlt
      have hlt' : ∀ k, ∀ e ∈ ss'.getD k [], e.2 < R + k + 1 := by
        intro k e he
        rcases Nat.lt_or_ge k ss'.length with hk | hk
        · refine hlt k e ?_
          rw [List.getD_append _ _ _ _ hk]
          exact he
        · rw [List.getD_eq_default _ _ hk] at he
          exact absurd he (List.not_mem_nil e)
      have hes : (ss' ++ [es]).getD ss'.length [] = es :=
        getD_append_cons ss' es [] []
      have hesLt : ∀ e ∈ es, e.2 < R + ss'.length + 1 := by
        intro e he
        exact hlt ss'.length e (by rw [hes]; exact he)
      have harrS : List.replicate R 0 ++ (ss' ++ [es]).map List.length ++
          Spost = List.replicate R 0 ++ ss'.map List.length ++
          (es.length :: Spost) := by simp
      have harrD : (ss' ++ [es]).flatten ++ Dpost =
          ss'.flatten ++ (es ++ Dpost) := by simp
      have hflat : (ss' ++ [es]).flatten = ss'.flatten ++ es := by simp
      have hlen : R + (ss' ++ [es]).length = (R + ss'.length) + 1 := by
        simp only [List.length_append, List.length_cons, List.length_nil]
        omega
      rw [harrS, harrD, hflat, hlen]
      have hget : (List.replicate R 0 ++ ss'.map List.length ++
          (es.length :: Spost)).getD ((R + ss'.length) + 1 - 1) 0 =
          es.length := by
        have h1 : (R + ss'.length) + 1 - 1 =
            (List.replicate R 0 ++ ss'.map List.length).length := by simp
        rw [h1]
        exact getD_append_cons _ _ _ _
      have hppair : (posPairs R (ss' ++ [es])).reverse =
          (R + ss'.length + 1, es) :: (posPairs R ss').reverse := by
        rw [posPairs_snoc]
        simp
      rw [hppair]
      have hstep : ∀ (Y : (ℕ → ℚ) × ℕ × ℕ × List (ℕ × ℚ)),
          Y = evalExprsLin cfg
            (List.replicate R 0 ++ ss'.map List.length ++ (es.length :: Spost))
            ((ss'.flatten ++ (es ++ Dpost)).map Prod.fst)
            ((ss'.flatten ++ (es ++ Dpost)).map Prod.snd)
            R ((R + ss'.length) + 1) adj ((R + ss'.length) + 1)
            (ss'.flatten ++ es).length tr →
          Y.1 = sweepP false ((posPairs R ss').reverse)
              (stepStmtRev false (R + ss'.length + 1) es adj) ∧
          Y.2.1 = R ∧ Y.2.2.1 = 0 := by
        intro Y hY
        rw [evalExprsLin] at hY
        rw [if_neg (by omega), hget] at hY
        by_cases hbr : enableCheck cfg.optZeroAdjoint
            (decide (adj ((R + ss'.length) + 1) ≠ 0)) = true
        · rw [if_pos hbr] at hY
          dsimp only at hY
          have hbridge := accumLin_eq_accumReuse
            ((ss'.flatten ++ (es ++ Dpost)).map Prod.fst)
            ((ss'.flatten ++ (es ++ Dpost)).map Prod.snd)
            ((R + ss'.length) + 1) es.length adj
            ((ss'.flatten ++ es).length) tr ?hne
          case hne =>
            intro x hx
            have harr2 : ss'.flatten ++ (es ++ Dpost) =
                ss'.flatten ++ es ++ Dpost := by simp
            rw [harr2] at hx
            have := consumedTargets_flat ss'.flatten es Dpost x hx
            rcases List.mem_map.mp this with ⟨e, he, rfl⟩
            exact Nat.ne_of_lt (hesLt e he)
          rw [hbridge] at hY
          have harr2 : ss'.flatten ++ (es ++ Dpost) =
              ss'.flatten ++ es ++ Dpost := by simp
          have hfl := accumReuse_flat (adj ((R + ss'.length) + 1)) es
            ss'.flatten Dpost adj tr
          rw [← harr2] at hfl
          rw [hY]
          have hstepeq : (accumReuse
              ((ss'.flatten ++ (es ++ Dpost)).map Prod.fst)
              ((ss'.flatten ++ (es ++ Dpost)).map Prod.snd)
              (adj ((R + ss'.length) + 1)) es.length adj
              ((ss'.flatten ++ es).length) tr).1 =
              stepStmtRev false (R + ss'.length + 1) es adj := by
            rw [hfl.1]
            rfl
          rw [hstepeq, hfl.2]
          exact ih (es.length :: Spost) (es ++ Dpost)
            (stepStmtRev false (R + ss'.length + 1) es adj) _ hlt'
        · rw [if_neg hbr] at hY
          have hz : adj ((R + ss'.length) + 1) = 0 := by
            have := enableCheck_false_cond _ _
              (Bool.eq_false_iff.mpr hbr)
            exact of_not_not (of_decide_eq_false this)
          have hsz : stepStmtRev false (R + ss'.length + 1) es adj = adj := by
            rw [stepStmtRev_zero_mult false _ es adj hz]
            rfl
          rw [hY, hsz]
          have hdp2 : (ss'.flatten ++ es).length - es.length =
              ss'.flatten.length := by simp
          rw [hdp2]
          exact ih (es.length :: Spost) (es ++ Dpost) adj _ hlt'
      exact hstep _ rfl

theorem evalReuse_flatten (cfg : Config) :
    ∀ (ls : List (ℕ × List JEntry)) (Apost Lpost : List ℕ)
      (Dpost : List JEntry) (adj : ℕ → ℚ) (tr : List (ℕ × ℚ)),
    (evalExprsReuse cfg
        (ls.map (fun s => s.2.length) ++ Apost)
        (ls.map Prod.fst ++ Lpost)
        (((ls.map Prod.snd).flatten ++ Dpost).map Prod.fst)
        (((ls.map Prod.snd).flatten ++ Dpost).map Prod.snd)
        0 ls.length adj (ls.map Prod.snd).flatten.length tr).1 =
      sweepP true ls.reverse adj ∧
    (evalExprsReuse cfg
        (ls.map (fun s => s.2.length) ++ Apost)
        (ls.map Prod.fst ++ Lpost)
        (((ls.map Prod.snd).flatten ++ Dpost).map Prod.fst)
        (((ls.map Prod.snd).flatten ++ Dpost).map Prod.snd)
        0 ls.length adj (ls.map Prod.snd).flatten.length tr).2.1 = 0 := by
  intro ls
  induction ls using List.reverseRecOn with
  | nil =>
      intro Apost Lpost Dpost adj tr
      exact ⟨rfl, rfl⟩
  | append_singleton ls' s ih =>
      intro Apost Lpost Dpost adj tr
      have harrA : (ls' ++ [s]).map (fun t => t.2.length) ++ Apost =
          ls'.map (fun t => t.2.length) ++ (s.2.length :: Apost) := by simp
      have harrL : (ls' ++ [s]).map Prod.fst ++ Lpost =
          ls'.map Prod.fst ++ (s.1 :: Lpost) := by simp
      have harrD : ((ls' ++ [s]).map Prod.snd).flatten ++ Dpost =
          (ls'.map Prod.snd).flatten ++ (s.2 ++ Dpost) := by simp
      have hflat : ((ls' ++ [s]).map Prod.snd).flatten =
          (ls'.map Prod.snd).flatten ++ s.2 := by simp
      have hlen : (ls' ++ [s]).length = ls'.length + 1 := by simp
      rw [harrA, harrL, harrD, hflat, hlen]
      have hgetL : (ls'.map Prod.fst ++ (s.1 :: Lpost)).getD ls'.length 0 =
          s.1 := by
        rw [show ls'.length = (ls'.map Prod.fst).length by simp]
        exact getD_append_cons _ _ _ _
      have hgetA : (ls'.map (fun t => t.2.length) ++ (s.2.length :: Apost)).getD
          ls'.length 0 = s.2.length := by
        rw [show ls'.length = (ls'.map (fun t => t.2.length)).length by simp]
        exact getD_append_cons _ _ _ _
      have hppair : (ls' ++ [s]).reverse = s :: ls'.reverse := by simp
      rw [hppair, sweepP]
      have hstep : ∀ (Y : (ℕ → ℚ) × ℕ × List (ℕ × ℚ)),
          Y = evalExprsReuse cfg
            (ls'.map (fun t => t.2.length) ++ (s.2.length :: Apost))
            (ls'.map Prod.fst ++ (s.1 :: Lpost))
            (((ls'.map Prod.snd).flatten ++ (s.2 ++ Dpost)).map Prod.fst)
            (((ls'.map Prod.snd).flatten ++ (s.2 ++ Dpost)).map Prod.snd)
            0 (ls'.length + 1) adj
            ((ls'.map Prod.snd).flatten ++ s.2).length tr →
          Y.1 = sweepP true ls'.reverse (stepStmtRev true s.1 s.2 adj) ∧
          Y.2.1 = 0 := by
        intro Y hY
        rw [evalExprsReuse] at hY
        rw [if_neg (by omega), hgetL, hgetA] at hY
        by_cases hbr : enableCheck cfg.optZeroAdjoint
            (decide (adj s.1 ≠ 0)) = true
        · rw [if_pos hbr] at hY
          dsimp only at hY
          have harr2 : (ls'.map Prod.snd).flatten ++ (s.2 ++ Dpost) =
              (ls'.map Prod.snd).flatten ++ s.2 ++ Dpost := by simp
          have hfl := accumReuse_flat (adj s.1) s.2
            ((ls'.map Prod.snd).flatten) Dpost
            (Function.update adj s.1 0) (tr ++ [(s.1, 0)])
          rw [← harr2] at hfl
          rw [hY]
          have hstepeq : (accumReuse
              (((ls'.map Prod.snd).flatten ++ (s.2 ++ Dpost)).map Prod.fst)
              (((ls'.map Prod.snd).flatten ++ (s.2 ++ Dpost)).map Prod.snd)
              (adj s.1) s.2.length (Function.update adj s.1 0)
              (((ls'.map Prod.snd).flatten ++ s.2).length)
              (tr ++ [(s.1, 0)])).1 =
              stepStmtRev true s.1 s.2 adj := by
            rw [hfl.1]
            rfl
          rw [hstepeq, hfl.2]
          exact ih (s.2.length :: Apost) (s.1 :: Lpost) (s.2 ++ Dpost)
            (stepStmtRev true s.1 s.2 adj) _
        · rw [if_neg hbr] at hY
          have hz : adj s.1 = 0 := by
            have := enableCheck_false_cond _ _
              (Bool.eq_false_iff.mpr hbr)
            exact of_not_not (of_decide_eq_false this)
          have hsz : stepStmtRev true s.1 s.2 adj =
              Function.update adj s.1 0 := by
            rw [stepStmtRev_zero_mult true _ s.2 adj hz]
            rfl
          have hdp2 : ((ls'.map Prod.snd).flatten ++ s.2).length -
              s.2.length = (ls'.map Prod.snd).flatten.length := by simp
          rw [hY, hsz, hdp2]
          exact ih (s.2.length :: Apost) (s.1 :: Lpost) (s.2 ++ Dpost)
            (Function.update adj s.1 0) _
      exact hstep _ rfl

theorem WofList_zero (ws : List ℚ) : WofList ws 0 = 0 := rfl

theorem WofList_append (ws l : List ℚ) (j : ℕ) (h : j ≤ ws.length) :
    WofList (ws ++ l) j = WofList ws j := by
  unfold WofList
  rcases eq_or_ne j 0 with rfl | hj
  · rfl
  · rw [if_neg hj, if_neg hj, List.getD_append _ _ _ _ (by omega)]

theorem WofList_snoc_last (ws : List ℚ) (w : ℚ) :
    WofList (ws ++ [w]) (ws.length + 1) = w := by
  unfold WofList
  rw [if_neg (by omega)]
  have h1 : ws.length + 1 - 1 = ws.length := rfl
  rw [h1]
  exact getD_append_cons ws w [] 0

theorem gmap_le (n i : ℕ) (h : i ≤ n) : gmap n i = i := if_pos h

theorem gmap_gt (n i : ℕ) (h : n < i) : gmap n i = 0 := if_neg (by omega)

theorem gmap_update (n : ℕ) :
    Function.update (gmap n) (n + 1) (n + 1) = gmap (n + 1) := by
  funext i
  rcases eq_or_ne i (n + 1) with rfl | hne
  · rw [Function.update_same, gmap_le _ _ (le_refl _)]
  · rw [Function.update_noteq hne]
    unfold gmap
    by_cases h : i ≤ n
    · rw [if_pos h, if_pos (by omega)]
    · rw [if_neg h, if_neg (by omega)]

theorem gmap_one : gmap 1 = inpMap := by
  funext i
  unfold gmap inpMap
  rcases i with _ | _ | i
  · rfl
  · rfl
  · rw [if_neg (by omega), if_neg (by omega)]

theorem chainOk_snoc : ∀ (l : List GStmt) (s : GStmt) (G0 Gf : ℕ → ℕ),
    ChainOk G0 (l ++ [s]) Gf →
    ChainOk G0 l s.gB ∧ Gf = Function.update s.gB s.lhs s.occ := by
  intro l
  induction l with
  | nil =>
      intro s G0 Gf h
      rcases h with ⟨hgB, hrest⟩
      exact ⟨hgB, by rw [hgB]; exact hrest⟩
  | cons g rest ih =>
      intro s G0 Gf h
      rcases h with ⟨hgB, hrest⟩
      rcases ih s _ _ hrest with ⟨h1, h2⟩
      exact ⟨⟨hgB, h1⟩, h2⟩

theorem chainOk_snoc_mk : ∀ (l : List GStmt) (G0 G : ℕ → ℕ)
    (lhs occ : ℕ) (es : List JEntry),
    ChainOk G0 l G →
    ChainOk G0 (l ++ [⟨lhs, es, occ, G⟩]) (Function.update G lhs occ) := by
  intro l
  induction l with
  | nil =>
      intro G0 G lhs occ es h
      subst h
      exact ⟨rfl, rfl⟩
  | cons g rest ih =>
      intro G0 G lhs occ es h
      rcases h with ⟨hgB, hrest⟩
      exact ⟨hgB, ih _ _ _ _ _ hrest⟩

theorem sweepOkD_of_chain (zero : Bool) (M : ℕ) (W : ℕ → ℚ) :
    ∀ (gs : List GStmt) (G0 Gf : ℕ → ℕ),
    ChainOk G0 gs Gf →
    (∀ s ∈ gs, s.lhs < M ∧ (∀ e ∈ s.entries, e.2 < M) ∧
      W s.occ = (s.entries.map (fun e => e.1 * W (s.gB e.2))).sum +
        (if zero then 0 else W (s.gB s.lhs)) ∧
      (∀ e ∈ s.entries, s.gB e.2 ≠ 0)) →
    SweepOkD zero M W Gf gs.reverse ∧ gBotD Gf gs.reverse = G0 := by
  intro gs
  induction gs using List.reverseRecOn with
  | nil =>
      intro G0 Gf hch _
      exact ⟨trivial, hch⟩
  | append_singleton gs' s ih =>
      intro G0 Gf hch hels
      rcases chainOk_snoc gs' s G0 Gf hch with ⟨hch2, hGf⟩
      have hels2 : ∀ u ∈ gs', u.lhs < M ∧ (∀ e ∈ u.entries, e.2 < M) ∧
          W u.occ = (u.entries.map (fun e => e.1 * W (u.gB e.2))).sum +
            (if zero then 0 else W (u.gB u.lhs)) ∧
          (∀ e ∈ u.entries, u.gB e.2 ≠ 0) :=
        fun u hu => hels u (List.mem_append_left _ hu)
      have hs := hels s (List.mem_append_right _ (List.mem_cons_self s []))
      rcases ih G0 s.gB hch2 hels2 with ⟨hok, hbot⟩
      have hrev : (gs' ++ [s]).reverse = s :: gs'.reverse := by simp
      rw [hrev]
      constructor
      · refine ⟨hs.1, hs.2.1, ?_, ?_, hs.2.2.1, ?_, hs.2.2.2, hok⟩
        · rw [hGf, Function.update_same]
        · intro i _
          right
          rw [hGf]
        · intro _ i _ hne
          rw [hGf, Function.update_noteq hne]
      · rw [gBotD]
        exact hbot

theorem glistLin_map : ∀ (ss : List (List JEntry)) (R : ℕ),
    (glistLin R ss).map (fun s => (s.lhs, s.entries)) = posPairs R ss := by
  intro ss
  induction ss with
  | nil => intro R; rfl
  | cons es rest ih =>
      intro R
      rw [glistLin, List.map_cons, posPairs, ih]

theorem glistLin_chain : ∀ (ss : List (List JEntry)) (R : ℕ),
    ChainOk (gmap R) (glistLin R ss) (gmap (R + ss.length)) := by
  intro ss
  induction ss with
  | nil =>
      intro R
      show gmap (R + 0) = gmap R
      rfl
  | cons es rest ih =>
      intro R
      refine ⟨rfl, ?_⟩
      rw [gmap_update]
      have h1 := ih (R + 1)
      have h2 : R + 1 + rest.length = R + (es :: rest).length := by
        simp
        omega
      rw [h2] at h1
      exact h1

theorem glistLin_mem : ∀ (ss : List (List JEntry)) (R : ℕ) (s : GStmt),
    s ∈ glistLin R ss → ∃ k, k < ss.length ∧
      s = ⟨R + k + 1, ss.getD k [], R + k + 1, gmap (R + k)⟩ := by
  intro ss
  induction ss with
  | nil =>
      intro R s h
      exact absurd h (List.not_mem_nil s)
  | cons es rest ih =>
      intro R s h
      rcases List.mem_cons.mp h with rfl | h2
      · exact ⟨0, by simp, rfl⟩
      · rcases ih (R + 1) s h2 with ⟨k, hk, hs⟩
        refine ⟨k + 1, by simp; omega, ?_⟩
        rw [hs]
        have h1 : R + 1 + k = R + (k + 1) := by omega
        rw [h1]
        rfl

theorem calcGradientEntries_length_le (vals : ℕ → ℚ) (idxs : ℕ → ℕ) :
    ∀ (rhs : Expr) (mlt : ℚ),
    (calcGradientEntries vals idxs rhs mlt).length ≤ leafCount rhs := by
  intro rhs
  induction rhs with
  | const c => intro mlt; exact Nat.le_refl 0
  | var v => intro mlt; exact Nat.le_refl 1
  | add a b iha ihb =>
      intro mlt
      rw [calcGradientEntries, List.length_append, leafCount]
      exact Nat.add_le_add (iha mlt) (ihb mlt)
  | mul a b iha ihb =>
      intro mlt
      rw [calcGradientEntries, List.length_append, leafCount]
      exact Nat.add_le_add (iha _) (ihb _)

theorem storedEntries_length_le (cfg : Config) (m : Mach) (rhs : Expr) :
    (storedEntries cfg m rhs).length ≤ leafCount rhs :=
  le_trans (List.length_filter_le _ _)
    (calcGradientEntries_length_le m.vals m.idxs rhs 1)

theorem calcGradientEntries_snd (vals : ℕ → ℚ) (idxs : ℕ → ℕ) :
    ∀ (rhs : Expr) (mlt : ℚ), ∀ e ∈ calcGradientEntries vals idxs rhs mlt,
    ∃ u, e.2 = idxs u := by
  intro rhs
  induction rhs with
  | const c => intro mlt e he; exact absurd he (List.not_mem_nil e)
  | var v =>
      intro mlt e he
      rw [calcGradientEntries] at he
      rcases List.mem_singleton.mp he with rfl
      exact ⟨v, rfl⟩
  | add a b iha ihb =>
      intro mlt e he
      rw [calcGradientEntries] at he
      rcases List.mem_append.mp he with h | h
      · exact iha mlt e h
      · exact ihb mlt e h
  | mul a b iha ihb =>
      intro mlt e he
      rw [calcGradientEntries] at he
      rcases List.mem_append.mp he with h | h
      · exact iha _ e h
      · exact ihb _ e h

theorem storedEntries_snd (cfg : Config) (m : Mach) (rhs : Expr) :
    ∀ e ∈ storedEntries cfg m rhs, ∃ u, e.2 = m.idxs u := by
  intro e he
  exact calcGradientEntries_snd m.vals m.idxs rhs 1 e
    (List.mem_of_mem_filter he)

theorem storedEntries_ne_zero (cfg : Config) (m : Mach) (rhs : Expr) :
    ∀ e ∈ storedEntries cfg m rhs, e.2 ≠ 0 := by
  intro e he
  exact jacobiKeep_ne_zero cfg e (List.of_mem_filter he)

theorem calcGrad_sum (vals : ℕ → ℚ) (idxs : ℕ → ℕ) (δ : ℕ → ℚ)
    (Wg : ℕ → ℚ) (hcoh : ∀ v, δ v = Wg (idxs v)) :
    ∀ (rhs : Expr) (mlt : ℚ),
    ((calcGradientEntries vals idxs rhs mlt).map
        (fun e => e.1 * Wg e.2)).sum = mlt * derivExpr vals δ rhs := by
  intro rhs
  induction rhs with
  | const c => intro mlt; simp [calcGradientEntries, derivExpr]
  | var v =>
      intro mlt
      simp [calcGradientEntries, derivExpr, hcoh v]
  | add a b iha ihb =>
      intro mlt
      rw [calcGradientEntries, derivExpr, List.map_append, List.sum_append,
        iha, ihb]
      ring
  | mul a b iha ihb =>
      intro mlt
      rw [calcGradientEntries, derivExpr, List.map_append, List.sum_append,
        iha, ihb]
      ring

theorem filter_keep_sum (cfg : Config)
    (hIgn : cfg.optIgnoreInvalidJacobies = false) (Wg : ℕ → ℚ)
    (hW0 : Wg 0 = 0) :
    ∀ es : List JEntry,
    ((es.filter (jacobiKeep cfg)).map (fun e => e.1 * Wg e.2)).sum =
      (es.map (fun e => e.1 * Wg e.2)).sum := by
  intro es
  induction es with
  | nil => rfl
  | cons e rest ih =>
      rw [List.filter_cons]
      by_cases hk : jacobiKeep cfg e = true
      · rw [if_pos hk, List.map_cons, List.sum_cons, List.map_cons,
          List.sum_cons, ih]
      · have hterm : e.1 * Wg e.2 = 0 := by
          rcases eq_or_ne e.2 0 with h2 | h2
          · rw [h2, hW0, mul_zero]
          · have hkf : jacobiKeep cfg e = false := Bool.eq_false_iff.mpr hk
            unfold jacobiKeep at hkf
            rw [if_pos h2, hIgn] at hkf
            have htrue : enableCheck false (cfg.isfinite e.1) = true := by
              simp [enableCheck]
            rw [if_pos htrue] at hkf
            have hdec := enableCheck_false_cond _ _ hkf
            have h1 : e.1 = 0 := of_not_not (of_decide_eq_false hdec)
            rw [h1, zero_mul]
        rw [if_neg hk, List.map_cons, List.sum_cons, hterm, zero_add, ih]

theorem storedEntries_sum (cfg : Config)
    (hIgn : cfg.optIgnoreInvalidJacobies = false) (m : Mach) (δ : ℕ → ℚ)
    (Wg : ℕ → ℚ) (hW0 : Wg 0 = 0) (hcoh : ∀ v, δ v = Wg (m.idxs v))
    (rhs : Expr) :
    ((storedEntries cfg m rhs).map (fun e => e.1 * Wg e.2)).sum =
      derivExpr m.vals δ rhs := by
  unfold storedEntries
  rw [filter_keep_sum cfg hIgn Wg hW0,
    calcGrad_sum m.vals m.idxs δ Wg hcoh rhs 1, one_mul]

theorem enableCheck_of_true (opt : Bool) : enableCheck opt true = true := by
  cases opt <;> rfl

theorem zeroRange_zero_fun (s n : ℕ) :
    zeroRange (fun _ => 0) s n = (fun _ => (0 : ℚ)) := by
  funext i
  rw [zeroRange_apply]
  split <;> rfl

theorem zeroRange_update_high (iy : ℕ) (g : ℚ) (n : ℕ) :
    zeroRange (Function.update (fun _ => (0 : ℚ)) iy g) (iy + 1) n =
      Function.update (fun _ => (0 : ℚ)) iy g := by
  funext i
  rw [zeroRange_apply]
  split
  · rw [Function.update_noteq (by omega)]
  · rfl

theorem sum_mul_inpMap (M : ℕ) (hM : 1 < M) (W : ℕ → ℚ) (hW0 : W 0 = 0)
    (f : ℕ → ℚ) :
    ∑ i ∈ Finset.range M, f i * W (inpMap i) = f 1 * W 1 := by
  have h0 : ∀ i ∈ Finset.range M, i ≠ 1 → f i * W (inpMap i) = 0 := by
    intro i _ hne
    have h1 : inpMap i = 0 := if_neg hne
    rw [h1, hW0, mul_zero]
  have h1 : (1 : ℕ) ∉ Finset.range M → f 1 * W (inpMap 1) = 0 :=
    fun h => absurd (Finset.mem_range.mpr hM) h
  rw [Finset.sum_eq_single 1 h0 h1]
  rfl

theorem sum_update_one (M iy : ℕ) (hiy : iy < M) (φ : ℕ → ℚ) :
    ∑ i ∈ Finset.range M, Function.update (fun _ => (0 : ℚ)) iy 1 i * φ i =
      φ iy := by
  have h0 : ∀ i ∈ Finset.range M, i ≠ iy →
      Function.update (fun _ => (0 : ℚ)) iy 1 i * φ i = 0 := by
    intro i _ hne
    rw [Function.update_noteq hne, zero_mul]
  have h1 : iy ∉ Finset.range M →
      Function.update (fun _ => (0 : ℚ)) iy 1 iy * φ iy = 0 :=
    fun h => absurd (Finset.mem_range.mpr hiy) h
  rw [Finset.sum_eq_single iy h0 h1, Function.update_same, one_mul]

theorem map_congr_mem {α β : Type} (l : List α) (f g : α → β)
    (h : ∀ a ∈ l, f a = g a) : l.map f = l.map g := by
  induction l with
  | nil => rfl
  | cons a rest ih =>
      rw [List.map_cons, List.map_cons, h a (List.mem_cons_self a rest),
        ih (fun b hb => h b (List.mem_cons_of_mem a hb))]

theorem store_active_eq (cfg : Config) (t : ChunkTape) (m : Mach) (v : ℕ)
    (rhs : Expr) (h : enableCheck cfg.optTapeActivity t.active = true) :
    t.store cfg m v rhs =
      if (storedEntries cfg m rhs).length = 0 then
        ({ t with data := t.data ++ storedEntries cfg m rhs },
         { vals := Function.update m.vals v (evalExpr m.vals rhs),
           idxs := Function.update m.idxs v 0 })
      else
        ({ t with data := t.data ++ storedEntries cfg m rhs,
                  stmts := t.stmts ++
                    [statementIntCast (storedEntries cfg m rhs).length],
                  expressionCount := t.expressionCount + 1 },
         { vals := Function.update m.vals v (evalExpr m.vals rhs),
           idxs := Function.update m.idxs v (t.expressionCount + 1) }) := by
  unfold ChunkTape.store
  rw [if_pos h]
  dsimp only
  rw [pushJacobiAll_eq_filter, filter_eq_storedEntries]
  simp only [List.length_append, Nat.add_sub_cancel_left]

theorem linStep (cfg : Config) (hIgn : cfg.optIgnoreInvalidJacobies = false)
    (x : ℕ) (t : ChunkTape) (m : Mach) (ss : List (List JEntry))
    (ws : List ℚ) (δ : ℕ → ℚ) (v : ℕ) (rhs : Expr)
    (hvx : v ≠ x) (hleaf : leafCount rhs ≤ 255)
    (hInv : LinInvC1 x t m ss ws δ) :
    ∃ ss2 ws2,
      LinInvC1 x (t.store cfg m v rhs).1 (t.store cfg m v rhs).2 ss2 ws2
        (Function.update δ v (derivExpr m.vals δ rhs)) ∧
      (t.store cfg m v rhs).2.vals =
        Function.update m.vals v (evalExpr m.vals rhs) := by
  obtain ⟨h1, h2, h3, h4, h5, h6, h7, h8, h9, h10, h11, h12, h13, h14⟩ := hInv
  have hact : enableCheck cfg.optTapeActivity t.active = true := by
    rw [h5]; exact enableCheck_of_true _
  rw [store_active_eq cfg t m v rhs hact]
  have hder : ((storedEntries cfg m rhs).map
      (fun e => e.1 * WofList ws e.2)).sum = derivExpr m.vals δ rhs :=
    storedEntries_sum cfg hIgn m δ (WofList ws) rfl h12 rhs
  by_cases h0 : (storedEntries cfg m rhs).length = 0
  · rw [if_pos h0]
    unfold LinInvC1
    dsimp only
    have hesnil : storedEntries cfg m rhs = [] := List.length_eq_zero.mp h0
    have hder0 : derivExpr m.vals δ rhs = 0 := by
      rw [← hder, hesnil]; rfl
    refine ⟨ss, ws, ⟨?_, h2, h3, h4, h5, h6, h7, h8, h9, ?_, ?_, ?_,
      h13, h14⟩, rfl⟩
    · rw [hesnil, List.append_nil]; exact h1
    · rw [Function.update_noteq (Ne.symm hvx)]; exact h10
    · intro u
      rcases eq_or_ne u v with rfl | hne
      · rw [Function.update_same]; exact Nat.zero_le _
      · rw [Function.update_noteq hne]; exact h11 u
    · intro u
      rcases eq_or_ne u v with rfl | hne
      · rw [Function.update_same, Function.update_same, hder0, WofList_zero]
      · rw [Function.update_noteq hne, Function.update_noteq hne]
        exact h12 u
  · rw [if_neg h0]
    unfold LinInvC1
    dsimp only
    have hlelen : (storedEntries cfg m rhs).length ≤ 255 :=
      le_trans (storedEntries_length_le cfg m rhs) hleaf
    have hlen : statementIntCast (storedEntries cfg m rhs).length =
        (storedEntries cfg m rhs).length :=
      Nat.mod_eq_of_lt (by omega)
    refine ⟨ss ++ [storedEntries cfg m rhs],
      ws ++ [derivExpr m.vals δ rhs], ⟨?_, ?_, ?_, h4, h5, h6, h7, ?_, ?_,
      ?_, ?_, ?_, ?_, ?_⟩, rfl⟩
    · rw [h1]; simp
    · rw [h2, hlen]; simp
    · rw [h3]
      simp only [List.length_append, List.length_cons, List.length_nil]
      omega
    · simp only [List.length_append, List.length_cons, List.length_nil, h8]
      omega
    · rw [List.getD_append _ _ _ _ (by omega)]; exact h9
    · rw [Function.update_noteq (Ne.symm hvx)]; exact h10
    · intro u
      rcases eq_or_ne u v with rfl | hne
      · rw [Function.update_same, h3, List.length_append, h8]
        simp
      · rw [Function.update_noteq hne, List.length_append]
        exact le_trans (h11 u) (Nat.le_add_right _ _)
    · intro u
      rcases eq_or_ne u v with rfl | hne
      · rw [Function.update_same, Function.update_same, h3, ← h8,
          WofList_snoc_last]
      · rw [Function.update_noteq hne, Function.update_noteq hne,
          WofList_append _ _ _ (h11 u)]
        exact h12 u
    · intro k e he
      rcases Nat.lt_trichotomy k ss.length with hk | hk | hk
      · rw [List.getD_append _ _ _ _ hk] at he
        exact h13 k e he
      · rw [hk, getD_append_cons] at he
        refine ⟨storedEntries_ne_zero cfg m rhs e he, ?_⟩
        rcases storedEntries_snd cfg m rhs e he with ⟨u, hu⟩
        rw [hu, hk, ← h8]
        exact h11 u
      · rw [List.getD_eq_default _ _ (by simp; omega)] at he
        exact absurd he (List.not_mem_nil e)
    · intro k hk
      rcases Nat.lt_or_ge k ss.length with hklt | hkge
      · rw [List.getD_append _ _ _ _ hklt,
          WofList_append _ _ _ (by omega)]
        rw [map_congr_mem _ _ (fun e => e.1 * WofList ws e.2)
          (fun e he => by
            rw [WofList_append _ _ _ (le_trans (h13 k e he).2 (by omega))])]
        exact h14 k hklt
      · have hkeq : k = ss.length := by
          rw [List.length_append] at hk
          simp at hk
          omega
        rw [hkeq, getD_append_cons]
        have hL : ss.length + 2 = ws.length + 1 := by omega
        rw [hL, WofList_snoc_last]
        rw [map_congr_mem _ _ (fun e => e.1 * WofList ws e.2)
          (fun e he => by
            rcases storedEntries_snd cfg m rhs e he with ⟨u, hu⟩
            rw [WofList_append _ _ _ (by rw [hu]; exact h11 u)])]
        exact hder.symm

theorem linRecord (cfg : Config)
    (hIgn : cfg.optIgnoreInvalidJacobies = false) (x : ℕ) :
    ∀ (p : List (ℕ × Expr)) (t : ChunkTape) (m : Mach)
      (ss : List (List JEntry)) (ws : List ℚ) (δ : ℕ → ℚ),
    (∀ a ∈ p, a.1 ≠ x ∧ leafCount a.2 ≤ 255) →
    LinInvC1 x t m ss ws δ →
    ∃ ss2 ws2,
      LinInvC1 x (runStoreLin cfg p (t, m)).1 (runStoreLin cfg p (t, m)).2
        ss2 ws2 (runSym p (m.vals, δ)).2 ∧
      (runStoreLin cfg p (t, m)).2.vals = (runSym p (m.vals, δ)).1 := by
  intro p
  induction p with
  | nil =>
      intro t m ss ws δ _ hInv
      exact ⟨ss, ws, hInv, rfl⟩
  | cons a rest ih =>
      intro t m ss ws δ hp hInv
      have ha := hp a (List.mem_cons_self a rest)
      rcases linStep cfg hIgn x t m ss ws δ a.1 a.2 ha.1 ha.2 hInv with
        ⟨ss2, ws2, hInv2, hvals2⟩
      have hrest : ∀ b ∈ rest, b.1 ≠ x ∧ leafCount b.2 ≤ 255 :=
        fun b hb => hp b (List.mem_cons_of_mem a hb)
      have hrun : runStoreLin cfg (a :: rest) (t, m) =
          runStoreLin cfg rest (t.store cfg m a.1 a.2) := rfl
      have hsym : runSym (a :: rest) (m.vals, δ) =
          runSym rest (symStep (m.vals, δ) a) := rfl
      rw [hrun, hsym]
      have hpair : symStep (m.vals, δ) a =
          ((t.store cfg m a.1 a.2).2.vals,
           Function.update δ a.1 (derivExpr m.vals δ a.2)) := by
        rw [hvals2]; rfl
      rw [hpair]
      rcases ih (t.store cfg m a.1 a.2).1 (t.store cfg m a.1 a.2).2 ss2 ws2 _
        hrest hInv2 with ⟨ss3, ws3, hInv3, hvals3⟩
      exact ⟨ss3, ws3, hInv3, hvals3⟩

theorem checkIndex_cases (hnd : IndexHandler) (i : ℕ) :
    (i ≠ 0 ∧ hnd.checkIndex i = (hnd, i)) ∨
    (i = 0 ∧ hnd.freeList = [] ∧
      hnd.checkIndex i = ({ hnd with maxIssued := hnd.maxIssued + 1 },
        hnd.maxIssued + 1)) ∨
    (i = 0 ∧ ∃ f rest, hnd.freeList = f :: rest ∧
      hnd.checkIndex i = ({ hnd with freeList := rest }, f)) := by
  unfold IndexHandler.checkIndex
  by_cases hi : i = 0
  · rw [if_pos hi]
    cases hf : hnd.freeList with
    | nil => exact Or.inr (Or.inl ⟨hi, rfl, rfl⟩)
    | cons f rest => exact Or.inr (Or.inr ⟨hi, f, rest, rfl, rfl⟩)
  · rw [if_neg hi]
    exact Or.inl ⟨hi, rfl⟩

theorem IndexHandler.freeIndex_max (hnd : IndexHandler) (i : ℕ) :
    (hnd.freeIndex i).1.maxIssued = hnd.maxIssued := by
  unfold IndexHandler.freeIndex
  split_ifs <;> rfl

theorem IndexHandler.freeIndex_freeList (hnd : IndexHandler) (i : ℕ) :
    (hnd.freeIndex i).1.freeList =
      if i ≠ 0 then i :: hnd.freeList else hnd.freeList := by
  unfold IndexHandler.freeIndex
  split_ifs <;> rfl

theorem checkIndex_spec (hnd : IndexHandler) (idxs : ℕ → ℕ) (v : ℕ)
    (hbound : ∀ u, idxs u ≤ hnd.maxIssued)
    (hinj : ∀ u w, idxs u ≠ 0 → idxs u = idxs w → u = w)
    (hnod : hnd.freeList.Nodup)
    (hfree : ∀ f ∈ hnd.freeList,
      f ≠ 0 ∧ f ≤ hnd.maxIssued ∧ ∀ u, idxs u ≠ f) :
    (hnd.checkIndex (idxs v)).2 ≠ 0 ∧
    hnd.maxIssued ≤ (hnd.checkIndex (idxs v)).1.maxIssued ∧
    (hnd.checkIndex (idxs v)).2 ≤ (hnd.checkIndex (idxs v)).1.maxIssued ∧
    (∀ u, u ≠ v → idxs u ≠ (hnd.checkIndex (idxs v)).2) ∧
    (hnd.checkIndex (idxs v)).1.freeList.Nodup ∧
    (∀ f ∈ (hnd.checkIndex (idxs v)).1.freeList,
      f ≠ 0 ∧ f ≤ (hnd.checkIndex (idxs v)).1.maxIssued ∧
      (∀ u, idxs u ≠ f) ∧ f ≠ (hnd.checkIndex (idxs v)).2) ∧
    (∀ u, idxs u ≤ (hnd.checkIndex (idxs v)).1.maxIssued) := by
  rcases checkIndex_cases hnd (idxs v) with ⟨hi, heq⟩ | ⟨hi, hf, heq⟩ |
    ⟨hi, f, rest, hf, heq⟩
  · rw [heq]
    dsimp only
    refine ⟨hi, le_refl _, hbound v, ?_, hnod, ?_, hbound⟩
    · intro u hu hcon
      exact hu (hinj u v (by rw [hcon]; exact hi) hcon)
    · intro f hfm
      obtain ⟨hf0, hfle, hfun⟩ := hfree f hfm
      exact ⟨hf0, hfle, hfun, fun hc => hfun v hc.symm⟩
  · rw [heq]
    dsimp only
    refine ⟨by omega, by omega, le_refl _, ?_, hnod, ?_, ?_⟩
    · intro u _ hcon
      have := hbound u
      omega
    · intro g hgm
      rw [hf] at hgm
      exact absurd hgm (List.not_mem_nil g)
    · intro u
      have := hbound u
      omega
  · rw [heq]
    dsimp only
    have hnodc := hnod
    rw [hf] at hnodc
    obtain ⟨hfnm, hrest⟩ := List.nodup_cons.mp hnodc
    obtain ⟨hf0, hfle, hfun⟩ :=
      hfree f (by rw [hf]; exact List.mem_cons_self f rest)
    refine ⟨hf0, le_refl _, hfle, ?_, hrest, ?_, hbound⟩
    · intro u _ hcon
      exact hfun u hcon
    · intro g hgm
      obtain ⟨hg0, hgle, hgun⟩ :=
        hfree g (by rw [hf]; exact List.mem_cons_of_mem f hgm)
      refine ⟨hg0, hgle, hgun, ?_⟩
      intro hc
      exact hfnm (hc ▸ hgm)

theorem rstore_active_eq (cfg : Config) (t : ChunkIndexReuseTape) (m : Mach)
    (v : ℕ) (rhs : Expr)
    (h : enableCheck cfg.optTapeActivity t.active = true) :
    t.store cfg m v rhs =
      if (storedEntries cfg m rhs).length = 0 then
        ({ t with data := t.data ++ storedEntries cfg m rhs,
                  indexHandler := (t.indexHandler.freeIndex (m.idxs v)).1 },
         { vals := Function.update m.vals v (evalExpr m.vals rhs),
           idxs := Function.update m.idxs v
             (t.indexHandler.freeIndex (m.idxs v)).2 })
      else
        ({ t with data := t.data ++ storedEntries cfg m rhs,
                  indexHandler := (t.indexHandler.checkIndex (m.idxs v)).1,
                  stmts := t.stmts ++
                    [(statementIntCast (storedEntries cfg m rhs).length,
                      (t.indexHandler.checkIndex (m.idxs v)).2)] },
         { vals := Function.update m.vals v (evalExpr m.vals rhs),
           idxs := Function.update m.idxs v
             (t.indexHandler.checkIndex (m.idxs v)).2 }) := by
  unfold ChunkIndexReuseTape.store
  rw [if_pos h]
  dsimp only
  rw [pushJacobiAll_eq_filter, filter_eq_storedEntries]
  simp only [List.length_append, Nat.add_sub_cancel_left]

theorem reuseStep (cfg : Config)
    (hIgn : cfg.optIgnoreInvalidJacobies = false) (x : ℕ)
    (t : ChunkIndexReuseTape) (m : Mach) (ls : List (ℕ × List JEntry))
    (ws : List ℚ) (gs : List GStmt) (G : ℕ → ℕ) (δ : ℕ → ℚ) (v : ℕ)
    (rhs : Expr) (hvx : v ≠ x) (hleaf : leafCount rhs ≤ 255)
    (hInv : ReuseInvC1 x t m ls ws gs G δ) :
    ∃ ls2 ws2 gs2 G2,
      ReuseInvC1 x (t.store cfg m v rhs).1 (t.store cfg m v rhs).2
        ls2 ws2 gs2 G2
        (Function.update δ v (derivExpr m.vals δ rhs)) ∧
      (t.store cfg m v rhs).2.vals =
        Function.update m.vals v (evalExpr m.vals rhs) := by
  obtain ⟨h1, h2, h3, h4, h5, h6, h7, h8, h9, h10, h11, h12, h13, h14, h15,
    h16, h17, h18, h19, h20, h21⟩ := hInv
  have hact : enableCheck cfg.optTapeActivity t.active = true := by
    rw [h4]; exact enableCheck_of_true _
  rw [rstore_active_eq cfg t m v rhs hact]
  have hW0 : WofList ws (G 0) = 0 := by rw [h10]; exact WofList_zero ws
  have hder : ((storedEntries cfg m rhs).map
      (fun e => e.1 * WofList ws (G e.2))).sum = derivExpr m.vals δ rhs :=
    storedEntries_sum cfg hIgn m δ (fun j => WofList ws (G j)) hW0 h18 rhs
  by_cases h0 : (storedEntries cfg m rhs).length = 0
  · rw [if_pos h0]
    unfold ReuseInvC1
    dsimp only
    have hesnil : storedEntries cfg m rhs = [] := List.length_eq_zero.mp h0
    have hder0 : derivExpr m.vals δ rhs = 0 := by
      rw [← hder, hesnil]; rfl
    have hmax : (t.indexHandler.freeIndex (m.idxs v)).1.maxIssued =
        t.indexHandler.maxIssued := IndexHandler.freeIndex_max _ _
    refine ⟨ls, ws, gs, G, ⟨?_, h2, h3, h4, h5, h6, h7, h8, ?_, h10, h11,
      ?_, ?_, ?_, ?_, ?_, ?_, ?_, h19, h20, ?_⟩, rfl⟩
    · rw [hesnil, List.append_nil]; exact h1
    · rw [Function.update_noteq (Ne.symm hvx)]; exact h9
    · intro u
      rw [hmax]
      rcases eq_or_ne u v with rfl | hne
      · rw [Function.update_same, IndexHandler.freeIndex_snd]
        exact Nat.zero_le _
      · rw [Function.update_noteq hne]; exact h12 u
    · rw [hmax]; exact h13
    · intro u w hu0 huw
      rcases eq_or_ne u v with rfl | hu
      · rw [Function.update_same, IndexHandler.freeIndex_snd] at hu0
        exact absurd rfl hu0
      · rw [Function.update_noteq hu] at hu0 huw
        rcases eq_or_ne w v with rfl | hw
        · rw [Function.update_same, IndexHandler.freeIndex_snd] at huw
          exact absurd huw hu0
        · rw [Function.update_noteq hw] at huw
          exact h14 u w hu0 huw
    · rw [IndexHandler.freeIndex_freeList]
      by_cases hiz : m.idxs v ≠ 0
      · rw [if_pos hiz]
        refine List.nodup_cons.mpr ⟨?_, h15⟩
        intro hmem
        exact (h16 _ hmem).2.2 v rfl
      · rw [if_neg hiz]; exact h15
    · intro f hf
      rw [IndexHandler.freeIndex_freeList] at hf
      rw [hmax]
      by_cases hiz : m.idxs v ≠ 0
      · rw [if_pos hiz] at hf
        rcases List.mem_cons.mp hf with rfl | hf2
        · refine ⟨hiz, h12 v, ?_⟩
          intro u
          rcases eq_or_ne u v with rfl | hu
          · rw [Function.update_same, IndexHandler.freeIndex_snd]
            exact Ne.symm hiz
          · rw [Function.update_noteq hu]
            intro hc
            exact hu (h14 u v (by rw [hc]; exact hiz) hc)
        · obtain ⟨hf0, hfle, hfun⟩ := h16 f hf2
          refine ⟨hf0, hfle, ?_⟩
          intro u
          rcases eq_or_ne u v with rfl | hu
          · rw [Function.update_same, IndexHandler.freeIndex_snd]
            exact Ne.symm hf0
          · rw [Function.update_noteq hu]; exact hfun u
      · rw [if_neg hiz] at hf
        obtain ⟨hf0, hfle, hfun⟩ := h16 f hf
        refine ⟨hf0, hfle, ?_⟩
        intro u
        rcases eq_or_ne u v with rfl | hu
        · rw [Function.update_same, IndexHandler.freeIndex_snd]
          exact Ne.symm hf0
        · rw [Function.update_noteq hu]; exact hfun u
    · intro u hu0
      rcases eq_or_ne u v with rfl | hu
      · rw [Function.update_same, IndexHandler.freeIndex_snd] at hu0
        exact absurd rfl hu0
      · rw [Function.update_noteq hu] at hu0 ⊢
        exact h17 u hu0
    · intro u
      rcases eq_or_ne u v with rfl | hu
      · rw [Function.update_same, Function.update_same,
          IndexHandler.freeIndex_snd, h10, hder0, WofList_zero]
      · rw [Function.update_noteq hu, Function.update_noteq hu]
        exact h18 u
    · intro s hs
      obtain ⟨hs1, hs2, hs3, hs4, hs5⟩ := h21 s hs
      exact ⟨hs1, by rw [hmax]; exact hs2, hs3,
        fun e he => ⟨(hs4 e he).1, by rw [hmax]; exact (hs4 e he).2.1,
          (hs4 e he).2.2.1, (hs4 e he).2.2.2⟩, hs5⟩
  · rw [if_neg h0]
    unfold ReuseInvC1
    dsimp only
    have hlelen : (storedEntries cfg m rhs).length ≤ 255 :=
      le_trans (storedEntries_length_le cfg m rhs) hleaf
    have hlen : statementIntCast (storedEntries cfg m rhs).length =
        (storedEntries cfg m rhs).length :=
      Nat.mod_eq_of_lt (by omega)
    obtain ⟨hck1, hck2, hck3, hck4, hck5, hck6, hck7⟩ :=
      checkIndex_spec t.indexHandler m.idxs v h12 h14 h15 h16
    refine ⟨ls ++ [((t.indexHandler.checkIndex (m.idxs v)).2,
        storedEntries cfg m rhs)],
      ws ++ [derivExpr m.vals δ rhs],
      gs ++ [⟨(t.indexHandler.checkIndex (m.idxs v)).2,
        storedEntries cfg m rhs, ws.length + 1, G⟩],
      Function.update G (t.indexHandler.checkIndex (m.idxs v)).2
        (ws.length + 1),
      ⟨?_, ?_, h3, h4, h5, h6, ?_, ?_, ?_, ?_, ?_, ?_, ?_, ?_, hck5, ?_,
        ?_, ?_, ?_, ?_, ?_⟩, rfl⟩
    · rw [h1]; simp
    · rw [h2, hlen]; simp
    · rw [List.getD_append _ _ _ _ (by omega)]; exact h7
    · rw [List.length_append]; omega
    · rw [Function.update_noteq (Ne.symm hvx)]; exact h9
    · rw [Function.update_noteq (Ne.symm hck1)]; exact h10
    · intro i
      rw [List.length_append]
      rcases eq_or_ne i (t.indexHandler.checkIndex (m.idxs v)).2 with
        rfl | hne
      · rw [Function.update_same]; simp
      · rw [Function.update_noteq hne]
        exact le_trans (h11 i) (Nat.le_add_right _ _)
    · intro u
      rcases eq_or_ne u v with rfl | hne
      · rw [Function.update_same]; exact hck3
      · rw [Function.update_noteq hne]; exact hck7 u
    · exact le_trans h13 hck2
    · intro u w hu0 huw
      by_cases hu : u = v
      · by_cases hw : w = v
        · rw [hu, hw]
        · rw [hu, Function.update_same] at huw
          rw [Function.update_noteq hw] at huw
          exact absurd huw.symm (hck4 w hw)
      · rw [Function.update_noteq hu] at hu0 huw
        by_cases hw : w = v
        · rw [hw, Function.update_same] at huw
          exact absurd huw (hck4 u hu)
        · rw [Function.update_noteq hw] at huw
          exact h14 u w hu0 huw
    · intro f hf
      obtain ⟨hf0, hfle, hfun, hfs⟩ := hck6 f hf
      refine ⟨hf0, hfle, ?_⟩
      intro u
      rcases eq_or_ne u v with rfl | hu
      · rw [Function.update_same]; exact Ne.symm hfs
      · rw [Function.update_noteq hu]; exact hfun u
    · intro u hu0
      rcases eq_or_ne u v with rfl | hu
      · rw [Function.update_same] at hu0 ⊢
        rw [Function.update_same]
        omega
      · rw [Function.update_noteq hu] at hu0 ⊢
        rw [Function.update_noteq (hck4 u hu)]
        exact h17 u hu0
    · intro u
      rcases eq_or_ne u v with rfl | hu
      · rw [Function.update_same, Function.update_same,
          Function.update_same, WofList_snoc_last]
      · rw [Function.update_noteq hu, Function.update_noteq hu,
          Function.update_noteq (hck4 u hu),
          WofList_append _ _ _ (h11 (m.idxs u))]
        exact h18 u
    · rw [List.map_append, h19]; rfl
    · exact chainOk_snoc_mk gs inpMap G _ _ _ h20
    · intro s hs
      rcases List.mem_append.mp hs with hsold | hsnew
      · obtain ⟨hs1, hs2, hs3, hs4, hs5⟩ := h21 s hsold
        refine ⟨hs1, le_trans hs2 hck2,
          by rw [List.length_append]; exact le_trans hs3 (Nat.le_add_right _ _),
          ?_, ?_⟩
        · intro e he
          obtain ⟨he1, he2, he3, he4⟩ := hs4 e he
          exact ⟨he1, le_trans he2 hck2, he3,
            by rw [List.length_append]; exact le_trans he4 (Nat.le_add_right _ _)⟩
        · rw [WofList_append _ _ _ hs3,
            map_congr_mem _ _ (fun e => e.1 * WofList ws (s.gB e.2))
              (fun e he => by
                rw [WofList_append _ _ _ (hs4 e he).2.2.2])]
          exact hs5
      · rcases List.mem_singleton.mp hsnew with rfl
        refine ⟨hck1, hck3, by rw [List.length_append]; simp, ?_, ?_⟩
        · intro e he
          refine ⟨storedEntries_ne_zero cfg m rhs e he, ?_, ?_, ?_⟩
          · rcases storedEntries_snd cfg m rhs e he with ⟨u, hu⟩
            rw [hu]; exact hck7 u
          · rcases storedEntries_snd cfg m rhs e he with ⟨u, hu⟩
            rw [hu]
            exact h17 u (by rw [← hu]; exact storedEntries_ne_zero cfg m rhs e he)
          · rw [List.length_append]
            exact le_trans (h11 e.2) (Nat.le_add_right _ _)
        · rw [WofList_snoc_last,
            map_congr_mem _ _ (fun e => e.1 * WofList ws (G e.2))
              (fun e he => by
                rw [WofList_append _ _ _ (h11 e.2)])]
          exact hder.symm

theorem reuseRecord (cfg : Config)
    (hIgn : cfg.optIgnoreInvalidJacobies = false) (x : ℕ) :
    ∀ (p : List (ℕ × Expr)) (t : ChunkIndexReuseTape) (m : Mach)
      (ls : List (ℕ × List JEntry)) (ws : List ℚ) (gs : List GStmt)
      (G : ℕ → ℕ) (δ : ℕ → ℚ),
    (∀ a ∈ p, a.1 ≠ x ∧ leafCount a.2 ≤ 255) →
    ReuseInvC1 x t m ls ws gs G δ →
    ∃ ls2 ws2 gs2 G2,
      ReuseInvC1 x (runStoreReuse cfg p (t, m)).1
        (runStoreReuse cfg p (t, m)).2 ls2 ws2 gs2 G2
        (runSym p (m.vals, δ)).2 ∧
      (runStoreReuse cfg p (t, m)).2.vals = (runSym p (m.vals, δ)).1 := by
  intro p
  induction p with
  | nil =>
      intro t m ls ws gs G δ _ hInv
      exact ⟨ls, ws, gs, G, hInv, rfl⟩
  | cons a rest ih =>
      intro t m ls ws gs G δ hp hInv
      have ha := hp a (List.mem_cons_self a rest)
      rcases reuseStep cfg hIgn x t m ls ws gs G δ a.1 a.2 ha.1 ha.2 hInv
        with ⟨ls2, ws2, gs2, G2, hInv2, hvals2⟩
      have hrest : ∀ b ∈ rest, b.1 ≠ x ∧ leafCount b.2 ≤ 255 :=
        fun b hb => hp b (List.mem_cons_of_mem a hb)
      have hrun : runStoreReuse cfg (a :: rest) (t, m) =
          runStoreReuse cfg rest (t.store cfg m a.1 a.2) := rfl
      have hsym : runSym (a :: rest) (m.vals, δ) =
          runSym rest (symStep (m.vals, δ) a) := rfl
      rw [hrun, hsym]
      have hpair : symStep (m.vals, δ) a =
          ((t.store cfg m a.1 a.2).2.vals,
           Function.update δ a.1 (derivExpr m.vals δ a.2)) := by
        rw [hvals2]; rfl
      rw [hpair]
      rcases ih (t.store cfg m a.1 a.2).1 (t.store cfg m a.1 a.2).2 ls2 ws2
        gs2 G2 _ hrest hInv2 with ⟨ls3, ws3, gs3, G3, hInv3, hvals3⟩
      exact ⟨ls3, ws3, gs3, G3, hInv3, hvals3⟩

theorem linInit (x : ℕ) (m0 : Mach) (hidx0 : ∀ v, m0.idxs v = 0) :
    LinInvC1 x
      (ChunkTape.registerInput
        { ChunkTape.initial with active := true } m0 x).1
      (ChunkTape.registerInput
        { ChunkTape.initial with active := true } m0 x).2
      [] [1] (Function.update (fun _ => 0) x 1) := by
  unfold ChunkTape.registerInput ChunkTape.initial LinInvC1
  dsimp only
  refine ⟨rfl, rfl, rfl, rfl, rfl, rfl, rfl, rfl, rfl, ?_, ?_, ?_, ?_, ?_⟩
  · rw [Function.update_same]
  · intro v
    rcases eq_or_ne v x with rfl | hne
    · rw [Function.update_same]
      simp
    · rw [Function.update_noteq hne, hidx0 v]
      exact Nat.zero_le _
  · intro v
    rcases eq_or_ne v x with rfl | hne
    · rw [Function.update_same, Function.update_same]
      rfl
    · rw [Function.update_noteq hne, Function.update_noteq hne, hidx0 v]
      rfl
  · intro k e he
    exact absurd he (List.not_mem_nil e)
  · intro k hk
    simp at hk

theorem reuseRegister (x : ℕ) (m0 : Mach) (h0 : m0.idxs x = 0) :
    ChunkIndexReuseTape.registerInput
        { ChunkIndexReuseTape.initial with active := true } m0 x =
      ({ ChunkIndexReuseTape.initial with
         active := true, indexHandler := ⟨1, []⟩ },
       { m0 with idxs := Function.update m0.idxs x 1 }) := by
  unfold ChunkIndexReuseTape.registerInput
  rw [h0]
  rfl

theorem reuseInit (x : ℕ) (m0 : Mach) (hidx0 : ∀ v, m0.idxs v = 0) :
    ReuseInvC1 x
      (ChunkIndexReuseTape.registerInput
        { ChunkIndexReuseTape.initial with active := true } m0 x).1
      (ChunkIndexReuseTape.registerInput
        { ChunkIndexReuseTape.initial with active := true } m0 x).2
      [] [1] [] inpMap (Function.update (fun _ => 0) x 1) := by
  rw [reuseRegister x m0 (hidx0 x)]
  unfold ReuseInvC1 ChunkIndexReuseTape.initial
  dsimp only
  refine ⟨rfl, rfl, rfl, rfl, rfl, rfl, rfl, le_refl 1, ?_, rfl, ?_, ?_,
    le_refl 1, ?_, List.nodup_nil, ?_, ?_, ?_, rfl, rfl, ?_⟩
  · rw [Function.update_same]
  · intro i
    show inpMap i ≤ 1
    unfold inpMap
    split <;> omega
  · intro v
    show Function.update m0.idxs x 1 v ≤ 1
    rcases eq_or_ne v x with rfl | hne
    · rw [Function.update_same]
    · rw [Function.update_noteq hne, hidx0 v]
      exact Nat.zero_le _
  · intro u w hu0 huw
    by_cases hu : u = x
    · by_cases hw : w = x
      · rw [hu, hw]
      · rw [hu, Function.update_same, Function.update_noteq hw,
          hidx0 w] at huw
        exact absurd huw (by omega)
    · rw [Function.update_noteq hu, hidx0 u] at hu0
      exact absurd rfl hu0
  · intro f hf
    exact absurd hf (List.not_mem_nil f)
  · intro v hv0
    rcases eq_or_ne v x with rfl | hne
    · rw [Function.update_same]
      intro hc
      exact absurd hc (by unfold inpMap; simp)
    · rw [Function.update_noteq hne, hidx0 v] at hv0
      exact absurd rfl hv0
  · intro v
    rcases eq_or_ne v x with rfl | hne
    · rw [Function.update_same, Function.update_same]
      rfl
    · rw [Function.update_noteq hne, Function.update_noteq hne, hidx0 v]
      rfl
  · intro s hs
    exact absurd hs (List.not_mem_nil s)

theorem setGradient_fields (t : ChunkTape) (i : ℕ) (g : ℚ) :
    (t.setGradient i g).data = t.data ∧ (t.setGradient i g).stmts = t.stmts ∧
    (t.setGradient i g).extFuncs = t.extFuncs ∧
    (t.setGradient i g).expressionCount = t.expressionCount := by
  unfold ChunkTape.setGradient ChunkTape.gradientWrite ChunkTape.resizeAdjoints
  split_ifs <;> exact ⟨rfl, rfl, rfl, rfl⟩

theorem setGradient_fresh (t : ChunkTape) (i : ℕ) (g : ℚ)
    (h0 : t.adjointsSize = 0) (hadj : t.adjoints = fun _ => 0) (hi : i ≠ 0) :
    (t.setGradient i g).adjoints = Function.update (fun _ => 0) i g ∧
    (t.setGradient i g).adjointsSize = i + 1 := by
  unfold ChunkTape.setGradient ChunkTape.gradientWrite ChunkTape.resizeAdjoints
  rw [if_pos hi, if_pos (by rw [h0]; exact Nat.zero_le i)]
  dsimp only
  rw [hadj, h0, zeroRange_zero_fun]
  exact ⟨rfl, rfl⟩

theorem setGradient_zero (t : ChunkTape) (g : ℚ) : t.setGradient 0 g = t := by
  unfold ChunkTape.setGradient
  rw [if_neg (fun h => h rfl)]

theorem rsetGradient_fields (t : ChunkIndexReuseTape) (i : ℕ) (g : ℚ) :
    (t.setGradient i g).data = t.data ∧ (t.setGradient i g).stmts = t.stmts ∧
    (t.setGradient i g).extFuncs = t.extFuncs ∧
    (t.setGradient i g).indexHandler = t.indexHandler := by
  unfold ChunkIndexReuseTape.setGradient ChunkIndexReuseTape.gradientWrite
    ChunkIndexReuseTape.resizeAdjoints
  split_ifs <;> exact ⟨rfl, rfl, rfl, rfl⟩

theorem rsetGradient_fresh (t : ChunkIndexReuseTape) (i : ℕ) (g : ℚ)
    (h0 : t.adjointsSize = 0) (hadj : t.adjoints = fun _ => 0) (hi : i ≠ 0) :
    (t.setGradient i g).adjoints = Function.update (fun _ => 0) i g ∧
    (t.setGradient i g).adjointsSize = i + 1 := by
  unfold ChunkIndexReuseTape.setGradient ChunkIndexReuseTape.gradientWrite
    ChunkIndexReuseTape.resizeAdjoints
  rw [if_pos hi, if_pos (by rw [h0]; exact Nat.zero_le i)]
  dsimp only
  rw [hadj, h0, zeroRange_zero_fun]
  exact ⟨rfl, rfl⟩

theorem rsetGradient_zero (t : ChunkIndexReuseTape) (g : ℚ) :
    t.setGradient 0 g = t := by
  unfold ChunkIndexReuseTape.setGradient
  rw [if_neg (fun h => h rfl)]

theorem extForEachSlice_nil (a b : ℕ) :
    extForEachSlice ([] : List (ℕ × StmtPosition)) a b = [] := by
  unfold extForEachSlice
  simp

theorem evaluate_lin_comp (cfg : Config) (t : ChunkTape)
    (hext : t.extFuncs = []) :
    (t.evaluate cfg).1.adjoints =
      (evalExprsLin cfg t.stmts (t.data.map Prod.fst) (t.data.map Prod.snd)
        0 t.expressionCount
        (if t.adjointsSize ≤ t.expressionCount
         then zeroRange t.adjoints t.adjointsSize
           (t.expressionCount + 1 - t.adjointsSize)
         else t.adjoints)
        t.stmts.length t.data.length []).1 ∧
    (t.evaluate cfg).1.adjointsSize =
      (if t.adjointsSize ≤ t.expressionCount
       then t.expressionCount + 1 else t.adjointsSize) := by
  unfold ChunkTape.evaluate ChunkTape.evaluateBetween
  dsimp only
  by_cases hres : t.adjointsSize ≤ t.expressionCount
  · simp only [if_pos hres]
    unfold ChunkTape.evaluateExtFunc ChunkTape.evaluateStmt
      ChunkTape.resizeAdjoints ChunkTape.getPosition
    dsimp only
    rw [hext, extForEachSlice_nil, ChunkTape.extFuncLoop]
    constructor
    · rfl
    · rfl
  · simp only [if_neg hres]
    unfold ChunkTape.evaluateExtFunc ChunkTape.evaluateStmt
      ChunkTape.getPosition
    dsimp only
    rw [hext, extForEachSlice_nil, ChunkTape.extFuncLoop]
    constructor
    · rfl
    · trivial

theorem linRecord_pair (cfg : Config)
    (hIgn : cfg.optIgnoreInvalidJacobies = false) (x : ℕ)
    (p : List (ℕ × Expr)) (s : ChunkTape × Mach)
    (ss : List (List JEntry)) (ws : List ℚ) (δ : ℕ → ℚ)
    (hp : ∀ a ∈ p, a.1 ≠ x ∧ leafCount a.2 ≤ 255)
    (hInv : LinInvC1 x s.1 s.2 ss ws δ) :
    ∃ ss2 ws2,
      LinInvC1 x (runStoreLin cfg p s).1 (runStoreLin cfg p s).2
        ss2 ws2 (runSym p (s.2.vals, δ)).2 ∧
      (runStoreLin cfg p s).2.vals = (runSym p (s.2.vals, δ)).1 :=
  linRecord cfg hIgn x p s.1 s.2 ss ws δ hp hInv

theorem reuseRecord_pair (cfg : Config)
    (hIgn : cfg.optIgnoreInvalidJacobies = false) (x : ℕ)
    (p : List (ℕ × Expr)) (s : ChunkIndexReuseTape × Mach)
    (ls : List (ℕ × List JEntry)) (ws : List ℚ) (gs : List GStmt)
    (G : ℕ → ℕ) (δ : ℕ → ℚ)
    (hp : ∀ a ∈ p, a.1 ≠ x ∧ leafCount a.2 ≤ 255)
    (hInv : ReuseInvC1 x s.1 s.2 ls ws gs G δ) :
    ∃ ls2 ws2 gs2 G2,
      ReuseInvC1 x (runStoreReuse cfg p s).1 (runStoreReuse cfg p s).2
        ls2 ws2 gs2 G2 (runSym p (s.2.vals, δ)).2 ∧
      (runStoreReuse cfg p s).2.vals = (runSym p (s.2.vals, δ)).1 :=
  reuseRecord cfg hIgn x p s.1 s.2 ls ws gs G δ hp hInv

theorem linRunCollapse (cfg : Config) (ss : List (List JEntry))
    (hwf : ∀ k, ∀ e ∈ ss.getD k [], e.2 ≠ 0 ∧ e.2 ≤ 1 + k)
    (A : ℕ → ℚ) :
    (evalExprsLin cfg (List.replicate 1 0 ++ ss.map List.length)
      (ss.flatten.map Prod.fst) (ss.flatten.map Prod.snd)
      0 (1 + ss.length) A
      (List.replicate 1 0 ++ ss.map List.length).length
      ss.flatten.length []).1 =
    sweepP false (posPairs 1 ss).reverse A := by
  have hlt : ∀ k, ∀ e ∈ ss.getD k [], e.2 < 1 + k + 1 := fun k e he => by
    have := (hwf k e he).2
    omega
  have hflat := evalLin_flatten cfg 1 ss [] [] A [] hlt
  simp only [List.append_nil] at hflat
  have hSlen : (List.replicate 1 0 ++ ss.map List.length).length =
      1 + ss.length := by simp; omega
  rw [hSlen]
  have hsplit := evalExprsLin_split cfg
    (List.replicate 1 0 ++ ss.map List.length)
    (ss.flatten.map Prod.fst) (ss.flatten.map Prod.snd) 0 1 (by omega)
    (1 + ss.length) A (1 + ss.length) ss.flatten.length [] (by omega)
  rw [hsplit, hflat.1, hflat.2.1, hflat.2.2]
  exact evalLin_zeros cfg _ _ _ 1
    (fun j hj => by
      have hj0 : j = 0 := by omega
      subst hj0
      rfl)
    1 (le_refl 1) _ 0 _

theorem adjoint_main_lin (cfg : Config)
    (hIgn : cfg.optIgnoreInvalidJacobies = false)
    (x y : ℕ) (p : List (ℕ × Expr)) (m0 : Mach)
    (hidx0 : ∀ v, m0.idxs v = 0)
    (hp : ∀ a ∈ p, a.1 ≠ x ∧ leafCount a.2 ≤ 255) :
    ((((runStoreLin cfg p (ChunkTape.registerInput
          { ChunkTape.initial with active := true } m0 x)).1.setGradient
        ((runStoreLin cfg p (ChunkTape.registerInput
          { ChunkTape.initial with active := true } m0 x)).2.idxs y)
        1).evaluate cfg).1.getGradient
      ((runStoreLin cfg p (ChunkTape.registerInput
          { ChunkTape.initial with active := true } m0 x)).2.idxs x)) =
    (runSym p (m0.vals, Function.update (fun _ => 0) x 1)).2 y := by
  obtain ⟨ss, ws, hInv, hvals⟩ := linRecord_pair cfg hIgn x p
    (ChunkTape.registerInput { ChunkTape.initial with active := true } m0 x)
    [] [1] (Function.update (fun _ => 0) x 1) hp (linInit x m0 hidx0)
  obtain ⟨h1, h2, h3, h4, h5, h6, h7, h8, h9, h10, h11, h12, h13, h14⟩ := hInv
  rw [h10]
  have hW1 : WofList ws 1 = 1 := by
    unfold WofList
    rw [if_neg one_ne_zero]
    exact h9
  have hM2 : 1 < (1 + ss.length) + 1 := by omega
  have hchain := glistLin_chain ss 1
  rw [gmap_one] at hchain
  have hels : ∀ s ∈ glistLin 1 ss, s.lhs < (1 + ss.length) + 1 ∧
      (∀ e ∈ s.entries, e.2 < (1 + ss.length) + 1) ∧
      WofList ws s.occ =
        (s.entries.map (fun e => e.1 * WofList ws (s.gB e.2))).sum +
          (if false then 0 else WofList ws (s.gB s.lhs)) ∧
      (∀ e ∈ s.entries, s.gB e.2 ≠ 0) := by
    intro s hs
    rcases glistLin_mem ss 1 s hs with ⟨k, hk, rfl⟩
    dsimp only
    refine ⟨by omega, ?_, ?_, ?_⟩
    · intro e he
      have := (h13 k e he).2
      omega
    · rw [if_neg Bool.false_ne_true, gmap_gt (1 + k) (1 + k + 1) (by omega),
        WofList_zero, add_zero,
        map_congr_mem _ _ (fun e => e.1 * WofList ws e.2)
          (fun e he => by rw [gmap_le _ _ (h13 k e he).2]),
        show 1 + k + 1 = k + 2 by omega]
      exact h14 k hk
    · intro e he
      rw [gmap_le _ _ (h13 k e he).2]
      exact (h13 k e he).1
  obtain ⟨hok, hbot⟩ := sweepOkD_of_chain false ((1 + ss.length) + 1)
    (WofList ws) (glistLin 1 ss) inpMap (gmap (1 + ss.length)) hchain hels
  by_cases hy : (runStoreLin cfg p (ChunkTape.registerInput
      { ChunkTape.initial with active := true } m0 x)).2.idxs y = 0
  · rw [hy, setGradient_zero]
    obtain ⟨hev1, hev2⟩ := evaluate_lin_comp cfg _ h4
    have hseed : (if (runStoreLin cfg p (ChunkTape.registerInput
          { ChunkTape.initial with active := true } m0 x)).1.adjointsSize ≤
          (runStoreLin cfg p (ChunkTape.registerInput
          { ChunkTape.initial with active := true } m0 x)).1.expressionCount
        then zeroRange (runStoreLin cfg p (ChunkTape.registerInput
          { ChunkTape.initial with active := true } m0 x)).1.adjoints
          ((runStoreLin cfg p (ChunkTape.registerInput
          { ChunkTape.initial with active := true } m0 x)).1.adjointsSize)
          ((runStoreLin cfg p (ChunkTape.registerInput
          { ChunkTape.initial with active := true } m0 x)).1.expressionCount
            + 1 -
           (runStoreLin cfg p (ChunkTape.registerInput
          { ChunkTape.initial with active := true } m0 x)).1.adjointsSize)
        else (runStoreLin cfg p (ChunkTape.registerInput
          { ChunkTape.initial with active := true } m0 x)).1.adjoints) =
        (fun _ => (0 : ℚ)) := by
      rw [if_pos (by rw [h7]; exact Nat.zero_le _), h6, h7, zeroRange_zero_fun]
    have hsz : (if (runStoreLin cfg p (ChunkTape.registerInput
          { ChunkTape.initial with active := true } m0 x)).1.adjointsSize ≤
          (runStoreLin cfg p (ChunkTape.registerInput
          { ChunkTape.initial with active := true } m0 x)).1.expressionCount
        then (runStoreLin cfg p (ChunkTape.registerInput
          { ChunkTape.initial with active := true } m0 x)).1.expressionCount
            + 1
        else (runStoreLin cfg p (ChunkTape.registerInput
          { ChunkTape.initial with active := true } m0 x)).1.adjointsSize) =
        (1 + ss.length) + 1 := by
      rw [if_pos (by rw [h7]; exact Nat.zero_le _), h3]
    unfold ChunkTape.getGradient
    rw [hev2, hsz, if_neg (by omega), hev1, hseed, h2, h1, h3,
      linRunCollapse cfg ss h13 _]
    have hphi := sweepPhi false ((1 + ss.length) + 1) (WofList ws)
      (glistLin 1 ss).reverse (gmap (1 + ss.length)) (fun _ => (0 : ℚ)) hok
      (fun h => absurd h Bool.false_ne_true)
    rw [hbot, sweepG_eq_sweepP, List.map_reverse, glistLin_map,
      sum_mul_inpMap _ hM2 _ (WofList_zero ws), hW1, mul_one] at hphi
    rw [hphi]
    rw [show (∑ i ∈ Finset.range ((1 + ss.length) + 1),
        (fun _ => (0 : ℚ)) i * WofList ws (gmap (1 + ss.length) i)) = 0
      from by simp]
    have hdy : (runSym p ((ChunkTape.registerInput
        { ChunkTape.initial with active := true } m0 x).2.vals,
        Function.update (fun _ => 0) x 1)).2 y = 0 := by
      rw [h12 y, hy]
      exact WofList_zero ws
    exact hdy.symm
  · obtain ⟨hef1, hef2, hef3, hef4⟩ := setGradient_fields
      (runStoreLin cfg p (ChunkTape.registerInput
        { ChunkTape.initial with active := true } m0 x)).1
      ((runStoreLin cfg p (ChunkTape.registerInput
        { ChunkTape.initial with active := true } m0 x)).2.idxs y) 1
    obtain ⟨hfa, hfs⟩ := setGradient_fresh
      (runStoreLin cfg p (ChunkTape.registerInput
        { ChunkTape.initial with active := true } m0 x)).1
      ((runStoreLin cfg p (ChunkTape.registerInput
        { ChunkTape.initial with active := true } m0 x)).2.idxs y) 1
      h7 h6 hy
    have hextS : ((runStoreLin cfg p (ChunkTape.registerInput
        { ChunkTape.initial with active := true } m0 x)).1.setGradient
        ((runStoreLin cfg p (ChunkTape.registerInput
        { ChunkTape.initial with active := true } m0 x)).2.idxs y)
        1).extFuncs = [] := by
      rw [hef3]
      exact h4
    obtain ⟨hev1, hev2⟩ := evaluate_lin_comp cfg _ hextS
    have hiyN : (runStoreLin cfg p (ChunkTape.registerInput
        { ChunkTape.initial with active := true } m0 x)).2.idxs y ≤
        1 + ss.length := by
      rw [← h8]
      exact h11 y
    have hseed : (if ((runStoreLin cfg p (ChunkTape.registerInput
          { ChunkTape.initial with active := true } m0 x)).1.setGradient
          ((runStoreLin cfg p (ChunkTape.registerInput
          { ChunkTape.initial with active := true } m0 x)).2.idxs y)
          1).adjointsSize ≤
          ((runStoreLin cfg p (ChunkTape.registerInput
          { ChunkTape.initial with active := true } m0 x)).1.setGradient
          ((runStoreLin cfg p (ChunkTape.registerInput
          { ChunkTape.initial with active := true } m0 x)).2.idxs y)
          1).expressionCount
        then zeroRange ((runStoreLin cfg p (ChunkTape.registerInput
          { ChunkTape.initial with active := true } m0 x)).1.setGradient
          ((runStoreLin cfg p (ChunkTape.registerInput
          { ChunkTape.initial with active := true } m0 x)).2.idxs y)
          1).adjoints
          (((runStoreLin cfg p (ChunkTape.registerInput
          { ChunkTape.initial with active := true } m0 x)).1.setGradient
          ((runStoreLin cfg p (ChunkTape.registerInput
          { ChunkTape.initial with active := true } m0 x)).2.idxs y)
          1).adjointsSize)
          ((((runStoreLin cfg p (ChunkTape.registerInput
          { ChunkTape.initial with active := true } m0 x)).1.setGradient
          ((runStoreLin cfg p (ChunkTape.registerInput
          { ChunkTape.initial with active := true } m0 x)).2.idxs y)
          1).expressionCount) + 1 -
           (((runStoreLin cfg p (ChunkTape.registerInput
          { ChunkTape.initial with active := true } m0 x)).1.setGradient
          ((runStoreLin cfg p (ChunkTape.registerInput
          { ChunkTape.initial with active := true } m0 x)).2.idxs y)
          1).adjointsSize))
        else ((runStoreLin cfg p (ChunkTape.registerInput
          { ChunkTape.initial with active := true } m0 x)).1.setGradient
          ((runStoreLin cfg p (ChunkTape.registerInput
          { ChunkTape.initial with active := true } m0 x)).2.idxs y)
          1).adjoints) =
        Function.update (fun _ => 0)
          ((runStoreLin cfg p (ChunkTape.registerInput
          { ChunkTape.initial with active := true } m0 x)).2.idxs y) 1 := by
      rw [hfa, hfs, hef4, h3]
      by_cases hc : (runStoreLin cfg p (ChunkTape.registerInput
          { ChunkTape.initial with active := true } m0 x)).2.idxs y + 1 ≤
          1 + ss.length
      · rw [if_pos hc]
        exact zeroRange_update_high _ _ _
      · rw [if_neg hc]
    have hsz2 : (if ((runStoreLin cfg p (ChunkTape.registerInput
          { ChunkTape.initial with active := true } m0 x)).1.setGradient
          ((runStoreLin cfg p (ChunkTape.registerInput
          { ChunkTape.initial with active := true } m0 x)).2.idxs y)
          1).adjointsSize ≤
          ((runStoreLin cfg p (ChunkTape.registerInput
          { ChunkTape.initial with active := true } m0 x)).1.setGradient
          ((runStoreLin cfg p (ChunkTape.registerInput
          { ChunkTape.initial with active := true } m0 x)).2.idxs y)
          1).expressionCount
        then (((runStoreLin cfg p (ChunkTape.registerInput
          { ChunkTape.initial with active := true } m0 x)).1.setGradient
          ((runStoreLin cfg p (ChunkTape.registerInput
          { ChunkTape.initial with active := true } m0 x)).2.idxs y)
          1).expressionCount) + 1
        else (((runStoreLin cfg p (ChunkTape.registerInput
          { ChunkTape.initial with active := true } m0 x)).1.setGradient
          ((runStoreLin cfg p (ChunkTape.registerInput
          { ChunkTape.initial with active := true } m0 x)).2.idxs y)
          1).adjointsSize)) = (1 + ss.length) + 1 := by
      rw [hfs, hef4, h3]
      by_cases hc : (runStoreLin cfg p (ChunkTape.registerInput
          { ChunkTape.initial with active := true } m0 x)).2.idxs y + 1 ≤
          1 + ss.length
      · rw [if_pos hc]
      · rw [if_neg hc]
        omega
    unfold ChunkTape.getGradient
    rw [hev2, hsz2, if_neg (by omega), hev1, hseed, hef2, hef1, hef4,
      h2, h1, h3, linRunCollapse cfg ss h13 _]
    have hphi := sweepPhi false ((1 + ss.length) + 1) (WofList ws)
      (glistLin 1 ss).reverse (gmap (1 + ss.length))
      (Function.update (fun _ => 0)
        ((runStoreLin cfg p (ChunkTape.registerInput
        { ChunkTape.initial with active := true } m0 x)).2.idxs y) 1) hok
      (fun h => absurd h Bool.false_ne_true)
    rw [hbot, sweepG_eq_sweepP, List.map_reverse, glistLin_map,
      sum_mul_inpMap _ hM2 _ (WofList_zero ws), hW1, mul_one,
      sum_update_one _ _ (by omega), gmap_le _ _ hiyN] at hphi
    rw [hphi]
    exact (h12 y).symm

theorem evaluate_reuse_comp (cfg : Config) (t : ChunkIndexReuseTape)
    (hext : t.extFuncs = []) :
    (t.evaluate cfg).1.adjoints =
      (evalExprsReuse cfg (t.stmts.map Prod.fst) (t.stmts.map Prod.snd)
        (t.data.map Prod.fst) (t.data.map Prod.snd)
        0 t.stmts.length
        (if t.adjointsSize ≤ t.indexHandler.maxIssued
         then zeroRange t.adjoints t.adjointsSize
           (t.indexHandler.maxIssued + 1 - t.adjointsSize)
         else t.adjoints)
        t.data.length []).1 ∧
    (t.evaluate cfg).1.adjointsSize =
      (if t.adjointsSize ≤ t.indexHandler.maxIssued
       then t.indexHandler.maxIssued + 1 else t.adjointsSize) := by
  unfold ChunkIndexReuseTape.evaluate ChunkIndexReuseTape.evaluateBetween
  dsimp only
  by_cases hres : t.adjointsSize ≤ t.indexHandler.maxIssued
  · simp only [if_pos hres]
    unfold ChunkIndexReuseTape.evaluateExtFunc
      ChunkIndexReuseTape.evaluateStmt ChunkIndexReuseTape.resizeAdjoints
      ChunkIndexReuseTape.getPosition
    dsimp only
    rw [hext, extForEachSlice_nil, ChunkIndexReuseTape.extFuncLoop]
    constructor
    · rfl
    · rfl
  · simp only [if_neg hres]
    unfold ChunkIndexReuseTape.evaluateExtFunc
      ChunkIndexReuseTape.evaluateStmt ChunkIndexReuseTape.getPosition
    dsimp only
    rw [hext, extForEachSlice_nil, ChunkIndexReuseTape.extFuncLoop]
    constructor
    · rfl
    · trivial

theorem reuseRunCollapse (cfg : Config) (ls : List (ℕ × List JEntry))
    (A : ℕ → ℚ) :
    (evalExprsReuse cfg
      ((ls.map (fun s => (s.2.length, s.1))).map Prod.fst)
      ((ls.map (fun s => (s.2.length, s.1))).map Prod.snd)
      ((ls.map Prod.snd).flatten.map Prod.fst)
      ((ls.map Prod.snd).flatten.map Prod.snd)
      0 (ls.map (fun s => (s.2.length, s.1))).length A
      (ls.map Prod.snd).flatten.length []).1 =
    sweepP true ls.reverse A := by
  have hA : (ls.map (fun s => (s.2.length, s.1))).map Prod.fst =
      ls.map (fun s => s.2.length) := by
    rw [List.map_map]
    rfl
  have hL : (ls.map (fun s => (s.2.length, s.1))).map Prod.snd =
      ls.map Prod.fst := by
    rw [List.map_map]
    rfl
  have hlen : (ls.map (fun s => (s.2.length, s.1))).length = ls.length := by
    simp
  rw [hA, hL, hlen]
  have hflat := evalReuse_flatten cfg ls [] [] [] A []
  simp only [List.append_nil] at hflat
  exact hflat.1

theorem adjoint_main_reuse (cfg : Config)
    (hIgn : cfg.optIgnoreInvalidJacobies = false)
    (x y : ℕ) (p : List (ℕ × Expr)) (m0 : Mach)
    (hidx0 : ∀ v, m0.idxs v = 0)
    (hp : ∀ a ∈ p, a.1 ≠ x ∧ leafCount a.2 ≤ 255) :
    ((((runStoreReuse cfg p (ChunkIndexReuseTape.registerInput
          { ChunkIndexReuseTape.initial with active := true } m0 x)).1.setGradient
        ((runStoreReuse cfg p (ChunkIndexReuseTape.registerInput
          { ChunkIndexReuseTape.initial with active := true } m0 x)).2.idxs y)
        1).evaluate cfg).1.getGradient
      ((runStoreReuse cfg p (ChunkIndexReuseTape.registerInput
          { ChunkIndexReuseTape.initial with active := true } m0 x)).2.idxs x)) =
    (runSym p (m0.vals, Function.update (fun _ => 0) x 1)).2 y := by
  obtain ⟨ls, ws, gs, G, hInv, hvals⟩ := reuseRecord_pair cfg hIgn x p
    (ChunkIndexReuseTape.registerInput
      { ChunkIndexReuseTape.initial with active := true } m0 x)
    [] [1] [] inpMap (Function.update (fun _ => 0) x 1) hp
    (reuseInit x m0 hidx0)
  obtain ⟨h1, h2, h3, h4, h5, h6, h7, h8, h9, h10, h11, h12, h13, h14, h15,
    h16, h17, h18, h19, h20, h21⟩ := hInv
  rw [h9]
  have hW1 : WofList ws 1 = 1 := by
    unfold WofList
    rw [if_neg one_ne_zero]
    exact h7
  have hM2 : 1 < (runStoreReuse cfg p (ChunkIndexReuseTape.registerInput
      { ChunkIndexReuseTape.initial with active := true }
      m0 x)).1.indexHandler.maxIssued + 1 := by omega
  have hels : ∀ s ∈ gs,
      s.lhs < (runStoreReuse cfg p (ChunkIndexReuseTape.registerInput
        { ChunkIndexReuseTape.initial with active := true }
        m0 x)).1.indexHandler.maxIssued + 1 ∧
      (∀ e ∈ s.entries,
        e.2 < (runStoreReuse cfg p (ChunkIndexReuseTape.registerInput
        { ChunkIndexReuseTape.initial with active := true }
        m0 x)).1.indexHandler.maxIssued + 1) ∧
      WofList ws s.occ =
        (s.entries.map (fun e => e.1 * WofList ws (s.gB e.2))).sum +
          (if true then 0 else WofList ws (s.gB s.lhs)) ∧
      (∀ e ∈ s.entries, s.gB e.2 ≠ 0) := by
    intro s hs
    obtain ⟨hs1, hs2, hs3, hs4, hs5⟩ := h21 s hs
    refine ⟨by omega, ?_, ?_, ?_⟩
    · intro e he
      have := (hs4 e he).2.1
      omega
    · rw [if_pos rfl, add_zero]
      exact hs5
    · intro e he
      exact (hs4 e he).2.2.1
  obtain ⟨hok, hbot⟩ := sweepOkD_of_chain true
    ((runStoreReuse cfg p (ChunkIndexReuseTape.registerInput
      { ChunkIndexReuseTape.initial with active := true }
      m0 x)).1.indexHandler.maxIssued + 1)
    (WofList ws) gs inpMap G h20 hels
  by_cases hy : (runStoreReuse cfg p (ChunkIndexReuseTape.registerInput
      { ChunkIndexReuseTape.initial with active := true } m0 x)).2.idxs y = 0
  · rw [hy, rsetGradient_zero]
    obtain ⟨hev1, hev2⟩ := evaluate_reuse_comp cfg _ h3
    have hseed : (if (runStoreReuse cfg p (ChunkIndexReuseTape.registerInput
          { ChunkIndexReuseTape.initial with active := true }
          m0 x)).1.adjointsSize ≤
          (runStoreReuse cfg p (ChunkIndexReuseTape.registerInput
          { ChunkIndexReuseTape.initial with active := true }
          m0 x)).1.indexHandler.maxIssued
        then zeroRange (runStoreReuse cfg p (ChunkIndexReuseTape.registerInput
          { ChunkIndexReuseTape.initial with active := true }
          m0 x)).1.adjoints
          ((runStoreReuse cfg p (ChunkIndexReuseTape.registerInput
          { ChunkIndexReuseTape.initial with active := true }
          m0 x)).1.adjointsSize)
          ((runStoreReuse cfg p (ChunkIndexReuseTape.registerInput
          { ChunkIndexReuseTape.initial with active := true }
          m0 x)).1.indexHandler.maxIssued + 1 -
           (runStoreReuse cfg p (ChunkIndexReuseTape.registerInput
          { ChunkIndexReuseTape.initial with active := true }
          m0 x)).1.adjointsSize)
        else (runStoreReuse cfg p (ChunkIndexReuseTape.registerInput
          { ChunkIndexReuseTape.initial with active := true }
          m0 x)).1.adjoints) = (fun _ => (0 : ℚ)) := by
      rw [if_pos (by rw [h6]; exact Nat.zero_le _), h5, h6, zeroRange_zero_fun]
    have hsz : (if (runStoreReuse cfg p (ChunkIndexReuseTape.registerInput
          { ChunkIndexReuseTape.initial with active := true }
          m0 x)).1.adjointsSize ≤
          (runStoreReuse cfg p (ChunkIndexReuseTape.registerInput
          { ChunkIndexReuseTape.initial with active := true }
          m0 x)).1.indexHandler.maxIssued
        then (runStoreReuse cfg p (ChunkIndexReuseTape.registerInput
          { ChunkIndexReuseTape.initial with active := true }
          m0 x)).1.indexHandler.maxIssued + 1
        else (runStoreReuse cfg p (ChunkIndexReuseTape.registerInput
          { ChunkIndexReuseTape.initial with active := true }
          m0 x)).1.adjointsSize) =
        (runStoreReuse cfg p (ChunkIndexReuseTape.registerInput
          { ChunkIndexReuseTape.initial with active := true }
          m0 x)).1.indexHandler.maxIssued + 1 := by
      rw [if_pos (by rw [h6]; exact Nat.zero_le _)]
    unfold ChunkIndexReuseTape.getGradient
    rw [hev2, hsz, if_neg (by omega), hev1, hseed, h2, h1,
      reuseRunCollapse cfg ls _]
    have hphi := sweepPhi true
      ((runStoreReuse cfg p (ChunkIndexReuseTape.registerInput
        { ChunkIndexReuseTape.initial with active := true }
        m0 x)).1.indexHandler.maxIssued + 1)
      (WofList ws) gs.reverse G (fun _ => (0 : ℚ)) hok
      (fun _ _ _ _ => rfl)
    rw [hbot, sweepG_eq_sweepP, List.map_reverse, h19,
      sum_mul_inpMap _ hM2 _ (WofList_zero ws), hW1, mul_one] at hphi
    rw [hphi]
    rw [show (∑ i ∈ Finset.range
        ((runStoreReuse cfg p (ChunkIndexReuseTape.registerInput
          { ChunkIndexReuseTape.initial with active := true }
          m0 x)).1.indexHandler.maxIssued + 1),
        (fun _ => (0 : ℚ)) i * WofList ws (G i)) = 0 from by simp]
    have hdy : (runSym p ((ChunkIndexReuseTape.registerInput
        { ChunkIndexReuseTape.initial with active := true } m0 x).2.vals,
        Function.update (fun _ => 0) x 1)).2 y = 0 := by
      rw [h18 y, hy, h10]
      exact WofList_zero ws
    exact hdy.symm
  · obtain ⟨hef1, hef2, hef3, hef4⟩ := rsetGradient_fields
      (runStoreReuse cfg p (ChunkIndexReuseTape.registerInput
        { ChunkIndexReuseTape.initial with active := true } m0 x)).1
      ((runStoreReuse cfg p (ChunkIndexReuseTape.registerInput
        { ChunkIndexReuseTape.initial with active := true } m0 x)).2.idxs y) 1
    obtain ⟨hfa, hfs⟩ := rsetGradient_fresh
      (runStoreReuse cfg p (ChunkIndexReuseTape.registerInput
        { ChunkIndexReuseTape.initial with active := true } m0 x)).1
      ((runStoreReuse cfg p (ChunkIndexReuseTape.registerInput
        { ChunkIndexReuseTape.initial with active := true } m0 x)).2.idxs y) 1
      h6 h5 hy
    have hextS : (((runStoreReuse cfg p (ChunkIndexReuseTape.registerInput
        { ChunkIndexReuseTape.initial with active := true } m0 x)).1.setGradient
        ((runStoreReuse cfg p (ChunkIndexReuseTape.registerInput
        { ChunkIndexReuseTape.initial with active := true } m0 x)).2.idxs y)
        1)).extFuncs = [] := by
      rw [hef3]
      exact h3
    obtain ⟨hev1, hev2⟩ := evaluate_reuse_comp cfg _ hextS
    have hiyN : (runStoreReuse cfg p (ChunkIndexReuseTape.registerInput
        { ChunkIndexReuseTape.initial with active := true } m0 x)).2.idxs y ≤
        (runStoreReuse cfg p (ChunkIndexReuseTape.registerInput
        { ChunkIndexReuseTape.initial with active := true }
        m0 x)).1.indexHandler.maxIssued := h12 y
    have hseed : (if (((runStoreReuse cfg p (ChunkIndexReuseTape.registerInput
          { ChunkIndexReuseTape.initial with active := true } m0 x)).1.setGradient
          ((runStoreReuse cfg p (ChunkIndexReuseTape.registerInput
          { ChunkIndexReuseTape.initial with active := true } m0 x)).2.idxs y)
          1)).adjointsSize ≤
          (((runStoreReuse cfg p (ChunkIndexReuseTape.registerInput
          { ChunkIndexReuseTape.initial with active := true } m0 x)).1.setGradient
          ((runStoreReuse cfg p (ChunkIndexReuseTape.registerInput
          { ChunkIndexReuseTape.initial with active := true } m0 x)).2.idxs y)
          1)).indexHandler.maxIssued
        then zeroRange (((runStoreReuse cfg p
            (ChunkIndexReuseTape.registerInput
          { ChunkIndexReuseTape.initial with active := true } m0 x)).1.setGradient
          ((runStoreReuse cfg p (ChunkIndexReuseTape.registerInput
          { ChunkIndexReuseTape.initial with active := true } m0 x)).2.idxs y)
          1)).adjoints
          ((((runStoreReuse cfg p (ChunkIndexReuseTape.registerInput
          { ChunkIndexReuseTape.initial with active := true } m0 x)).1.setGradient
          ((runStoreReuse cfg p (ChunkIndexReuseTape.registerInput
          { ChunkIndexReuseTape.initial with active := true } m0 x)).2.idxs y)
          1)).adjointsSize)
          ((((runStoreReuse cfg p (ChunkIndexReuseTape.registerInput
          { ChunkIndexReuseTape.initial with active := true } m0 x)).1.setGradient
          ((runStoreReuse cfg p (ChunkIndexReuseTape.registerInput
          { ChunkIndexReuseTape.initial with active := true } m0 x)).2.idxs y)
          1)).indexHandler.maxIssued + 1 -
           (((runStoreReuse cfg p (ChunkIndexReuseTape.registerInput
          { ChunkIndexReuseTape.initial with active := true } m0 x)).1.setGradient
          ((runStoreReuse cfg p (ChunkIndexReuseTape.registerInput
          { ChunkIndexReuseTape.initial with active := true } m0 x)).2.idxs y)
          1)).adjointsSize)
        else (((runStoreReuse cfg p (ChunkIndexReuseTape.registerInput
          { ChunkIndexReuseTape.initial with active := true } m0 x)).1.setGradient
          ((runStoreReuse cfg p (ChunkIndexReuseTape.registerInput
          { ChunkIndexReuseTape.initial with active := true } m0 x)).2.idxs y)
          1)).adjoints) =
        Function.update (fun _ => 0)
          ((runStoreReuse cfg p (ChunkIndexReuseTape.registerInput
          { ChunkIndexReuseTape.initial with active := true } m0 x)).2.idxs y)
          1 := by
      rw [hfa, hfs, hef4]
      by_cases hc : (runStoreReuse cfg p (ChunkIndexReuseTape.registerInput
          { ChunkIndexReuseTape.initial with active := true } m0 x)).2.idxs y
          + 1 ≤
          (runStoreReuse cfg p (ChunkIndexReuseTape.registerInput
          { ChunkIndexReuseTape.initial with active := true }
          m0 x)).1.indexHandler.maxIssued
      · rw [if_pos hc]
        exact zeroRange_update_high _ _ _
      · rw [if_neg hc]
    have hsz2 : (if (((runStoreReuse cfg p (ChunkIndexReuseTape.registerInput
          { ChunkIndexReuseTape.initial with active := true } m0 x)).1.setGradient
          ((runStoreReuse cfg p (ChunkIndexReuseTape.registerInput
          { ChunkIndexReuseTape.initial with active := true } m0 x)).2.idxs y)
          1)).adjointsSize ≤
          (((runStoreReuse cfg p (ChunkIndexReuseTape.registerInput
          { ChunkIndexReuseTape.initial with active := true } m0 x)).1.setGradient
          ((runStoreReuse cfg p (ChunkIndexReuseTape.registerInput
          { ChunkIndexReuseTape.initial with active := true } m0 x)).2.idxs y)
          1)).indexHandler.maxIssued
        then (((runStoreReuse cfg p (ChunkIndexReuseTape.registerInput
          { ChunkIndexReuseTape.initial with active := true } m0 x)).1.setGradient
          ((runStoreReuse cfg p (ChunkIndexReuseTape.registerInput
          { ChunkIndexReuseTape.initial with active := true } m0 x)).2.idxs y)
          1)).indexHandler.maxIssued + 1
        else (((runStoreReuse cfg p (ChunkIndexReuseTape.registerInput
          { ChunkIndexReuseTape.initial with active := true } m0 x)).1.setGradient
          ((runStoreReuse cfg p (ChunkIndexReuseTape.registerInput
          { ChunkIndexReuseTape.initial with active := true } m0 x)).2.idxs y)
          1)).adjointsSize) =
        (runStoreReuse cfg p (ChunkIndexReuseTape.registerInput
          { ChunkIndexReuseTape.initial with active := true }
          m0 x)).1.indexHandler.maxIssued + 1 := by
      rw [hfs, hef4]
      by_cases hc : (runStoreReuse cfg p (ChunkIndexReuseTape.registerInput
          { ChunkIndexReuseTape.initial with active := true } m0 x)).2.idxs y
          + 1 ≤
          (runStoreReuse cfg p (ChunkIndexReuseTape.registerInput
          { ChunkIndexReuseTape.initial with active := true }
          m0 x)).1.indexHandler.maxIssued
      · rw [if_pos hc]
      · rw [if_neg hc]
        omega
    unfold ChunkIndexReuseTape.getGradient
    rw [hev2, hsz2, if_neg (by omega), hev1, hseed, hef2, hef1,
      h2, h1, reuseRunCollapse cfg ls _]
    have hzinvTop : (true = true) →
        ∀ i, i < (runStoreReuse cfg p (ChunkIndexReuseTape.registerInput
          { ChunkIndexReuseTape.initial with active := true }
          m0 x)).1.indexHandler.maxIssued + 1 →
        G i = 0 →
        Function.update (fun _ => (0 : ℚ))
          ((runStoreReuse cfg p (ChunkIndexReuseTape.registerInput
          { ChunkIndexReuseTape.initial with active := true } m0 x)).2.idxs y)
          1 i = 0 := by
      intro _ i _ hGi
      rcases eq_or_ne i ((runStoreReuse cfg p
          (ChunkIndexReuseTape.registerInput
          { ChunkIndexReuseTape.initial with active := true } m0 x)).2.idxs y)
        with rfl | hne
      · exact absurd hGi (h17 y hy)
      · rw [Function.update_noteq hne]
    have hphi := sweepPhi true
      ((runStoreReuse cfg p (ChunkIndexReuseTape.registerInput
        { ChunkIndexReuseTape.initial with active := true }
        m0 x)).1.indexHandler.maxIssued + 1)
      (WofList ws) gs.reverse G
      (Function.update (fun _ => 0)
        ((runStoreReuse cfg p (ChunkIndexReuseTape.registerInput
        { ChunkIndexReuseTape.initial with active := true } m0 x)).2.idxs y) 1)
      hok hzinvTop
    rw [hbot, sweepG_eq_sweepP, List.map_reverse, h19,
      sum_mul_inpMap _ hM2 _ (WofList_zero ws), hW1, mul_one,
      sum_update_one _ _ (by omega)] at hphi
    rw [hphi]
    exact (h18 y).symm

/-- C1: end-to-end adjoint correctness for both tapes.  Starting from a
fresh active tape and a machine whose program variables are all passive,
after `registerInput` of the input variable `x`, recording the straight-line
program `p` (each assignment leaving `x` untouched and fitting the `u8`
statement size), seeding with `setGradient(y, 1)` through `y`'s gradient
data, and running `evaluate()`, the gradient read back through `x`'s
gradient data equals the partial derivative of `y`'s final value with
respect to the input, computed symbolically by the forward dual-number run
`runSym` of the same program (exact rational arithmetic stands in for
floating point).  The `OptIgnoreInvalidJacobies` filter is compiled out, as
its `isfinite` test never fires on finite values. -/
theorem adjoint_correctness (cfg : Config)
    (hIgn : cfg.optIgnoreInvalidJacobies = false)
    (x y : ℕ) (p : List (ℕ × Expr)) (m0 : Mach)
    (hidx0 : ∀ v, m0.idxs v = 0)
    (hp : ∀ a ∈ p, a.1 ≠ x ∧ leafCount a.2 ≤ 255) :
    ((((runStoreLin cfg p (ChunkTape.registerInput
          { ChunkTape.initial with active := true } m0 x)).1.setGradient
        ((runStoreLin cfg p (ChunkTape.registerInput
          { ChunkTape.initial with active := true } m0 x)).2.idxs y)
        1).evaluate cfg).1.getGradient
      ((runStoreLin cfg p (ChunkTape.registerInput
          { ChunkTape.initial with active := true } m0 x)).2.idxs x)) =
      (runSym p (m0.vals, Function.update (fun _ => 0) x 1)).2 y ∧
    ((((runStoreReuse cfg p (ChunkIndexReuseTape.registerInput
          { ChunkIndexReuseTape.initial with active := true }
          m0 x)).1.setGradient
        ((runStoreReuse cfg p (ChunkIndexReuseTape.registerInput
          { ChunkIndexReuseTape.initial with active := true }
          m0 x)).2.idxs y)
        1).evaluate cfg).1.getGradient
      ((runStoreReuse cfg p (ChunkIndexReuseTape.registerInput
          { ChunkIndexReuseTape.initial with active := true }
          m0 x)).2.idxs x)) =
      (runSym p (m0.vals, Function.update (fun _ => 0) x 1)).2 y :=
  ⟨adjoint_main_lin cfg hIgn x y p m0 hidx0 hp,
   adjoint_main_reuse cfg hIgn x y p m0 hidx0 hp⟩

/-- C1 witness: the program `v1 := v0 * v0` with `v0 = 3` registered as
input; both tapes return `∂(v0*v0)/∂v0 = 6`, the value of the symbolic
dual run. -/
theorem adjoint_correctness_witness :
    (((((runStoreLin cfgW progW (ChunkTape.registerInput
          { ChunkTape.initial with active := true } machW0 0)).1.setGradient
        ((runStoreLin cfgW progW (ChunkTape.registerInput
          { ChunkTape.initial with active := true } machW0 0)).2.idxs 1)
        1).evaluate cfgW).1.getGradient
      ((runStoreLin cfgW progW (ChunkTape.registerInput
          { ChunkTape.initial with active := true } machW0 0)).2.idxs 0)) =
      (runSym progW (machW0.vals, Function.update (fun _ => 0) 0 1)).2 1 ∧
    ((((runStoreReuse cfgW progW (ChunkIndexReuseTape.registerInput
          { ChunkIndexReuseTape.initial with active := true }
          machW0 0)).1.setGradient
        ((runStoreReuse cfgW progW (ChunkIndexReuseTape.registerInput
          { ChunkIndexReuseTape.initial with active := true }
          machW0 0)).2.idxs 1)
        1).evaluate cfgW).1.getGradient
      ((runStoreReuse cfgW progW (ChunkIndexReuseTape.registerInput
          { ChunkIndexReuseTape.initial with active := true }
          machW0 0)).2.idxs 0)) =
      (runSym progW (machW0.vals, Function.update (fun _ => 0) 0 1)).2 1) ∧
    (runSym progW (machW0.vals, Function.update (fun _ => 0) 0 1)).2 1 = 6 :=
  ⟨adjoint_correctness cfgW rfl 0 1 progW machW0 (fun _ => rfl)
    (fun a ha => by
      rcases List.mem_singleton.mp ha with rfl
      exact ⟨one_ne_zero, by decide⟩),
   by
    have h1 : (runSym progW (machW0.vals,
        Function.update (fun _ => 0) 0 1)).2 1 =
        derivExpr machW0.vals (Function.update (fun _ => 0) 0 1) exprW := by
      show (symStep (machW0.vals, Function.update (fun _ => 0) 0 1)
        (1, exprW)).2 1 = _
      unfold symStep
      dsimp only
      rw [Function.update_same]
    rw [h1]
    simp only [derivExpr, evalExpr, exprW]
    rw [Function.update_same]
    show (1 : ℚ) * machW0.vals 0 + machW0.vals 0 * 1 = 6
    norm_num [machW0]⟩

end codi

